import Mathlib

/-!
# Verification of quimb's approximate linear algebra core

Shallow embedding of `quimb/linalg/approx_linalg.py` (index planners, lazy
partial-trace contraction operators, linear-operator adapters, Lanczos
tridiagonalisation and the stochastic spectral-function estimator) and of
`MPOSpinHam.add_term` from `quimb/tensor/tensor_gen.py`.

State vectors are flat lists over a commutative star ring `R` (the complex
entries of the Python arrays; `star` plays the role of complex conjugation).
Multi-dimensional arrays are accessed through row-major raveling, exactly as
numpy reshapes flat buffers.  The generalized contraction primitive
(`numpy.einsum` / `opt_einsum.contract`, an external collaborator of the
repository) is modelled from its documented contract: Einstein summation over
integer labels, output indexed by the sorted free labels unless an explicit
output label sequence is given.
-/

namespace Quimb

/-! ## Tuple and summation machinery -/

/-- Sum of `f` over a list (finite summation used throughout). -/
def lsum {α R : Type} [AddCommMonoid R] (l : List α) (f : α → R) : R :=
  (l.map f).sum

/-- All index tuples of a multi-dimensional array of shape `ds`,
in row-major (lexicographic) order. -/
def allTuples : List ℕ → List (List ℕ)
  | [] => [[]]
  | d :: ds => (List.range d).flatMap (fun i => (allTuples ds).map (i :: ·))

/-- Row-major ravel of a multi-index `ix` for shape `ds`
(how numpy lays out a reshaped flat buffer). -/
def ravel : List ℕ → List ℕ → ℕ
  | _ :: ds, i :: ix => i * ds.prod + ravel ds ix
  | _, _ => 0

/-- Entry of the flat buffer `v`, viewed as an array of shape `ds`,
at multi-index `ix`. -/
def tget {R : Type} [Zero R] (v : List R) (ds : List ℕ) (ix : List ℕ) : R :=
  v.getD (ravel ds ix) 0

/-- Insert into a sorted list of naturals. -/
def insertSorted (x : ℕ) : List ℕ → List ℕ
  | [] => [x]
  | y :: ys => if x ≤ y then x :: y :: ys else y :: insertSorted x ys

/-- Insertion sort on naturals (ascending), used to model numpy's
"sorted free labels" output convention for implicit-mode einsum. -/
def sortNat (xs : List ℕ) : List ℕ :=
  xs.foldr insertSorted []

/-- Assignment of values to integer labels, read off an association list
(first match wins, default `0`). -/
def asgnF (ps : List (ℕ × ℕ)) : ℕ → ℕ :=
  fun l => (ps.lookup l).getD 0

/-- Sum of `G` over all assignments extending `ν` on the labelled
dimensions `ps`: each pair `(l, d)` contributes a summation of the label `l`
over `0, …, d-1`. -/
def sumAssign {R : Type} [AddCommMonoid R] :
    List (ℕ × ℕ) → (ℕ → ℕ) → ((ℕ → ℕ) → R) → R
  | [], ν, G => G ν
  | (l, d) :: ps, ν, G =>
      lsum (List.range d) (fun v => sumAssign ps (Function.update ν l v) G)

/-- One operand of a generalized contraction: its integer axis labels,
its shape, and its flat data buffer. -/
structure Operand (R : Type) where
  labels : List ℕ
  dims : List ℕ
  data : List R

/-- Modelled from the spec: the external generic contraction primitive
(`numpy.einsum` / `opt_einsum.contract`).  Performs Einstein summation of the
operands over repeated integer labels; the result is indexed by the explicit
output label sequence when given, otherwise by the free labels (those
occurring exactly once) in ascending order. -/
def einsum {R : Type} [CommRing R] (ops : List (Operand R))
    (outOpt : Option (List ℕ)) : Operand R :=
  let jn := ops.flatMap (·.labels)
  let free := sortNat (jn.filter (fun l => jn.count l = 1))
  let out := outOpt.getD free
  let pairsAll := ops.flatMap (fun op => op.labels.zip op.dims)
  let dimOf := fun l => (pairsAll.lookup l).getD 0
  let slb := jn.dedup.filter (fun l => l ∉ out)
  let data := (allTuples (out.map dimOf)).map (fun oix =>
    sumAssign (slb.map (fun l => (l, dimOf l))) (asgnF (out.zip oix))
      (fun ν => (ops.map (fun op => tget op.data op.dims (op.labels.map ν))).prod))
  ⟨out, out.map dimOf, data⟩

/-! ## Errors

Abstract error conditions surfaced by the embedded operations: numpy's
reshape `ValueError` on a size mismatch plays the role of the spec's
`ShapeError`, and `MPOSpinHam.add_term` raises `NotImplementedError`. -/

/-- Error conditions of the embedded operations. -/
inductive QuimbError : Type
  | shapeError : QuimbError
  | notImplemented : QuimbError
deriving DecidableEq

/-! ## Index planners (`get_cntrct_inds_ptr_dot`, `get_cntrct_inds_ptr_ppt_dot`)

The Python planners iterate `i` over `range(ndim)` drawing fresh labels from
`iter(range(ndim, 2 * ndim))`; the embeddings walk the same position list
carrying the next fresh label.  The `functools.lru_cache` memoisation is a
pure performance device and has no semantic content. -/

/-- Walk of `get_cntrct_inds_ptr_dot` over the remaining positions, with the
next fresh upper label `u`. -/
def ptrDotIndsAux (sysa : List ℕ) : List ℕ → ℕ → List ℕ × List ℕ × List ℕ
  | [], _ => ([], [], [])
  | i :: rest, u =>
      if i ∈ sysa then
        let r := ptrDotIndsAux sysa rest (u + 1)
        (i :: r.1, i :: r.2.1, u :: r.2.2)
      else
        let r := ptrDotIndsAux sysa rest u
        (r.1, i :: r.2.1, i :: r.2.2)

/-- Integer contraction labels for `lazy_ptr_dot`: returns
`(inds_a_ket, inds_ab_bra, inds_ab_ket)`. -/
def get_cntrct_inds_ptr_dot (ndim_ab : ℕ) (sysa : List ℕ) :
    List ℕ × List ℕ × List ℕ :=
  ptrDotIndsAux sysa (List.range ndim_ab) ndim_ab

/-- Walk of `get_cntrct_inds_ptr_ppt_dot` over the remaining positions, with
the next fresh upper label `u`.  The `sysa` test precedes the `sysb` test,
mirroring the Python `if … elif …`. -/
def ptrPptIndsAux (sysa sysb : List ℕ) :
    List ℕ → ℕ → List ℕ × List ℕ × List ℕ × List ℕ
  | [], _ => ([], [], [], [])
  | i :: rest, u =>
      if i ∈ sysa then
        let r := ptrPptIndsAux sysa sysb rest (u + 1)
        (i :: r.1, u :: r.2.1, i :: r.2.2.1, u :: r.2.2.2)
      else if i ∈ sysb then
        let r := ptrPptIndsAux sysa sysb rest (u + 1)
        (u :: r.1, u :: r.2.1, i :: r.2.2.1, i :: r.2.2.2)
      else
        let r := ptrPptIndsAux sysa sysb rest u
        (r.1, i :: r.2.1, i :: r.2.2.1, r.2.2.2)

/-- Integer contraction labels for `lazy_ptr_ppt_dot`: returns
`(inds_ab_ket, inds_abc_bra, inds_abc_ket, inds_out)`. -/
def get_cntrct_inds_ptr_ppt_dot (ndim_abc : ℕ) (sysa sysb : List ℕ) :
    List ℕ × List ℕ × List ℕ × List ℕ :=
  ptrPptIndsAux sysa sysb (List.range ndim_abc) ndim_abc

/-! ## Lazy contraction operators -/

/-- Entrywise complex conjugation of a flat buffer
(`ndarray.conjugate()`). -/
def conjL {R : Type} [CommRing R] [StarRing R] (v : List R) : List R :=
  v.map star

/-- The sub-dimension list kept by a subsystem subset:
`[d for i, d in enumerate(dims) if i in sys]`. -/
def kept (dims : List ℕ) (sys : List ℕ) : List ℕ :=
  (dims.enum.filter (fun p => p.1 ∈ sys)).map Prod.snd

/-- `lazy_ptr_dot(psi_ab, psi_a, dims, sysa)`: the lazy evaluation of
`ptr(psi_ab, …) @ psi_a` as a single three-tensor contraction.  `dims`
defaults to the bipartition `(psi_a.size, psi_ab.size // psi_a.size)`.
numpy's reshape of a flat buffer to an incompatible shape raises, which is
modelled as `QuimbError.shapeError`; the final reshape back to `psi_a`'s
shape is the identity on flat buffers. -/
def lazy_ptr_dot {R : Type} [CommRing R] [StarRing R]
    (psi_ab psi_a : List R) (dimsOpt : Option (List ℕ)) (sysa : List ℕ) :
    Except QuimbError (List R) :=
  let dims := match dimsOpt with
    | none => [psi_a.length, psi_ab.length / psi_a.length]
    | some ds => ds
  let ndim_ab := dims.length
  let dims_a := kept dims sysa
  let inds := get_cntrct_inds_ptr_dot ndim_ab sysa
  if psi_ab.length = dims.prod then
    if psi_a.length = dims_a.prod then
      .ok (einsum [⟨inds.1, dims_a, psi_a⟩,
                   ⟨inds.2.1, dims, conjL psi_ab⟩,
                   ⟨inds.2.2, dims, psi_ab⟩] none).data
    else .error .shapeError
  else .error .shapeError

/-- `lazy_ptr_ppt_dot(psi_abc, psi_ab, dims, sysa, sysb)`: the lazy
evaluation of `partial_transpose(ptr(psi_abc, …)) @ psi_ab`, contracting with
the explicit output label sequence `inds_out`. -/
def lazy_ptr_ppt_dot {R : Type} [CommRing R] [StarRing R]
    (psi_abc psi_ab : List R) (dims : List ℕ) (sysa sysb : List ℕ) :
    Except QuimbError (List R) :=
  let inds := get_cntrct_inds_ptr_ppt_dot dims.length sysa sysb
  let dims_ab := kept dims (sysa ++ sysb)
  if psi_abc.length = dims.prod then
    if psi_ab.length = dims_ab.prod then
      .ok (einsum [⟨inds.1, dims_ab, psi_ab⟩,
                   ⟨inds.2.1, dims, conjL psi_abc⟩,
                   ⟨inds.2.2.1, dims, psi_abc⟩] (some inds.2.2.2)).data
    else .error .shapeError
  else .error .shapeError

/-! ## Linear operator adapters -/

/-- The `LazyPtrOperatr` linear-operator handle (the class name's spelling
follows the source). -/
structure LazyPtrOperatr (R : Type) where
  psi_ab : List R
  dims : List ℕ
  sysa : List ℕ

/-- `_matvec`: delegate to `lazy_ptr_dot` with the stored state. -/
def LazyPtrOperatr.matvec {R : Type} [CommRing R] [StarRing R]
    (op : LazyPtrOperatr R) (vec : List R) : Except QuimbError (List R) :=
  lazy_ptr_dot op.psi_ab vec (some op.dims) op.sysa

/-- `_adjoint`: a new handle of the same class wrapping the conjugated ket,
dims and subset unchanged. -/
def LazyPtrOperatr.adjoint {R : Type} [CommRing R] [StarRing R]
    (op : LazyPtrOperatr R) : LazyPtrOperatr R :=
  ⟨conjL op.psi_ab, op.dims, op.sysa⟩

/-- The `LazyPtrPptOperator` linear-operator handle. -/
structure LazyPtrPptOperator (R : Type) where
  psi_abc : List R
  dims : List ℕ
  sysa : List ℕ
  sysb : List ℕ

/-- `_matvec`: delegate to `lazy_ptr_ppt_dot` with the stored state. -/
def LazyPtrPptOperator.matvec {R : Type} [CommRing R] [StarRing R]
    (op : LazyPtrPptOperator R) (vec : List R) : Except QuimbError (List R) :=
  lazy_ptr_ppt_dot op.psi_abc vec op.dims op.sysa op.sysb

/-- `_adjoint`: a new handle of the same class wrapping the conjugated ket,
dims and subsets unchanged. -/
def LazyPtrPptOperator.adjoint {R : Type} [CommRing R] [StarRing R]
    (op : LazyPtrPptOperator R) : LazyPtrPptOperator R :=
  ⟨conjL op.psi_abc, op.dims, op.sysa, op.sysb⟩

/-- `np.vdot`: inner product, complex-conjugating its first argument. -/
def vdot {R : Type} [CommRing R] [StarRing R] (u v : List R) : R :=
  ((u.zip v).map (fun p => star p.1 * p.2)).sum

/-! ## Reference (spec-side) reduced density matrix operations

These definitions follow the specification's words — explicitly form the
reduced density matrix (partial trace of the outer product of the ket with
its conjugate), optionally partially transpose it, and apply it to a vector —
and are compared against the lazy contractions above. -/

/-- Boolean membership mask of a subsystem subset over positions
`0, …, n-1`. -/
def maskOf (n : ℕ) (sys : List ℕ) : List Bool :=
  (List.range n).map (fun i => decide (i ∈ sys))

/-- The dimensions at `true` positions of a mask. -/
def keptB : List Bool → List ℕ → List ℕ
  | true :: bs, d :: ds => d :: keptB bs ds
  | false :: bs, _ :: ds => keptB bs ds
  | _, _ => []

/-- Interleave a tuple `as` (at `true` positions) with a tuple `cs`
(at `false` positions) into a full multi-index. -/
def mergeB : List Bool → List ℕ → List ℕ → List ℕ
  | [], _, _ => []
  | true :: bs, as, cs => as.headD 0 :: mergeB bs as.tail cs
  | false :: bs, as, cs => cs.headD 0 :: mergeB bs as cs.tail

/-- Pointwise selection between two equally-shaped tuples:
at `true` positions take from `us`, at `false` positions from `vs`. -/
def pickB : List Bool → List ℕ → List ℕ → List ℕ
  | [], _, _ => []
  | b :: bs, us, vs =>
      (if b then us.headD 0 else vs.headD 0) :: pickB bs us.tail vs.tail

/-- Entry `(x, y)` of the reduced density matrix
`ptr(|psi⟩⟨psi|, dims, sys)`: the partial trace, over the complement of
`sys`, of the outer product of `psi` with its conjugate.  `x` and `y` are
multi-indices over the kept dimensions in ascending position order. -/
def ptrRho {R : Type} [CommRing R] [StarRing R]
    (psi : List R) (dims : List ℕ) (sys : List ℕ) (x y : List ℕ) : R :=
  let bs := maskOf dims.length sys
  lsum (allTuples (keptB (bs.map not) dims)) (fun b =>
    tget psi dims (mergeB bs x b) * star (tget psi dims (mergeB bs y b)))

/-- Explicit evaluation of `ptr(|psi_ab⟩⟨psi_ab|, dims, sysa) @ psi_a`,
forming the reduced density matrix entrywise. -/
def ptrMatVec {R : Type} [CommRing R] [StarRing R]
    (psi_ab psi_a : List R) (dims : List ℕ) (sysa : List ℕ) : List R :=
  let dimsA := keptB (maskOf dims.length sysa) dims
  (allTuples dimsA).map (fun x =>
    lsum (allTuples dimsA) (fun y => ptrRho psi_ab dims sysa x y * tget psi_a dimsA y))

/-- Mask, over the kept positions (ascending), of those belonging to
`sysa` rather than `sysb`. -/
def maskAmongKept (n : ℕ) (sysa sysb : List ℕ) : List Bool :=
  ((List.range n).filter (fun i => i ∈ sysa ∨ i ∈ sysb)).map
    (fun i => decide (i ∈ sysa))

/-- Explicit evaluation of
`partial_transpose(ptr(|psi_abc⟩⟨psi_abc|, dims, sysa+sysb)) @ psi_ab`:
form the reduced density matrix on the kept subsystems, partially transpose
it on the a/b bipartition, and apply it; the result's axes are the kept
subsystems in ascending physical order. -/
def pptMatVec {R : Type} [CommRing R] [StarRing R]
    (psi_abc psi_ab : List R) (dims : List ℕ) (sysa sysb : List ℕ) : List R :=
  let n := dims.length
  let bsK := maskOf n (sysa ++ sysb)
  let dimsK := keptB bsK dims
  let bsA := maskAmongKept n sysa sysb
  (allTuples dimsK).map (fun x =>
    lsum (allTuples dimsK) (fun y =>
      ptrRho psi_abc dims (sysa ++ sysb) (pickB bsA y x) (pickB bsA x y) *
        tget psi_ab dimsK y))

/-- Boolean membership test in a subsystem subset (the `i in sysa` of the
Python planners). -/
def memB (sys : List ℕ) : ℕ → Bool := fun i => decide (i ∈ sys)

/-- Analysis helper: the fresh labels the trace+transpose+dot planner
consumes at `sysa` positions (the counter advances at every kept
position). -/
def pptFreshA (sysa sysb : List ℕ) : List ℕ → ℕ → List ℕ
  | [], _ => []
  | i :: is, u =>
      if i ∈ sysa then u :: pptFreshA sysa sysb is (u + 1)
      else if i ∈ sysb then pptFreshA sysa sysb is (u + 1)
      else pptFreshA sysa sysb is u

/-- Analysis helper: the fresh labels the trace+transpose+dot planner
consumes at `sysb` positions. -/
def pptFreshB (sysa sysb : List ℕ) : List ℕ → ℕ → List ℕ
  | [], _ => []
  | i :: is, u =>
      if i ∈ sysa then pptFreshB sysa sysb is (u + 1)
      else if i ∈ sysb then u :: pptFreshB sysa sysb is (u + 1)
      else pptFreshB sysa sysb is u

/-- Analysis helper: the summed label of each position of the
trace+transpose+dot contraction (the base label at `sysa` and traced
positions, the fresh label at `sysb` positions). -/
def pptSumKeys (sysa sysb : List ℕ) : List ℕ → ℕ → List ℕ
  | [], _ => []
  | i :: is, u =>
      if i ∈ sysa then i :: pptSumKeys sysa sysb is (u + 1)
      else if i ∈ sysb then u :: pptSumKeys sysa sysb is (u + 1)
      else i :: pptSumKeys sysa sysb is u

/-- Overlay of an association list over a base assignment: labels found in
`ps` take their first associated value, all others fall back to `ν`. -/
def ovl (ν : ℕ → ℕ) (ps : List (ℕ × ℕ)) : ℕ → ℕ :=
  fun l => (ps.lookup l).getD (ν l)

/-! ## Lanczos engine (`construct_lanczos_tridiag`, `lanczos_tridiag_eig`,
`approx_spectral_function`)

These are embedded over an abstract field `K` of scalars together with the
primitive operations the Python code uses on complex floats: `conjK`
(complex conjugation, used by `np.vdot`), `reK` (`.real`), `sqrtK`
(`math.sqrt`) and the imaginary unit `IK` (`1.0j`).  All identities proved
about them are structural and hold for any interpretation of these
primitives.  The `np.random.randn` draws are passed in explicitly as the
streams `rndRe`/`rndIm` (the Python code reads the process-wide generator).
The banded symmetric eigensolver `scipy.linalg.eig_banded` is an external
collaborator and is passed in as an abstract function `eigBanded` returning
the eigenvalues and the eigenvector matrix (entry accessor `ev i j` =
component `i` of eigenvector `j`). -/

section Lanczos

variable {K : Type} [Field K] (conjK reK sqrtK : K → K) (IK : K)

/-- Componentwise vector subtraction. -/
def vsub (u v : List K) : List K := List.zipWith (· - ·) u v

/-- Scalar times vector. -/
def vsmul (c : K) (v : List K) : List K := v.map (fun x => c * x)

/-- Vector divided componentwise by a scalar (`wk / beta[k + 1]`). -/
def vdiv (v : List K) (c : K) : List K := v.map (fun x => x / c)

/-- `np.vdot` over `K`: sum of `conjK u_i * v_i`. -/
def vdotC (u v : List K) : K := (List.zipWith (fun a b => conjK a * b) u v).sum

/-- The mutable state of the Lanczos loop: the arrays `alpha`, `beta` and the
matrix of Krylov vectors `vk` (all zero-initialised; `np.empty` cells that
are never read before being written are modelled as zeros), plus an
instrumentation log recording each vector the operator `A` is applied to. -/
structure LanczosState (K : Type) where
  alpha : ℕ → K
  beta : ℕ → K
  vk : ℕ → List K
  log : List (List K)

/-- One iteration `k` of the Krylov loop of `construct_lanczos_tridiag`:
`wk = A @ vk[:,k] - beta[k] * vk[:,k-1]`; `alpha[k] = vdot(wk, vk[:,k]).real`;
`wk -= alpha[k] * vk[:,k]`; `beta[k+1] = sqrt(vdot(wk, wk).real)`;
`vk[:,k+1] = wk / beta[k+1]`. -/
def lanczosStep (Adot : List K → List K) (st : LanczosState K) (k : ℕ) :
    LanczosState K :=
  let w1 := vsub (Adot (st.vk k)) (vsmul (st.beta k) (st.vk (k - 1)))
  let a := reK (vdotC conjK w1 (st.vk k))
  let w2 := vsub w1 (vsmul a (st.vk k))
  let b := sqrtK (reK (vdotC conjK w2 w2))
  { alpha := Function.update st.alpha k a
    beta := Function.update st.beta (k + 1) b
    vk := Function.update st.vk (k + 1) (vdiv w2 b)
    log := st.log ++ [st.vk k] }

/-- The state before the loop: `alpha = np.zeros(M+1)`, `beta = np.zeros(M+2)`,
`vk[:,0] = 0`, and `vk[:,1]` the start vector (random complex with
independent `randn` real and imaginary parts when `v0` is not supplied)
normalised by `sqrt(vdot(·,·).real)`. -/
def lanczosInitState (d : ℕ) (v0 : Option (List K)) (rndRe rndIm : List K) :
    LanczosState K :=
  let raw := match v0 with
    | none => List.zipWith (fun a b => a + IK * b) rndRe rndIm
    | some v => v
  let v1 := vdiv raw (sqrtK (reK (vdotC conjK raw raw)))
  { alpha := fun _ => 0
    beta := fun _ => 0
    vk := fun j => if j = 0 then List.replicate d 0
           else if j = 1 then v1 else List.replicate d 0
    log := [] }

/-- The Krylov loop `for k in range(1, M + 1)` of
`construct_lanczos_tridiag`. -/
def lanczosLoop (Adot : List K → List K) (d M : ℕ) (v0 : Option (List K))
    (rndRe rndIm : List K) : LanczosState K :=
  (List.range' 1 M).foldl (lanczosStep conjK reK sqrtK Adot)
    (lanczosInitState conjK reK sqrtK IK d v0 rndRe rndIm)

/-- `construct_lanczos_tridiag(A, v0, M)`: run the Krylov loop and return
`(alpha[1:], beta[2:-1])`, i.e. diagonal entries `alpha_1 … alpha_M` and
off-diagonal entries `beta_2 … beta_M`. -/
def construct_lanczos_tridiag (Adot : List K → List K) (d M : ℕ)
    (v0 : Option (List K)) (rndRe rndIm : List K) : List K × List K :=
  let st := lanczosLoop conjK reK sqrtK IK Adot d M v0 rndRe rndIm
  ((List.range M).map (fun j => st.alpha (j + 1)),
   (List.range (M - 1)).map (fun j => st.beta (j + 2)))

/-- Instrumentation: the list of vectors the operator was applied to during
one run of `construct_lanczos_tridiag` (one application per loop
iteration). -/
def lanczosMatvecLog (Adot : List K → List K) (d M : ℕ)
    (v0 : Option (List K)) (rndRe rndIm : List K) : List (List K) :=
  (lanczosLoop conjK reK sqrtK IK Adot d M v0 rndRe rndIm).log

/-- Specification-side start vector: the supplied `v0`, or the random
complex vector `rndRe + I * rndIm`, normalised to unit norm. -/
def lanczosSpecStart (v0 : Option (List K)) (rndRe rndIm : List K) : List K :=
  let raw := match v0 with
    | none => List.zipWith (fun a b => a + IK * b) rndRe rndIm
    | some v => v
  vdiv raw (sqrtK (reK (vdotC conjK raw raw)))

/-- Specification-side Lanczos recurrence step, maintaining the state
`(v_{k-1}, v_k, beta_k)`: `w = A v_k - beta_k v_{k-1}`;
`alpha_k = Re⟨w, v_k⟩`; `w -= alpha_k v_k`; `beta_{k+1} = sqrt(Re⟨w, w⟩)`;
`v_{k+1} = w / beta_{k+1}`. -/
def lanczosSpecStep (Adot : List K → List K) (s : List K × List K × K) :
    List K × List K × K :=
  let w := vsub (Adot s.2.1) (vsmul s.2.2 s.1)
  let a := reK (vdotC conjK w s.2.1)
  let w2 := vsub w (vsmul a s.2.1)
  let b := sqrtK (reK (vdotC conjK w2 w2))
  (s.2.1, vdiv w2 b, b)

/-- Specification-side Lanczos state after `k` recurrence steps:
`(v_k, v_{k+1}, beta_{k+1})`, starting from `(v_0, v_1, beta_1) =
(0, v_1, 0)`. -/
def lanczosSpecIter (Adot : List K → List K) (d : ℕ) (v1 : List K) :
    ℕ → List K × List K × K
  | 0 => (List.replicate d 0, v1, 0)
  | k + 1 => lanczosSpecStep conjK reK sqrtK Adot
      (lanczosSpecIter Adot d v1 k)

/-- Specification-side diagonal entry `alpha_k` (for `k ≥ 1`): with
`(v_{k-1}, v_k, beta_k)` the state before step `k`,
`alpha_k = Re⟨A v_k - beta_k v_{k-1}, v_k⟩`. -/
def lanczosSpecAlpha (Adot : List K → List K) (d : ℕ) (v1 : List K)
    (k : ℕ) : K :=
  let s := lanczosSpecIter conjK reK sqrtK Adot d v1 (k - 1)
  reK (vdotC conjK (vsub (Adot s.2.1) (vsmul s.2.2 s.1)) s.2.1)

/-- Specification-side off-diagonal entry `beta_k` (`beta_1 = 0`). -/
def lanczosSpecBeta (Adot : List K → List K) (d : ℕ) (v1 : List K)
    (k : ℕ) : K :=
  (lanczosSpecIter conjK reK sqrtK Adot d v1 (k - 1)).2.2

/-- `lanczos_tridiag_eig(alpha, beta)`.  Modelled from the spec: the
banded-matrix packing (`Tk_banded` with `alpha` on the main diagonal and
`beta` on the sub-diagonal) and diagonalisation are delegated to the
external banded symmetric eigensolver `scipy.linalg.eig_banded`, represented
by the abstract `eigBanded`, which returns the ascending eigenvalues and the
eigenvector matrix. -/
def lanczos_tridiag_eig
    (eigBanded : List K → List K → (ℕ → K) × (ℕ → ℕ → K))
    (alpha beta : List K) : (ℕ → K) × (ℕ → ℕ → K) :=
  eigBanded alpha beta

/-- `approx_spectral_function(A, fn, M, R, v0)`: sum, over `R` restarts, of
`fn(el[i]) * ev[0, i]**2` for the `M` eigenpairs of each restart's
tridiagonal matrix, scaled by `A.shape[0] / R`.  Restart `r` consumes the
random draws `rnds r`. -/
def approx_spectral_function
    (eigBanded : List K → List K → (ℕ → K) × (ℕ → ℕ → K))
    (Adot : List K → List K) (fn : K → K) (d M nR : ℕ)
    (v0 : Option (List K)) (rnds : ℕ → List K × List K) : K :=
  let gen_vals := (List.range nR).flatMap (fun r =>
    let ab := construct_lanczos_tridiag conjK reK sqrtK IK Adot d M v0
      (rnds r).1 (rnds r).2
    let elev := lanczos_tridiag_eig eigBanded ab.1 ab.2
    (List.range M).map (fun i => fn (elev.1 i) * (elev.2 0 i) ^ 2))
  gen_vals.sum * ((d : K) / (nR : K))

/-- Instrumentation: all vectors the operator is applied to across the `R`
restarts of `approx_spectral_function`. -/
def approxSpectralMatvecLog (Adot : List K → List K) (d M nR : ℕ)
    (v0 : Option (List K)) (rnds : ℕ → List K × List K) : List (List K) :=
  (List.range nR).flatMap (fun r =>
    lanczosMatvecLog conjK reK sqrtK IK Adot d M v0 (rnds r).1 (rnds r).2)

end Lanczos

/-! ## `MPOSpinHam` builder (`quimb/tensor/tensor_gen.py`)

Only the term-collection state of the builder is relevant to the claims:
`S`, `one_site_terms` and `two_site_terms`.  Operator arguments (strings or
arrays in Python) are an abstract type `Op`; factors an abstract type `F`. -/

/-- Builder state for translationally invariant spin Hamiltonians in MPO
form. -/
structure MPOSpinHam (F Op : Type) where
  S : F
  one_site_terms : List (F × Op)
  two_site_terms : List (F × Op × Op)

/-- `MPOSpinHam.add_term(factor, *operators)`: append `(factor, op)` to
`one_site_terms` for one operator, `(factor, op1, op2)` to `two_site_terms`
for two, and raise `NotImplementedError` otherwise. -/
def MPOSpinHam.add_term {F Op : Type} (h : MPOSpinHam F Op) (factor : F)
    (operators : List Op) : Except QuimbError (MPOSpinHam F Op) :=
  match operators with
  | [o] => .ok { h with one_site_terms := h.one_site_terms ++ [(factor, o)] }
  | [o1, o2] =>
      .ok { h with two_site_terms := h.two_site_terms ++ [(factor, o1, o2)] }
  | _ => .error .notImplemented

/-! # Theorems

## Summation and tuple toolkit -/

theorem lsum_nil {α R : Type} [AddCommMonoid R] (f : α → R) : lsum [] f = 0 := rfl

theorem lsum_cons {α R : Type} [AddCommMonoid R] (a : α) (l : List α) (f : α → R) :
    lsum (a :: l) f = f a + lsum l f := by
  simp [lsum]

theorem lsum_append {α R : Type} [AddCommMonoid R] (l₁ l₂ : List α) (f : α → R) :
    lsum (l₁ ++ l₂) f = lsum l₁ f + lsum l₂ f := by
  simp [lsum]

theorem lsum_map {α β R : Type} [AddCommMonoid R] (g : α → β) (l : List α) (f : β → R) :
    lsum (l.map g) f = lsum l (fun a => f (g a)) := by
  simp [lsum, List.map_map, Function.comp_def]

theorem lsum_flatMap {α β R : Type} [AddCommMonoid R] (l : List α) (g : α → List β)
    (f : β → R) :
    lsum (l.flatMap g) f = lsum l (fun a => lsum (g a) f) := by
  induction l with
  | nil => rfl
  | cons a t ih => simp only [List.flatMap_cons, lsum_append, lsum_cons, ih]

theorem lsum_congr {α R : Type} [AddCommMonoid R] {l : List α} {f g : α → R}
    (h : ∀ a ∈ l, f a = g a) : lsum l f = lsum l g := by
  unfold lsum
  rw [List.map_congr_left h]

theorem lsum_add {α R : Type} [AddCommMonoid R] (l : List α) (f g : α → R) :
    lsum l (fun a => f a + g a) = lsum l f + lsum l g := by
  induction l with
  | nil => simp [lsum_nil]
  | cons a t ih => simp only [lsum_cons, ih]; abel

theorem lsum_zero {α R : Type} [AddCommMonoid R] (l : List α) :
    lsum l (fun _ => (0 : R)) = 0 := by
  simp [lsum]

theorem lsum_comm {α β R : Type} [AddCommMonoid R] (l : List α) (m : List β)
    (g : α → β → R) :
    lsum l (fun a => lsum m (g a)) = lsum m (fun b => lsum l (fun a => g a b)) := by
  induction l with
  | nil => simp [lsum_nil, lsum_zero]
  | cons a t ih => simp only [lsum_cons, ih, lsum_add]

theorem lsum_mul_right {α R : Type} [NonUnitalNonAssocSemiring R] (l : List α)
    (f : α → R) (c : R) : lsum l f * c = lsum l (fun a => f a * c) := by
  simp [lsum, (List.sum_map_mul_right l f c).symm]

theorem lsum_mul_left {α R : Type} [NonUnitalNonAssocSemiring R] (l : List α)
    (f : α → R) (c : R) : c * lsum l f = lsum l (fun a => c * f a) := by
  simp [lsum, (List.sum_map_mul_left l f c).symm]

theorem lsum_star {α R : Type} [AddCommMonoid R] [StarAddMonoid R] (l : List α)
    (f : α → R) : star (lsum l f) = lsum l (fun a => star (f a)) := by
  induction l with
  | nil => simp [lsum_nil]
  | cons a t ih => simp only [lsum_cons, star_add, ih]

theorem mem_allTuples {ds : List ℕ} {t : List ℕ} :
    t ∈ allTuples ds ↔ List.Forall₂ (· < ·) t ds := by
  induction ds generalizing t with
  | nil =>
      simp [allTuples, List.forall₂_nil_right_iff]
  | cons d ds ih =>
      simp only [allTuples, List.mem_flatMap, List.mem_map, List.mem_range,
        List.forall₂_cons_right_iff, ih]
      constructor
      · rintro ⟨i, hi, t', ht', rfl⟩
        exact ⟨i, t', hi, ht', rfl⟩
      · rintro ⟨i, t', hi, ht', rfl⟩
        exact ⟨i, hi, t', ht', rfl⟩

theorem length_of_mem_allTuples {ds : List ℕ} {t : List ℕ}
    (h : t ∈ allTuples ds) : t.length = ds.length :=
  (mem_allTuples.mp h).length_eq

/-! ## Mask toolkit: `keptB`, `mergeB` -/

theorem keptB_length : ∀ (bs : List Bool) (ds : List ℕ),
    bs.length = ds.length → (keptB bs ds).length = bs.count true
  | [], [], _ => rfl
  | true :: bs, d :: ds, h => by
      simp only [keptB, List.length_cons, List.count_cons, beq_self_eq_true,
        if_true, keptB_length bs ds (by simpa using h)]
  | false :: bs, d :: ds, h => by
      simp only [keptB, List.count_cons, keptB_length bs ds (by simpa using h)]
      norm_num
  | [], _ :: _, h => by simp at h
  | _ :: _, [], h => by simp at h

theorem mergeB_length : ∀ (bs : List Bool) (as cs : List ℕ),
    (mergeB bs as cs).length = bs.length
  | [], _, _ => rfl
  | true :: bs, as, cs => by simp [mergeB, mergeB_length bs]
  | false :: bs, as, cs => by simp [mergeB, mergeB_length bs]

theorem keptB_mergeB_true : ∀ (bs : List Bool) (as cs : List ℕ),
    as.length = bs.count true → keptB bs (mergeB bs as cs) = as
  | [], as, cs, h => by
      simp only [List.count_nil] at h
      simp [List.length_eq_zero.mp h, mergeB, keptB]
  | true :: bs, as, cs, h => by
      match as with
      | [] => simp [List.count_cons] at h
      | a :: as =>
          simp only [mergeB, List.headD_cons, List.tail_cons, keptB]
          rw [keptB_mergeB_true bs as cs (by simpa [List.count_cons] using h)]
  | false :: bs, as, cs, h => by
      simp only [mergeB, keptB]
      exact keptB_mergeB_true bs as cs.tail (by simpa [List.count_cons] using h)

theorem keptB_mergeB_false : ∀ (bs : List Bool) (as cs : List ℕ),
    cs.length = bs.count false → keptB (bs.map not) (mergeB bs as cs) = cs
  | [], as, cs, h => by
      simp only [List.count_nil] at h
      simp [List.length_eq_zero.mp h, mergeB, keptB]
  | true :: bs, as, cs, h => by
      simp only [mergeB, List.map_cons, Bool.not_true, keptB]
      exact keptB_mergeB_false bs as.tail cs (by simpa [List.count_cons] using h)
  | false :: bs, as, cs, h => by
      match cs with
      | [] => simp [List.count_cons] at h
      | c :: cs =>
          simp only [mergeB, List.headD_cons, List.tail_cons, List.map_cons,
            Bool.not_false, keptB]
          rw [keptB_mergeB_false bs as cs (by simpa [List.count_cons] using h)]

/-- The central sum-splitting identity: a sum over all multi-indices of
shape `ds` splits as a double sum over the sub-indices at `true` positions
and at `false` positions of a mask. -/
theorem lsum_allTuples_split {R : Type} [AddCommMonoid R] :
    ∀ (bs : List Bool) (ds : List ℕ) (F : List ℕ → R), bs.length = ds.length →
    lsum (allTuples ds) F =
      lsum (allTuples (keptB bs ds)) (fun a =>
        lsum (allTuples (keptB (bs.map not) ds)) (fun c => F (mergeB bs a c)))
  | [], [], F, _ => by
      simp [allTuples, keptB, mergeB, lsum_cons, lsum_nil]
  | true :: bs, d :: ds, F, h => by
      simp only [allTuples, keptB, List.map_cons, Bool.not_true, lsum_flatMap,
        lsum_map]
      refine lsum_congr (fun i _ => ?_)
      rw [lsum_allTuples_split bs ds (fun t => F (i :: t)) (by simpa using h)]
      refine lsum_congr (fun a _ => lsum_congr (fun c _ => ?_))
      simp [mergeB]
  | false :: bs, d :: ds, F, h => by
      have h' : bs.length = ds.length := by simpa using h
      calc lsum (allTuples (d :: ds)) F
          = lsum (List.range d) (fun i =>
              lsum (allTuples ds) (fun t => F (i :: t))) := by
            simp only [allTuples, lsum_flatMap, lsum_map]
        _ = lsum (List.range d) (fun i =>
              lsum (allTuples (keptB bs ds)) (fun a =>
                lsum (allTuples (keptB (bs.map not) ds))
                  (fun c => F (i :: mergeB bs a c)))) :=
            lsum_congr (fun i _ =>
              lsum_allTuples_split bs ds (fun t => F (i :: t)) h')
        _ = lsum (allTuples (keptB bs ds)) (fun a =>
              lsum (List.range d) (fun i =>
                lsum (allTuples (keptB (bs.map not) ds))
                  (fun c => F (i :: mergeB bs a c)))) := lsum_comm _ _ _
        _ = lsum (allTuples (keptB (false :: bs) (d :: ds))) (fun a =>
              lsum (allTuples (keptB ((false :: bs).map not) (d :: ds)))
                (fun c => F (mergeB (false :: bs) a c))) := by
            simp only [keptB, List.map_cons, Bool.not_false, allTuples,
              lsum_flatMap, lsum_map]
            exact lsum_congr (fun a _ => lsum_congr (fun i _ =>
              lsum_congr (fun c _ => by simp [mergeB])))
  | [], _ :: _, _, h => by simp at h
  | _ :: _, [], _, h => by simp at h

/-! ## Sorting toolkit -/

theorem insertSorted_perm (x : ℕ) : ∀ l : List ℕ, (insertSorted x l).Perm (x :: l)
  | [] => List.Perm.refl _
  | y :: ys => by
      unfold insertSorted
      split
      · exact List.Perm.refl _
      · exact ((insertSorted_perm x ys).cons y).trans (List.Perm.swap x y ys)

theorem sortNat_perm : ∀ l : List ℕ, (sortNat l).Perm l
  | [] => List.Perm.refl _
  | x :: xs =>
      (insertSorted_perm x (sortNat xs)).trans ((sortNat_perm xs).cons x)

theorem insertSorted_sorted (x : ℕ) :
    ∀ {l : List ℕ}, List.Sorted (· ≤ ·) l → List.Sorted (· ≤ ·) (insertSorted x l)
  | [], _ => by simp [insertSorted]
  | y :: ys, h => by
      rw [List.sorted_cons] at h
      unfold insertSorted
      split
      · rename_i hxy
        refine List.sorted_cons.mpr ⟨fun b hb => ?_, List.sorted_cons.mpr h⟩
        rcases List.mem_cons.mp hb with rfl | hb
        · exact hxy
        · exact hxy.trans (h.1 b hb)
      · rename_i hxy
        refine List.sorted_cons.mpr ⟨fun b hb => ?_, insertSorted_sorted x h.2⟩
        rcases List.mem_cons.mp (((insertSorted_perm x ys).mem_iff).mp hb) with
          rfl | hb
        · exact le_of_not_le hxy
        · exact h.1 b hb

theorem sortNat_sorted : ∀ l : List ℕ, List.Sorted (· ≤ ·) (sortNat l)
  | [] => List.sorted_nil
  | x :: xs => insertSorted_sorted x (sortNat_sorted xs)

theorem sortNat_eq_of_sorted {l : List ℕ} (h : List.Sorted (· ≤ ·) l) :
    sortNat l = l :=
  List.eq_of_perm_of_sorted (sortNat_perm l) (sortNat_sorted l) h

theorem sorted_range (s n : ℕ) : List.Sorted (· ≤ ·) (List.range' s n) :=
  (List.pairwise_lt_range' s n).imp le_of_lt

/-- A duplicate-free list with the members of `range' s n` sorts to
`range' s n`. -/
theorem sortNat_eq_range {l : List ℕ} {s n : ℕ} (hnd : l.Nodup)
    (hmem : ∀ x, x ∈ l ↔ x ∈ List.range' s n) : sortNat l = List.range' s n := by
  have hperm : l.Perm (List.range' s n) :=
    (List.perm_ext_iff_of_nodup hnd (List.nodup_range' s n)).mpr hmem
  exact List.eq_of_perm_of_sorted ((sortNat_perm l).trans hperm)
    (sortNat_sorted l) (sorted_range s n)

/-! ## Association list (`List.lookup`) toolkit -/

theorem lookup_eq_none_of_not_mem {β : Type} (x : ℕ) :
    ∀ (ps : List (ℕ × β)), x ∉ ps.map Prod.fst → ps.lookup x = none
  | [], _ => rfl
  | (k, v) :: ps, h => by
      simp only [List.map_cons, List.mem_cons, not_or] at h
      rw [List.lookup_cons]
      have : (x == k) = false := by simpa using h.1
      simp only [this]
      exact lookup_eq_none_of_not_mem x ps h.2

theorem lookup_eq_some_of_mem {β : Type} (x : ℕ) (v : β) :
    ∀ (ps : List (ℕ × β)), (ps.map Prod.fst).Nodup → (x, v) ∈ ps →
      ps.lookup x = some v
  | [], _, hm => absurd hm (List.not_mem_nil _)
  | (k, w) :: ps, hnd, hm => by
      simp only [List.map_cons, List.nodup_cons] at hnd
      rw [List.lookup_cons]
      rcases List.mem_cons.mp hm with heq | hm2
      · cases heq
        simp
      · have hxk : (x == k) = false := by
          have : x ∈ ps.map Prod.fst := List.mem_map.mpr ⟨(x, v), hm2, rfl⟩
          have : x ≠ k := fun h => hnd.1 (h ▸ this)
          simpa using this
        simp only [hxk]
        exact lookup_eq_some_of_mem x v ps hnd.2 hm2

theorem lookup_append_some {β : Type} {x : ℕ} {v : β} {ps : List (ℕ × β)}
    (qs : List (ℕ × β)) (h : ps.lookup x = some v) :
    (ps ++ qs).lookup x = some v := by
  induction ps with
  | nil => simp [List.lookup] at h
  | cons p ps ih =>
      obtain ⟨k, w⟩ := p
      rw [List.cons_append, List.lookup_cons]
      rw [List.lookup_cons] at h
      cases hxk : (x == k) with
      | true => simpa [hxk] using h
      | false =>
          simp only [hxk] at h ⊢
          exact ih h

theorem lookup_append_none {β : Type} {x : ℕ} {ps : List (ℕ × β)}
    (qs : List (ℕ × β)) (h : ps.lookup x = none) :
    (ps ++ qs).lookup x = qs.lookup x := by
  induction ps with
  | nil => simp
  | cons p ps ih =>
      obtain ⟨k, w⟩ := p
      rw [List.cons_append, List.lookup_cons]
      rw [List.lookup_cons] at h
      cases hxk : (x == k) with
      | true => simp [hxk] at h
      | false =>
          simp only [hxk] at h ⊢
          exact ih h

theorem lookup_zip_range {β : Type} :
    ∀ (vs : List β) (s j : ℕ), j < vs.length →
      ((List.range' s vs.length).zip vs).lookup (s + j) = vs[j]?
  | [], _, _, hj => by simp at hj
  | v :: vs, s, 0, _ => by
      simp [List.range', List.zip_cons_cons, List.lookup_cons]
  | v :: vs, s, j + 1, hj => by
      have hne : (s + (j + 1) == s) = false := by simp
      rw [List.length_cons, List.range'_succ, List.zip_cons_cons,
        List.lookup_cons]
      simp only [hne]
      have := lookup_zip_range vs (s + 1) j (by simpa using hj)
      rw [show s + (j + 1) = s + 1 + j by omega]
      simpa using this

theorem lookup_zip_range_none {β : Type} :
    ∀ (vs : List β) (s x : ℕ), (x < s ∨ s + vs.length ≤ x) →
      ((List.range' s vs.length).zip vs).lookup x = none := by
  intro vs s x hx
  refine lookup_eq_none_of_not_mem x _ ?_
  rw [List.map_fst_zip _ _ (by simp [List.length_range'])]
  intro hmem
  rcases List.mem_range'.mp hmem with ⟨i, hi, rfl⟩
  omega

/-- Behaviour of the einsum output assignment on fresh labels. -/
theorem asgnF_zip_range (vs : List ℕ) (s j : ℕ) :
    asgnF ((List.range' s vs.length).zip vs) (s + j) = vs.getD j 0 := by
  by_cases hj : j < vs.length
  · simp only [asgnF]
    rw [lookup_zip_range vs s j hj, List.getD_eq_getElem?_getD]
  · simp only [asgnF]
    rw [lookup_zip_range_none vs s (s + j) (by omega),
      List.getD_eq_default _ _ (by omega : vs.length ≤ j)]
    rfl

/-! ## `sumAssign` toolkit -/

theorem ovl_nil (ν : ℕ → ℕ) : ovl ν [] = ν := by
  funext l
  simp [ovl, List.lookup]

theorem ovl_cons_of_update {ν : ℕ → ℕ} {l v : ℕ} {ks : List ℕ} {t : List ℕ}
    (hl : l ∉ ks) :
    ovl (Function.update ν l v) (ks.zip t) = ovl ν ((l, v) :: ks.zip t) := by
  funext x
  simp only [ovl, List.lookup_cons]
  by_cases hxl : x = l
  · subst hxl
    have hnone : (ks.zip t).lookup x = none := by
      refine lookup_eq_none_of_not_mem x _ (fun hm => ?_)
      rcases List.mem_map.mp hm with ⟨⟨a, b⟩, hab, rfl⟩
      exact hl (List.of_mem_zip hab).1
    simp [hnone]
  · have hne : (x == l) = false := by simpa using hxl
    simp only [hne, Function.update_noteq hxl]

theorem sumAssign_eq_lsum {R : Type} [AddCommMonoid R] :
    ∀ (ps : List (ℕ × ℕ)) (ν : ℕ → ℕ) (G : (ℕ → ℕ) → R),
      (ps.map Prod.fst).Nodup →
      sumAssign ps ν G =
        lsum (allTuples (ps.map Prod.snd))
          (fun t => G (ovl ν ((ps.map Prod.fst).zip t)))
  | [], ν, G, _ => by
      simp [sumAssign, allTuples, lsum_cons, lsum_nil, ovl_nil]
  | (l, d) :: ps, ν, G, hnd => by
      simp only [List.map_cons, List.nodup_cons] at hnd
      simp only [sumAssign, List.map_cons, allTuples, lsum_flatMap, lsum_map]
      refine lsum_congr (fun v _ => ?_)
      rw [sumAssign_eq_lsum ps (Function.update ν l v) G hnd.2]
      refine lsum_congr (fun t _ => ?_)
      rw [List.zip_cons_cons, ovl_cons_of_update hnd.1]

theorem sumAssign_perm {R : Type} [AddCommMonoid R] :
    ∀ {ps qs : List (ℕ × ℕ)}, ps.Perm qs → (ps.map Prod.fst).Nodup →
      ∀ (ν : ℕ → ℕ) (G : (ℕ → ℕ) → R), sumAssign ps ν G = sumAssign qs ν G := by
  intro ps qs hperm
  induction hperm with
  | nil => intro _ ν G; rfl
  | cons p h ih =>
      intro hnd ν G
      obtain ⟨l, d⟩ := p
      simp only [List.map_cons, List.nodup_cons] at hnd
      simp only [sumAssign]
      exact lsum_congr (fun v _ => ih hnd.2 _ _)
  | swap p q l =>
      intro hnd ν G
      obtain ⟨l₁, d₁⟩ := p
      obtain ⟨l₂, d₂⟩ := q
      simp only [List.map_cons, List.nodup_cons, List.mem_cons, not_or] at hnd
      have hne : l₂ ≠ l₁ := hnd.1.1
      simp only [sumAssign]
      rw [lsum_comm]
      refine lsum_congr (fun v _ => lsum_congr (fun w _ => ?_))
      rw [Function.update_comm hne]
  | trans h₁ h₂ ih₁ ih₂ =>
      intro hnd ν G
      rw [ih₁ hnd ν G,
        ih₂ (((h₁.map Prod.fst).nodup_iff).mp hnd) ν G]

/-! ## Characterisation of the trace+dot index plan -/

theorem ptrDot_fst (sysa : List ℕ) :
    ∀ (is : List ℕ) (u : ℕ), (ptrDotIndsAux sysa is u).1 = is.filter (memB sysa)
  | [], _ => rfl
  | i :: is, u => by
      by_cases hi : i ∈ sysa <;>
        simp [ptrDotIndsAux, hi, List.filter_cons, memB, ptrDot_fst sysa is]

theorem ptrDot_bra (sysa : List ℕ) :
    ∀ (is : List ℕ) (u : ℕ), (ptrDotIndsAux sysa is u).2.1 = is
  | [], _ => rfl
  | i :: is, u => by
      by_cases hi : i ∈ sysa <;>
        simp [ptrDotIndsAux, hi, ptrDot_bra sysa is]

theorem ptrDot_ket_mem (sysa : List ℕ) :
    ∀ (is : List ℕ) (u : ℕ), (∀ i ∈ is, i < u) → ∀ l,
      (l ∈ (ptrDotIndsAux sysa is u).2.2 ↔
        (l ∈ is ∧ l ∉ sysa) ∨
          (u ≤ l ∧ l < u + (is.filter (memB sysa)).length))
  | [], u, _, l => by simp [ptrDotIndsAux]
  | i :: is, u, hu, l => by
      have hu2 : ∀ j ∈ is, j < u + 1 :=
        fun j hj => (hu j (List.mem_cons_of_mem _ hj)).trans (by omega)
      have hiu : i < u := hu i (List.mem_cons_self _ _)
      by_cases hi : i ∈ sysa
      · have ih := ptrDot_ket_mem sysa is (u + 1) hu2 l
        simp only [ptrDotIndsAux, if_pos hi, List.mem_cons, ih,
          List.filter_cons, memB, decide_eq_true_eq, if_pos hi,
          List.length_cons]
        constructor
        · rintro (rfl | ⟨hl, hnl⟩ | ⟨h1, h2⟩)
          · exact Or.inr (by omega)
          · exact Or.inl ⟨Or.inr hl, hnl⟩
          · exact Or.inr (by omega)
        · rintro (⟨(rfl | hl), hnl⟩ | ⟨h1, h2⟩)
          · exact absurd hi hnl
          · exact Or.inr (Or.inl ⟨hl, hnl⟩)
          · rcases Nat.eq_or_lt_of_le h1 with rfl | hlt
            · exact Or.inl rfl
            · exact Or.inr (Or.inr (by omega))
      · have ih := ptrDot_ket_mem sysa is u (fun j hj => hu j (List.mem_cons_of_mem _ hj)) l
        simp only [ptrDotIndsAux, if_neg hi, List.mem_cons, ih,
          List.filter_cons, memB, decide_eq_true_eq, if_neg hi]
        constructor
        · rintro (rfl | ⟨hl, hnl⟩ | ⟨h1, h2⟩)
          · exact Or.inl ⟨Or.inl rfl, hi⟩
          · exact Or.inl ⟨Or.inr hl, hnl⟩
          · exact Or.inr ⟨h1, h2⟩
        · rintro (⟨(rfl | hl), hnl⟩ | ⟨h1, h2⟩)
          · exact Or.inl rfl
          · exact Or.inr (Or.inl ⟨hl, hnl⟩)
          · exact Or.inr (Or.inr ⟨h1, h2⟩)

theorem ptrDot_ket_nodup (sysa : List ℕ) :
    ∀ (is : List ℕ) (u : ℕ), is.Nodup → (∀ i ∈ is, i < u) →
      (ptrDotIndsAux sysa is u).2.2.Nodup
  | [], _, _, _ => List.nodup_nil
  | i :: is, u, hnd, hu => by
      rw [List.nodup_cons] at hnd
      have hu2 : ∀ j ∈ is, j < u + 1 :=
        fun j hj => (hu j (List.mem_cons_of_mem _ hj)).trans (by omega)
      have hutl : ∀ j ∈ is, j < u := fun j hj => hu j (List.mem_cons_of_mem _ hj)
      have hiu : i < u := hu i (List.mem_cons_self _ _)
      by_cases hi : i ∈ sysa
      · simp only [ptrDotIndsAux, if_pos hi, List.nodup_cons]
        refine ⟨fun hmem => ?_, ptrDot_ket_nodup sysa is (u + 1) hnd.2 hu2⟩
        rcases (ptrDot_ket_mem sysa is (u + 1) hu2 u).mp hmem with ⟨hl, _⟩ | ⟨h1, _⟩
        · exact absurd (hutl u hl) (by omega)
        · omega
      · simp only [ptrDotIndsAux, if_neg hi, List.nodup_cons]
        refine ⟨fun hmem => ?_, ptrDot_ket_nodup sysa is u hnd.2 hutl⟩
        rcases (ptrDot_ket_mem sysa is u hutl i).mp hmem with ⟨hl, _⟩ | ⟨h1, _⟩
        · exact hnd.1 hl
        · omega

theorem ptrDot_ket_filter (sysa : List ℕ) :
    ∀ (is : List ℕ) (u u₀ : ℕ), u₀ ≤ u → (∀ i ∈ is, i < u₀) →
      (ptrDotIndsAux sysa is u).2.2.filter (fun l => decide (u₀ ≤ l)) =
        List.range' u (is.filter (memB sysa)).length
  | [], _, _, _, _ => by simp [ptrDotIndsAux]
  | i :: is, u, u₀, h0, hu => by
      have hiu : i < u₀ := hu i (List.mem_cons_self _ _)
      have hutl : ∀ j ∈ is, j < u₀ := fun j hj => hu j (List.mem_cons_of_mem _ hj)
      by_cases hi : i ∈ sysa
      · simp only [ptrDotIndsAux, if_pos hi, List.filter_cons, memB,
          decide_eq_true_eq, if_pos hi, List.length_cons,
          decide_eq_true (show u₀ ≤ u from h0), if_pos]
        rw [ptrDot_ket_filter sysa is (u + 1) u₀ (by omega) hutl,
          List.range'_succ]
      · have : (decide (u₀ ≤ i)) = false := by simpa using (by omega : ¬ u₀ ≤ i)
        simp only [ptrDotIndsAux, if_neg hi, List.filter_cons, memB,
          decide_eq_true_eq, if_neg hi, this, if_neg (by simp : ¬false = true)]
        exact ptrDot_ket_filter sysa is u u₀ h0 hutl

/-! ## Zip / filter / kept bridging lemmas -/

theorem mapfst_filter_zip (p : ℕ → Bool) :
    ∀ (is ds : List ℕ), is.length = ds.length →
      (((is.zip ds).filter (fun q => p q.1)).map Prod.fst) = is.filter p
  | [], [], _ => rfl
  | i :: is, d :: ds, h => by
      rw [List.zip_cons_cons]
      cases hp : p i with
      | true =>
          rw [List.filter_cons_of_pos (by simpa using hp),
            List.filter_cons_of_pos hp, List.map_cons,
            mapfst_filter_zip p is ds (by simpa using h)]
      | false =>
          rw [List.filter_cons_of_neg (by simpa using hp),
            List.filter_cons_of_neg (by simpa using hp),
            mapfst_filter_zip p is ds (by simpa using h)]
  | [], _ :: _, h => by simp at h
  | _ :: _, [], h => by simp at h

theorem filter_zip_eq (p : ℕ → Bool) :
    ∀ (is ds : List ℕ), is.length = ds.length →
      (is.filter p).zip (((is.zip ds).filter (fun q => p q.1)).map Prod.snd) =
        (is.zip ds).filter (fun q => p q.1)
  | [], [], _ => rfl
  | i :: is, d :: ds, h => by
      rw [List.zip_cons_cons]
      cases hp : p i with
      | true =>
          have h1 : List.filter p (i :: is) = i :: List.filter p is :=
            List.filter_cons_of_pos hp
          have h2 : List.filter (fun q => p q.1) ((i, d) :: is.zip ds) =
              (i, d) :: List.filter (fun q => p q.1) (is.zip ds) :=
            List.filter_cons_of_pos (by simpa using hp)
          rw [h1, h2, List.map_cons, List.zip_cons_cons,
            filter_zip_eq p is ds (by simpa using h)]
      | false =>
          have h1 : List.filter p (i :: is) = List.filter p is :=
            List.filter_cons_of_neg (by simpa using hp)
          have h2 : List.filter (fun q => p q.1) ((i, d) :: is.zip ds) =
              List.filter (fun q => p q.1) (is.zip ds) :=
            List.filter_cons_of_neg (by simpa using hp)
          rw [h1, h2, filter_zip_eq p is ds (by simpa using h)]
  | [], _ :: _, h => by simp at h
  | _ :: _, [], h => by simp at h

theorem keptB_map_eq_filter_zip (p : ℕ → Bool) :
    ∀ (is ds : List ℕ), is.length = ds.length →
      keptB (is.map p) ds = ((is.zip ds).filter (fun q => p q.1)).map Prod.snd
  | [], [], _ => rfl
  | i :: is, d :: ds, h => by
      rw [List.map_cons, List.zip_cons_cons]
      cases hp : p i with
      | true =>
          rw [List.filter_cons_of_pos (by simpa using hp), List.map_cons]
          simp only [keptB, keptB_map_eq_filter_zip p is ds (by simpa using h)]
      | false =>
          rw [List.filter_cons_of_neg (by simpa using hp)]
          simp only [keptB, keptB_map_eq_filter_zip p is ds (by simpa using h)]
  | [], _ :: _, h => by simp at h
  | _ :: _, [], h => by simp at h

/-- The source's `kept` comprehension in positional (mask) form. -/
theorem kept_eq_keptB (dims sys : List ℕ) :
    kept dims sys = keptB (maskOf dims.length sys) dims := by
  rw [kept, maskOf, List.enum_eq_zip_range,
    keptB_map_eq_filter_zip (fun i => decide (i ∈ sys)) (List.range dims.length)
      dims (by simp)]

theorem map_pair_eq_zip (f : ℕ → ℕ) :
    ∀ (is ds : List ℕ), is.length = ds.length →
      (∀ p ∈ is.zip ds, f p.1 = p.2) →
      is.map (fun l => (l, f l)) = is.zip ds
  | [], [], _, _ => rfl
  | i :: is, d :: ds, h, hf => by
      simp only [List.map_cons, List.zip_cons_cons]
      rw [hf (i, d) (by simp [List.zip_cons_cons]),
        map_pair_eq_zip f is ds (by simpa using h)
          (fun p hp => hf p (by simp [List.zip_cons_cons, hp]))]
  | [], _ :: _, h, _ => by simp at h
  | _ :: _, [], h, _ => by simp at h

theorem range_map_of_getD :
    ∀ (res : List ℕ) (u : ℕ) (f : ℕ → ℕ),
      (∀ j, j < res.length → f (u + j) = res.getD j 0) →
      (List.range' u res.length).map f = res
  | [], _, _, _ => rfl
  | r :: res, u, f, hf => by
      rw [List.length_cons, List.range'_succ, List.map_cons]
      have h0 := hf 0 (by simp)
      simp only [Nat.add_zero, List.getD_cons_zero] at h0
      rw [h0, range_map_of_getD res (u + 1) f (fun j hj => by
        have h2 := hf (j + 1) (by simpa using hj)
        rw [show u + 1 + j = u + (j + 1) by omega]
        simpa [List.getD_cons_succ] using h2)]

/-- Lookup of the `j`-th fresh label in the ket label list zipped with the
dimensions: it returns the `j`-th kept dimension. -/
theorem ptrDot_ket_lookup_fresh (sysa : List ℕ) :
    ∀ (is ds : List ℕ) (u j : ℕ), is.length = ds.length →
      (∀ i ∈ is, i < u) →
      ((ptrDotIndsAux sysa is u).2.2.zip ds).lookup (u + j) =
        (((is.zip ds).filter (fun q => memB sysa q.1)).map Prod.snd)[j]?
  | [], [], u, j, _, _ => by simp [ptrDotIndsAux]
  | i :: is, d :: ds, u, j, h, hu => by
      have hiu : i < u := hu i (List.mem_cons_self _ _)
      have hutl : ∀ x ∈ is, x < u := fun x hx => hu x (List.mem_cons_of_mem _ hx)
      have hutl2 : ∀ x ∈ is, x < u + 1 := fun x hx => (hutl x hx).trans (by omega)
      by_cases hi : i ∈ sysa
      · simp only [ptrDotIndsAux, if_pos hi, List.zip_cons_cons,
          List.filter_cons, memB, decide_eq_true_eq, if_pos hi, List.map_cons]
        cases j with
        | zero =>
            rw [List.lookup_cons]
            simp
        | succ j =>
            rw [List.lookup_cons]
            have hne : (u + (j + 1) == u) = false := by simp
            simp only [hne]
            have := ptrDot_ket_lookup_fresh sysa is ds (u + 1) j
              (by simpa using h) hutl2
            rw [show u + (j + 1) = u + 1 + j by omega]
            simpa using this
      · simp only [ptrDotIndsAux, if_neg hi, List.zip_cons_cons,
          List.filter_cons, memB, decide_eq_true_eq, if_neg hi]
        rw [List.lookup_cons]
        have hne : (u + j == i) = false := by
          simp only [beq_eq_false_iff_ne, ne_eq]
          omega
        simp only [hne]
        exact ptrDot_ket_lookup_fresh sysa is ds u j (by simpa using h) hutl
  | [], _ :: _, _, _, h, _ => by simp at h
  | _ :: _, [], _, _, h, _ => by simp at h

/-! ## Assignment evaluation lemmas -/

theorem headD_eq_getD (l : List ℕ) (d : ℕ) : l.headD d = l.getD 0 d := by
  cases l <;> rfl

theorem tail_getD (l : List ℕ) (j : ℕ) (d : ℕ) :
    l.tail.getD j d = l.getD (j + 1) d := by
  cases l <;> simp [List.getD_cons_succ]

theorem ovl_cons_self (ν₀ : ℕ → ℕ) (i s : ℕ) (ps : List (ℕ × ℕ)) :
    ovl ν₀ ((i, s) :: ps) i = s := by
  simp [ovl, List.lookup_cons]

theorem ovl_cons_ne (ν₀ : ℕ → ℕ) {l i : ℕ} (s : ℕ) (ps : List (ℕ × ℕ))
    (h : l ≠ i) : ovl ν₀ ((i, s) :: ps) l = ovl ν₀ ps l := by
  have : (l == i) = false := by simpa using h
  simp [ovl, List.lookup_cons, this]

theorem ovl_fallback (ν₀ : ℕ → ℕ) {x : ℕ} {ps : List (ℕ × ℕ)}
    (h : x ∉ ps.map Prod.fst) : ovl ν₀ ps x = ν₀ x := by
  simp [ovl, lookup_eq_none_of_not_mem x ps h]

/-- Step equations for the trace+dot plan walk. -/
theorem ptrDotIndsAux_cons_pos (sysa : List ℕ) {i : ℕ} (is : List ℕ) (u : ℕ)
    (hi : i ∈ sysa) :
    ptrDotIndsAux sysa (i :: is) u =
      (i :: (ptrDotIndsAux sysa is (u + 1)).1,
       i :: (ptrDotIndsAux sysa is (u + 1)).2.1,
       u :: (ptrDotIndsAux sysa is (u + 1)).2.2) := by
  simp [ptrDotIndsAux, hi]

theorem ptrDotIndsAux_cons_neg (sysa : List ℕ) {i : ℕ} (is : List ℕ) (u : ℕ)
    (hi : i ∉ sysa) :
    ptrDotIndsAux sysa (i :: is) u =
      ((ptrDotIndsAux sysa is u).1,
       i :: (ptrDotIndsAux sysa is u).2.1,
       i :: (ptrDotIndsAux sysa is u).2.2) := by
  simp [ptrDotIndsAux, hi]

/-- Evaluating the three trace+dot label lists under the contraction
assignment: the `a`-ket labels read off the kept part of the summation
tuple, the bra labels read the whole tuple, and the ket labels interleave
the output tuple (at kept positions) with the traced part of the summation
tuple. -/
theorem ptrDot_maps (sysa : List ℕ) :
    ∀ (is six oix : List ℕ) (u : ℕ) (ν₀ : ℕ → ℕ),
      is.Nodup → (∀ i ∈ is, i < u) → six.length = is.length →
      (∀ j, ν₀ (u + j) = oix.getD j 0) →
      ((ptrDotIndsAux sysa is u).1.map (ovl ν₀ (is.zip six)) =
          keptB (is.map (memB sysa)) six)
      ∧ ((ptrDotIndsAux sysa is u).2.1.map (ovl ν₀ (is.zip six)) = six)
      ∧ ((ptrDotIndsAux sysa is u).2.2.map (ovl ν₀ (is.zip six)) =
          mergeB (is.map (memB sysa)) oix
            (keptB ((is.map (memB sysa)).map not) six))
  | [], six, oix, u, ν₀, _, _, hlen, _ => by
      have : six = [] := List.length_eq_zero.mp (by simpa using hlen)
      subst this
      simp [ptrDotIndsAux, keptB, mergeB]
  | i :: is, six, oix, u, ν₀, hnd, hu, hlen, hfresh => by
      match six, hlen with
      | s :: six₂, hlen =>
      rw [List.nodup_cons] at hnd
      have hiu : i < u := hu i (List.mem_cons_self _ _)
      have hutl : ∀ x ∈ is, x < u := fun x hx => hu x (List.mem_cons_of_mem _ hx)
      have hutl2 : ∀ x ∈ is, x < u + 1 := fun x hx => (hutl x hx).trans (by omega)
      have hlen2 : six₂.length = is.length := by simpa using hlen
      rw [List.zip_cons_cons]
      have hself : ovl ν₀ ((i, s) :: is.zip six₂) i = s := ovl_cons_self _ _ _ _
      have hskip : ∀ l, l ≠ i →
          ovl ν₀ ((i, s) :: is.zip six₂) l = ovl ν₀ (is.zip six₂) l :=
        fun l hl => ovl_cons_ne _ _ _ hl
      have hufall : ovl ν₀ ((i, s) :: is.zip six₂) u = oix.getD 0 0 := by
        rw [ovl_fallback ν₀ (by
          simp only [List.map_cons, List.mem_cons, not_or]
          refine ⟨by omega, fun hm => ?_⟩
          rcases List.mem_map.mp hm with ⟨⟨a, b⟩, hab, rfl⟩
          exact absurd (hutl _ (List.of_mem_zip hab).1) (by omega))]
        simpa using hfresh 0
      by_cases hi : i ∈ sysa
      · have hmask : memB sysa i = true := by simp [memB, hi]
        obtain ⟨ih1, ih2, ih3⟩ := ptrDot_maps sysa is six₂ oix.tail (u + 1) ν₀
          hnd.2 hutl2 hlen2 (fun j => by
            rw [show u + 1 + j = u + (j + 1) by omega, hfresh (j + 1),
              tail_getD])
        have c1 : (ptrDotIndsAux sysa is (u + 1)).1.map
              (ovl ν₀ ((i, s) :: is.zip six₂)) =
            (ptrDotIndsAux sysa is (u + 1)).1.map (ovl ν₀ (is.zip six₂)) :=
          List.map_congr_left (fun l hl => hskip l (by
            rw [ptrDot_fst] at hl
            exact fun heq => hnd.1 (heq ▸ (List.mem_filter.mp hl).1)))
        have c2 : (ptrDotIndsAux sysa is (u + 1)).2.1.map
              (ovl ν₀ ((i, s) :: is.zip six₂)) =
            (ptrDotIndsAux sysa is (u + 1)).2.1.map (ovl ν₀ (is.zip six₂)) :=
          List.map_congr_left (fun l hl => hskip l (by
            rw [ptrDot_bra] at hl
            exact fun heq => hnd.1 (heq ▸ hl)))
        have c3 : (ptrDotIndsAux sysa is (u + 1)).2.2.map
              (ovl ν₀ ((i, s) :: is.zip six₂)) =
            (ptrDotIndsAux sysa is (u + 1)).2.2.map (ovl ν₀ (is.zip six₂)) :=
          List.map_congr_left (fun l hl => hskip l (by
            rcases (ptrDot_ket_mem sysa is (u + 1) hutl2 l).mp hl with
              ⟨hl2, _⟩ | ⟨hl2, _⟩
            · exact fun heq => hnd.1 (heq ▸ hl2)
            · omega))
        rw [ptrDotIndsAux_cons_pos sysa is u hi]
        refine ⟨?_, ?_, ?_⟩
        · rw [List.map_cons, List.map_cons, hmask, hself, c1, ih1]
          rfl
        · rw [List.map_cons, hself, c2, ih2]
        · rw [List.map_cons, List.map_cons, hmask, hufall, c3, ih3]
          show _ :: _ = mergeB (true :: _) oix (keptB ((true :: _).map not) (s :: six₂))
          rw [List.map_cons, Bool.not_true]
          show _ :: _ = oix.headD 0 :: mergeB _ oix.tail (keptB _ six₂)
          rw [headD_eq_getD]
      · have hmask : memB sysa i = false := by simp [memB, hi]
        obtain ⟨ih1, ih2, ih3⟩ := ptrDot_maps sysa is six₂ oix u ν₀
          hnd.2 hutl hlen2 hfresh
        have c1 : (ptrDotIndsAux sysa is u).1.map
              (ovl ν₀ ((i, s) :: is.zip six₂)) =
            (ptrDotIndsAux sysa is u).1.map (ovl ν₀ (is.zip six₂)) :=
          List.map_congr_left (fun l hl => hskip l (by
            rw [ptrDot_fst] at hl
            exact fun heq => hnd.1 (heq ▸ (List.mem_filter.mp hl).1)))
        have c2 : (ptrDotIndsAux sysa is u).2.1.map
              (ovl ν₀ ((i, s) :: is.zip six₂)) =
            (ptrDotIndsAux sysa is u).2.1.map (ovl ν₀ (is.zip six₂)) :=
          List.map_congr_left (fun l hl => hskip l (by
            rw [ptrDot_bra] at hl
            exact fun heq => hnd.1 (heq ▸ hl)))
        have c3 : (ptrDotIndsAux sysa is u).2.2.map
              (ovl ν₀ ((i, s) :: is.zip six₂)) =
            (ptrDotIndsAux sysa is u).2.2.map (ovl ν₀ (is.zip six₂)) :=
          List.map_congr_left (fun l hl => hskip l (by
            rcases (ptrDot_ket_mem sysa is u hutl l).mp hl with
              ⟨hl2, _⟩ | ⟨hl2, _⟩
            · exact fun heq => hnd.1 (heq ▸ hl2)
            · omega))
        rw [ptrDotIndsAux_cons_neg sysa is u hi]
        refine ⟨?_, ?_, ?_⟩
        · rw [c1, ih1, List.map_cons, hmask]
          rfl
        · rw [List.map_cons, hself, c2, ih2]
        · rw [List.map_cons, hself, c3, ih3, List.map_cons, hmask]
          show _ :: _ = mergeB (false :: _) oix (keptB ((false :: _).map not) (s :: six₂))
          rw [List.map_cons, Bool.not_false]
          show _ :: _ = (keptB (true :: _) (s :: six₂)).headD 0 ::
            mergeB _ oix (keptB (true :: _) (s :: six₂)).tail
          rfl

theorem tget_conjL {R : Type} [CommRing R] [StarRing R] (v : List R)
    (ds ix : List ℕ) : tget (conjL v) ds ix = star (tget v ds ix) := by
  unfold tget conjL
  by_cases h : ravel ds ix < v.length
  · rw [List.getD_eq_getElem?_getD, List.getD_eq_getElem?_getD,
      List.getElem?_map]
    rcases List.getElem?_eq_some_iff.mpr ⟨h, rfl⟩ with _
    rw [List.getElem?_eq_getElem h]
    simp
  · rw [List.getD_eq_default _ _ (by simpa using not_lt.mp h),
      List.getD_eq_default _ _ (not_lt.mp h), star_zero]

theorem count_true_map_not (bs : List Bool) :
    (bs.map not).count true = bs.count false := by
  induction bs with
  | nil => rfl
  | cons b t ih => cases b <;> simp [List.count_cons, ih]

/-- The free labels (those occurring exactly once) of the trace+dot plan are
precisely the fresh labels, in ascending order. -/
theorem ptrDot_free (sysa is : List ℕ) (u : ℕ) (hnd : is.Nodup)
    (hu : ∀ i ∈ is, i < u) :
    sortNat (((ptrDotIndsAux sysa is u).1 ++
        ((ptrDotIndsAux sysa is u).2.1 ++ (ptrDotIndsAux sysa is u).2.2)).filter
      (fun l => decide (List.count l ((ptrDotIndsAux sysa is u).1 ++
        ((ptrDotIndsAux sysa is u).2.1 ++ (ptrDotIndsAux sysa is u).2.2)) = 1))) =
      List.range' u (is.filter (memB sysa)).length := by
  have hCmem := fun l => ptrDot_ket_mem sysa is u hu l
  have hCnodup := ptrDot_ket_nodup sysa is u hnd hu
  have hAnodup : (is.filter (memB sysa)).Nodup := hnd.filter _
  have hcong : ∀ l ∈ ((ptrDotIndsAux sysa is u).1 ++
      ((ptrDotIndsAux sysa is u).2.1 ++ (ptrDotIndsAux sysa is u).2.2)),
      (decide (List.count l ((ptrDotIndsAux sysa is u).1 ++
        ((ptrDotIndsAux sysa is u).2.1 ++ (ptrDotIndsAux sysa is u).2.2)) = 1)) =
      (decide (u ≤ l)) := by
    intro l hl
    rw [ptrDot_fst, ptrDot_bra] at hl
    by_cases hlu : u ≤ l
    · have hlis : l ∉ is := fun h => absurd (hu l h) (by omega)
      have hA0 : List.count l (is.filter (memB sysa)) = 0 :=
        List.count_eq_zero.mpr (fun h => hlis (List.mem_filter.mp h).1)
      have hB0 : List.count l is = 0 := List.count_eq_zero.mpr hlis
      have hlC : l ∈ (ptrDotIndsAux sysa is u).2.2 := by
        rcases List.mem_append.mp hl with h1 | h2
        · exact absurd (List.mem_filter.mp h1).1 hlis
        · rcases List.mem_append.mp h2 with h3 | h4
          · exact absurd h3 hlis
          · exact h4
      have hC1 : List.count l (ptrDotIndsAux sysa is u).2.2 = 1 :=
        List.count_eq_one_of_mem hCnodup hlC
      rw [ptrDot_fst, ptrDot_bra, List.count_append, List.count_append,
        hA0, hB0, hC1]
      simp [hlu]
    · have hlis : l ∈ is := by
        rcases List.mem_append.mp hl with h1 | h2
        · exact (List.mem_filter.mp h1).1
        · rcases List.mem_append.mp h2 with h3 | h4
          · exact h3
          · rcases (hCmem l).mp h4 with ⟨h5, _⟩ | ⟨h5, _⟩
            · exact h5
            · omega
      have hB1 : List.count l is = 1 := List.count_eq_one_of_mem hnd hlis
      rw [ptrDot_fst, ptrDot_bra, List.count_append, List.count_append, hB1]
      by_cases hsa : l ∈ sysa
      · have hA1 : List.count l (is.filter (memB sysa)) = 1 :=
          List.count_eq_one_of_mem hAnodup
            (List.mem_filter.mpr ⟨hlis, by simp [memB, hsa]⟩)
        have hC0 : List.count l (ptrDotIndsAux sysa is u).2.2 = 0 :=
          List.count_eq_zero.mpr (fun h => by
            rcases (hCmem l).mp h with ⟨_, hna⟩ | ⟨h1, _⟩
            · exact hna hsa
            · omega)
        rw [hA1, hC0]
        simp [hlu]
      · have hA0 : List.count l (is.filter (memB sysa)) = 0 :=
          List.count_eq_zero.mpr (fun h => hsa (by
            have := (List.mem_filter.mp h).2
            simpa [memB] using this))
        have hC1 : List.count l (ptrDotIndsAux sysa is u).2.2 = 1 :=
          List.count_eq_one_of_mem hCnodup
            ((hCmem l).mpr (Or.inl ⟨hlis, hsa⟩))
        rw [hA0, hC1]
        simp [hlu]
  rw [List.filter_congr hcong]
  rw [ptrDot_fst, ptrDot_bra, List.filter_append, List.filter_append]
  have h1nil : (is.filter (memB sysa)).filter (fun l => decide (u ≤ l)) = [] :=
    List.filter_eq_nil_iff.mpr (fun a ha => by
      have := hu a (List.mem_filter.mp ha).1
      simpa using (by omega : ¬ u ≤ a))
  have h2nil : is.filter (fun l => decide (u ≤ l)) = [] :=
    List.filter_eq_nil_iff.mpr (fun a ha => by
      have := hu a ha
      simpa using (by omega : ¬ u ≤ a))
  rw [h1nil, h2nil, ptrDot_ket_filter sysa is u u le_rfl hu, List.nil_append,
    List.nil_append]
  exact sortNat_eq_of_sorted (sorted_range _ _)

/-- The length of the kept-dimension list agrees with the number of kept
positions. -/
theorem kept_length (dims sysa : List ℕ) :
    ((List.range dims.length).filter (memB sysa)).length =
      (kept dims sysa).length := by
  have hdimsa : kept dims sysa =
      (((List.range dims.length).zip dims).filter
        (fun q => memB sysa q.1)).map Prod.snd := by
    simp only [kept, List.enum_eq_zip_range, memB]
  rw [hdimsa, List.length_map,
    ← mapfst_filter_zip (memB sysa) (List.range dims.length) dims (by simp),
    List.length_map]

/-- The output dimensions of the trace+dot contraction are the kept
sub-dimensions. -/
theorem ptrDot_odims (sysa dims : List ℕ) :
    (List.range' dims.length
        ((List.range dims.length).filter (memB sysa)).length).map (fun l =>
      (List.lookup l
        ((ptrDotIndsAux sysa (List.range dims.length) dims.length).1.zip
            (kept dims sysa) ++
          ((ptrDotIndsAux sysa (List.range dims.length) dims.length).2.1.zip
              dims ++
            (ptrDotIndsAux sysa (List.range dims.length)
                dims.length).2.2.zip dims))).getD 0) = kept dims sysa := by
  have hlen : (List.range dims.length).length = dims.length := by simp
  have hbound : ∀ i ∈ List.range dims.length, i < dims.length := by simp
  have hdimsa : kept dims sysa =
      (((List.range dims.length).zip dims).filter
        (fun q => memB sysa q.1)).map Prod.snd := by
    simp only [kept, List.enum_eq_zip_range, memB]
  rw [kept_length]
  refine range_map_of_getD (kept dims sysa) dims.length _ (fun j hj => ?_)
  have hA : ((ptrDotIndsAux sysa (List.range dims.length) dims.length).1.zip
      (kept dims sysa)).lookup (dims.length + j) = none := by
    refine lookup_eq_none_of_not_mem _ _ (fun hm => ?_)
    rcases List.mem_map.mp hm with ⟨⟨a, b⟩, hab, rfl⟩
    have ha := (List.of_mem_zip hab).1
    rw [ptrDot_fst] at ha
    have := hbound _ (List.mem_filter.mp ha).1
    omega
  have hB : ((ptrDotIndsAux sysa (List.range dims.length) dims.length).2.1.zip
      dims).lookup (dims.length + j) = none := by
    refine lookup_eq_none_of_not_mem _ _ (fun hm => ?_)
    rcases List.mem_map.mp hm with ⟨⟨a, b⟩, hab, rfl⟩
    have ha := (List.of_mem_zip hab).1
    rw [ptrDot_bra] at ha
    have := hbound _ ha
    omega
  rw [lookup_append_none _ hA, lookup_append_none _ hB,
    ptrDot_ket_lookup_fresh sysa (List.range dims.length) dims dims.length j
      hlen hbound, ← hdimsa, ← List.getD_eq_getElem?_getD]

theorem maskOf_eq (n : ℕ) (sys : List ℕ) :
    maskOf n sys = (List.range n).map (memB sys) := rfl

theorem keptB_range_memB (dims sys : List ℕ) :
    keptB ((List.range dims.length).map (memB sys)) dims = kept dims sys := by
  rw [← maskOf_eq, ← kept_eq_keptB]

/-- Core correctness of the lazy trace+dot contraction: the einsum over the
planner's labels equals explicitly forming the reduced density matrix and
applying it. -/
theorem einsum_ptrDot_data {R : Type} [CommRing R] [StarRing R]
    (psi_ab psi_a : List R) (dims sysa : List ℕ) :
    (einsum [⟨(get_cntrct_inds_ptr_dot dims.length sysa).1, kept dims sysa, psi_a⟩,
             ⟨(get_cntrct_inds_ptr_dot dims.length sysa).2.1, dims, conjL psi_ab⟩,
             ⟨(get_cntrct_inds_ptr_dot dims.length sysa).2.2, dims, psi_ab⟩]
      none).data = ptrMatVec psi_ab psi_a dims sysa := by
  have hnodup : (List.range dims.length).Nodup := List.nodup_range _
  have hbound : ∀ i ∈ List.range dims.length, i < dims.length := by simp
  have hlen : (List.range dims.length).length = dims.length := by simp
  have hdimsa : kept dims sysa =
      (((List.range dims.length).zip dims).filter
        (fun q => memB sysa q.1)).map Prod.snd := by
    simp only [kept, List.enum_eq_zip_range, memB]
  simp only [einsum, get_cntrct_inds_ptr_dot, List.flatMap_cons,
    List.flatMap_nil, List.append_nil, Option.getD_none]
  rw [ptrDot_free sysa (List.range dims.length) dims.length hnodup hbound]
  rw [ptrDot_odims sysa dims]
  simp only [ptrMatVec, ptrRho, maskOf_eq]
  rw [keptB_range_memB dims sysa]
  refine List.map_congr_left (fun oix hoix => ?_)
  have hoixlen : oix.length = (kept dims sysa).length := by
    rw [length_of_mem_allTuples hoix]
  -- the summed labels are exactly the base labels
  have hS1 : (ptrDotIndsAux sysa (List.range dims.length) dims.length).1.zip
      (kept dims sysa) =
      ((List.range dims.length).zip dims).filter (fun q => memB sysa q.1) := by
    rw [ptrDot_fst, hdimsa]
    exact filter_zip_eq (memB sysa) (List.range dims.length) dims hlen
  have hdim : ∀ q ∈ (List.range dims.length).zip dims,
      (List.lookup q.1
        ((ptrDotIndsAux sysa (List.range dims.length) dims.length).1.zip
            (kept dims sysa) ++
          ((ptrDotIndsAux sysa (List.range dims.length) dims.length).2.1.zip
              dims ++
            (ptrDotIndsAux sysa (List.range dims.length)
                dims.length).2.2.zip dims))).getD 0 = q.2 := by
    rintro ⟨l, d⟩ hq
    have hlis : l ∈ List.range dims.length := (List.of_mem_zip hq).1
    by_cases hsa : l ∈ sysa
    · have hmem : (l, d) ∈ ((List.range dims.length).zip dims).filter
          (fun q => memB sysa q.1) :=
        List.mem_filter.mpr ⟨hq, by simp [memB, hsa]⟩
      have hkeys : ((((List.range dims.length).zip dims).filter
          (fun q => memB sysa q.1)).map Prod.fst).Nodup := by
        rw [mapfst_filter_zip (memB sysa) _ _ hlen]
        exact hnodup.filter _
      rw [lookup_append_some _ (by
        rw [hS1]
        exact lookup_eq_some_of_mem l d _ hkeys hmem)]
      rfl
    · have hnone : ((ptrDotIndsAux sysa (List.range dims.length)
          dims.length).1.zip (kept dims sysa)).lookup l = none := by
        rw [hS1]
        refine lookup_eq_none_of_not_mem _ _ (fun hm => ?_)
        rw [mapfst_filter_zip (memB sysa) _ _ hlen] at hm
        have := (List.mem_filter.mp hm).2
        simp [memB, hsa] at this
      rw [lookup_append_none _ hnone]
      have hsome : ((ptrDotIndsAux sysa (List.range dims.length)
          dims.length).2.1.zip dims).lookup l = some d := by
        rw [ptrDot_bra]
        exact lookup_eq_some_of_mem l d _ (by
          rw [List.map_fst_zip _ _ (le_of_eq hlen)]
          exact hnodup) hq
      rw [lookup_append_some _ hsome]
      rfl
  have hslb_nodup : (((ptrDotIndsAux sysa (List.range dims.length)
      dims.length).1 ++
        ((ptrDotIndsAux sysa (List.range dims.length) dims.length).2.1 ++
          (ptrDotIndsAux sysa (List.range dims.length)
            dims.length).2.2)).dedup.filter
      (fun l => decide (l ∉ List.range' dims.length
        ((List.range dims.length).filter (memB sysa)).length))).Nodup :=
    (List.nodup_dedup _).filter _
  have hslb_mem : ∀ l, l ∈ (((ptrDotIndsAux sysa (List.range dims.length)
      dims.length).1 ++
        ((ptrDotIndsAux sysa (List.range dims.length) dims.length).2.1 ++
          (ptrDotIndsAux sysa (List.range dims.length)
            dims.length).2.2)).dedup.filter
      (fun l => decide (l ∉ List.range' dims.length
        ((List.range dims.length).filter (memB sysa)).length))) ↔
      l ∈ List.range dims.length := by
    intro l
    rw [List.mem_filter, List.mem_dedup, List.mem_append, List.mem_append,
      ptrDot_fst, ptrDot_bra]
    constructor
    · rintro ⟨h1 | h2 | h3, hout⟩
      · exact (List.mem_filter.mp h1).1
      · exact h2
      · rcases (ptrDot_ket_mem sysa _ _ hbound l).mp h3 with ⟨h4, _⟩ | ⟨h4, h5⟩
        · exact h4
        · exfalso
          revert hout
          simp [List.mem_range'_1, h4, h5]
    · intro hl
      refine ⟨Or.inr (Or.inl hl), ?_⟩
      have := hbound l hl
      simp only [decide_eq_true_eq, List.mem_range'_1, not_and, not_lt]
      omega
  have hperm : ((((ptrDotIndsAux sysa (List.range dims.length)
      dims.length).1 ++
        ((ptrDotIndsAux sysa (List.range dims.length) dims.length).2.1 ++
          (ptrDotIndsAux sysa (List.range dims.length)
            dims.length).2.2)).dedup.filter
      (fun l => decide (l ∉ List.range' dims.length
        ((List.range dims.length).filter (memB sysa)).length)))).Perm
      (List.range dims.length) :=
    (List.perm_ext_iff_of_nodup hslb_nodup hnodup).mpr hslb_mem
  have hpairs := hperm.map (fun l => (l,
    (List.lookup l
      ((ptrDotIndsAux sysa (List.range dims.length) dims.length).1.zip
          (kept dims sysa) ++
        ((ptrDotIndsAux sysa (List.range dims.length) dims.length).2.1.zip
            dims ++
          (ptrDotIndsAux sysa (List.range dims.length)
              dims.length).2.2.zip dims))).getD 0))
  rw [map_pair_eq_zip _ _ _ hlen hdim] at hpairs
  rw [sumAssign_perm hpairs (by
    simpa [List.map_map, Function.comp_def] using hslb_nodup) _ _]
  rw [sumAssign_eq_lsum _ _ _ (by
    rw [List.map_fst_zip (List.range dims.length) dims (le_of_eq hlen)]
    exact hnodup)]
  rw [List.map_fst_zip (List.range dims.length) dims (le_of_eq hlen),
    List.map_snd_zip (List.range dims.length) dims (le_of_eq hlen.symm)]
  -- evaluate the integrand on each summation tuple
  have hstep : ∀ t ∈ allTuples dims,
      (List.map (fun (op : Operand R) => tget op.data op.dims (op.labels.map
        (ovl (asgnF ((List.range' dims.length
          ((List.range dims.length).filter (memB sysa)).length).zip oix))
          ((List.range dims.length).zip t))))
        [⟨(ptrDotIndsAux sysa (List.range dims.length) dims.length).1,
            kept dims sysa, psi_a⟩,
         ⟨(ptrDotIndsAux sysa (List.range dims.length) dims.length).2.1,
            dims, conjL psi_ab⟩,
         ⟨(ptrDotIndsAux sysa (List.range dims.length) dims.length).2.2,
            dims, psi_ab⟩]).prod =
      tget psi_a (kept dims sysa)
          (keptB ((List.range dims.length).map (memB sysa)) t) *
        (star (tget psi_ab dims t) *
          tget psi_ab dims
            (mergeB ((List.range dims.length).map (memB sysa)) oix
              (keptB (((List.range dims.length).map (memB sysa)).map not) t))) := by
    intro t ht
    have htlen : t.length = (List.range dims.length).length := by
      rw [length_of_mem_allTuples ht, hlen]
    have hfresh : ∀ j, asgnF ((List.range' dims.length
        ((List.range dims.length).filter (memB sysa)).length).zip oix)
        (dims.length + j) = oix.getD j 0 := by
      intro j
      rw [kept_length, ← hoixlen]
      exact asgnF_zip_range oix dims.length j
    obtain ⟨m1, m2, m3⟩ := ptrDot_maps sysa (List.range dims.length) t oix
      dims.length _ hnodup hbound htlen hfresh
    simp only [List.map_cons, List.map_nil, List.prod_cons, List.prod_nil,
      mul_one, m1, m2, m3, tget_conjL]
  rw [lsum_congr hstep]
  -- split the summation tuple into kept and traced parts
  have hbslen : ((List.range dims.length).map (memB sysa)).length =
      dims.length := by simp
  rw [lsum_allTuples_split ((List.range dims.length).map (memB sysa)) dims _
    hbslen]
  rw [keptB_range_memB dims sysa]
  refine lsum_congr (fun y hy => ?_)
  have hylen : y.length =
      ((List.range dims.length).map (memB sysa)).count true := by
    rw [length_of_mem_allTuples hy, ← keptB_range_memB dims sysa,
      keptB_length _ _ hbslen]
  rw [lsum_mul_right]
  refine lsum_congr (fun c hc => ?_)
  have hclen : c.length =
      ((List.range dims.length).map (memB sysa)).count false := by
    rw [length_of_mem_allTuples hc,
      keptB_length _ _ (by simpa using hbslen), count_true_map_not]
  rw [keptB_mergeB_true _ _ _ hylen, keptB_mergeB_false _ _ _ hclen]
  ring

/-- Guarded form: valid shapes make `lazy_ptr_dot` return the explicit
reduced-density-matrix product. -/
theorem lazy_ptr_dot_ok {R : Type} [CommRing R] [StarRing R]
    (psi_ab psi_a : List R) (dims sysa : List ℕ)
    (hab : psi_ab.length = dims.prod)
    (ha : psi_a.length = (kept dims sysa).prod) :
    lazy_ptr_dot psi_ab psi_a (some dims) sysa =
      .ok (ptrMatVec psi_ab psi_a dims sysa) := by
  simp only [lazy_ptr_dot]
  rw [if_pos hab, if_pos ha, einsum_ptrDot_data]

/-- C1: for positive `dims`, in-range `sysa` and size-compatible complex
vectors, `lazy_ptr_dot(psi_ab, psi_a, dims, sysa)` equals explicitly forming
the reduced density matrix (the partial trace, over the complement of
`sysa`, of the outer product of `psi_ab` with its conjugate) and multiplying
it by `psi_a`; and when `dims` is omitted it is inferred as the bipartition
`(psi_a.size, psi_ab.size // psi_a.size)` with `sysa` defaulting to
subsystem `0`. -/
theorem C1_lazy_ptr_dot {R : Type} [CommRing R] [StarRing R]
    (psi_ab psi_a : List R) (dims sysa : List ℕ)
    (hpos : ∀ d ∈ dims, 0 < d) (hsub : ∀ i ∈ sysa, i < dims.length)
    (hab : psi_ab.length = dims.prod)
    (ha : psi_a.length = (kept dims sysa).prod) :
    lazy_ptr_dot psi_ab psi_a (some dims) sysa =
      .ok (ptrMatVec psi_ab psi_a dims sysa)
    ∧ lazy_ptr_dot psi_ab psi_a none [0] =
        lazy_ptr_dot psi_ab psi_a
          (some [psi_a.length, psi_ab.length / psi_a.length]) [0] :=
  ⟨lazy_ptr_dot_ok psi_ab psi_a dims sysa hab ha, rfl⟩

/-- Witness for C1 at `dims = (2, 2)`, `sysa = {0}`, concrete integer
vectors. -/
theorem C1_lazy_ptr_dot_witness :
    lazy_ptr_dot (R := ℤ) [1, 2, 3, 4] [3, 5] (some [2, 2]) [0] =
      .ok (ptrMatVec (R := ℤ) [1, 2, 3, 4] [3, 5] [2, 2] [0])
    ∧ lazy_ptr_dot (R := ℤ) [1, 2, 3, 4] [3, 5] none [0] =
        lazy_ptr_dot (R := ℤ) [1, 2, 3, 4] [3, 5]
          (some [([3, 5] : List ℤ).length,
            ([1, 2, 3, 4] : List ℤ).length / ([3, 5] : List ℤ).length]) [0] :=
  C1_lazy_ptr_dot [1, 2, 3, 4] [3, 5] [2, 2] [0]
    (by decide) (by decide) (by decide) (by decide)

/-! ## Shape errors and planner totality -/

/-- C8: whenever the product of `dims` differs from the size of the full
ket, or the product of the kept dimensions differs from the size of the
acted-on ket, the lazy contractions fail with a shape error before any
contraction is attempted (the returned value is the error; no partial
result is produced). -/
theorem C8_shape_error {R : Type} [CommRing R] [StarRing R] :
    (∀ (psi_ab psi_a : List R) (dims sysa : List ℕ),
      psi_ab.length ≠ dims.prod ∨ psi_a.length ≠ (kept dims sysa).prod →
      lazy_ptr_dot psi_ab psi_a (some dims) sysa = .error .shapeError)
    ∧ (∀ (psi_abc psi_ab : List R) (dims sysa sysb : List ℕ),
      psi_abc.length ≠ dims.prod ∨
        psi_ab.length ≠ (kept dims (sysa ++ sysb)).prod →
      lazy_ptr_ppt_dot psi_abc psi_ab dims sysa sysb = .error .shapeError) := by
  constructor
  · intro psi_ab psi_a dims sysa h
    simp only [lazy_ptr_dot]
    split_ifs with h1 h2
    · rcases h with h | h
      · exact absurd h1 h
      · exact absurd h2 h
    · rfl
    · rfl
  · intro psi_abc psi_ab dims sysa sysb h
    simp only [lazy_ptr_ppt_dot]
    split_ifs with h1 h2
    · rcases h with h | h
      · exact absurd h1 h
      · exact absurd h2 h
    · rfl
    · rfl

/-- Witness for C8: concrete mismatched shapes produce the shape error. -/
theorem C8_shape_error_witness :
    lazy_ptr_dot (R := ℤ) [1, 2, 3] [1, 1] (some [2, 2]) [0] =
      .error .shapeError
    ∧ lazy_ptr_ppt_dot (R := ℤ) [1, 2, 3] [1, 1] [2, 2, 2] [0] [1] =
        .error .shapeError :=
  ⟨(C8_shape_error (R := ℤ)).1 [1, 2, 3] [1, 1] [2, 2] [0]
      (Or.inl (by decide)),
   (C8_shape_error (R := ℤ)).2 [1, 2, 3] [1, 1] [2, 2, 2] [0] [1]
      (Or.inl (by decide))⟩

/-- C9 counterexample: calling the trace+transpose+dot planner with
overlapping `sysa = sysb = {0}` does not raise any error — it silently
returns a contraction plan (the `sysa` branch wins). -/
theorem C9_overlap_counterexample :
    get_cntrct_inds_ptr_ppt_dot 2 [0] [0] = ([0], [2, 1], [0, 1], [2]) := by
  decide

theorem ptrDotIndsAux_congr (sysa sysa2 : List ℕ) :
    ∀ (is : List ℕ) (u : ℕ), (∀ i ∈ is, i ∈ sysa ↔ i ∈ sysa2) →
      ptrDotIndsAux sysa is u = ptrDotIndsAux sysa2 is u
  | [], _, _ => rfl
  | i :: is, u, h => by
      have hi := h i (List.mem_cons_self _ _)
      have htl := fun j hj => h j (List.mem_cons_of_mem _ hj)
      by_cases hia : i ∈ sysa
      · simp only [ptrDotIndsAux, if_pos hia, if_pos (hi.mp hia),
          ptrDotIndsAux_congr sysa sysa2 is (u + 1) htl]
      · simp only [ptrDotIndsAux, if_neg hia, if_neg (fun h2 => hia (hi.mpr h2)),
          ptrDotIndsAux_congr sysa sysa2 is u htl]

theorem ptrPptIndsAux_congr (sysa sysb sysa2 sysb2 : List ℕ) :
    ∀ (is : List ℕ) (u : ℕ),
      (∀ i ∈ is, (i ∈ sysa ↔ i ∈ sysa2) ∧
        ((i ∉ sysa ∧ i ∈ sysb) ↔ (i ∉ sysa2 ∧ i ∈ sysb2))) →
      ptrPptIndsAux sysa sysb is u = ptrPptIndsAux sysa2 sysb2 is u
  | [], _, _ => rfl
  | i :: is, u, h => by
      have hi := h i (List.mem_cons_self _ _)
      have htl := fun j hj => h j (List.mem_cons_of_mem _ hj)
      by_cases hia : i ∈ sysa
      · simp only [ptrPptIndsAux, if_pos hia, if_pos (hi.1.mp hia),
          ptrPptIndsAux_congr sysa sysb sysa2 sysb2 is (u + 1) htl]
      · by_cases hib : i ∈ sysb
        · have h2 : i ∉ sysa2 ∧ i ∈ sysb2 := hi.2.mp ⟨hia, hib⟩
          simp only [ptrPptIndsAux, if_neg hia, if_pos hib, if_neg h2.1,
            if_pos h2.2,
            ptrPptIndsAux_congr sysa sysb sysa2 sysb2 is (u + 1) htl]
        · have h2a : i ∉ sysa2 := fun hx => hia (hi.1.mpr hx)
          have h2b : i ∉ sysb2 := fun hx => hib (hi.2.mpr ⟨h2a, hx⟩).2
          simp only [ptrPptIndsAux, if_neg hia, if_neg hib, if_neg h2a,
            if_neg h2b,
            ptrPptIndsAux_congr sysa sysb sysa2 sysb2 is u htl]

/-- C9 amended: no `InvalidSubsetError` exists.  The planners iterate only
over in-range positions, so out-of-range subset indices are silently
ignored, and on overlapping `sysa`/`sysb` the `sysa` branch takes precedence
(the plan equals the one for `sysb` with `sysa`'s elements removed); a plan
is always returned. -/
theorem C9_planners_total (ndim : ℕ) (sysa sysb : List ℕ) :
    get_cntrct_inds_ptr_dot ndim sysa =
      get_cntrct_inds_ptr_dot ndim (sysa.filter (fun i => decide (i < ndim)))
    ∧ get_cntrct_inds_ptr_ppt_dot ndim sysa sysb =
        get_cntrct_inds_ptr_ppt_dot ndim
          (sysa.filter (fun i => decide (i < ndim)))
          ((sysb.filter (fun i => decide (i < ndim))).filter
            (fun i => decide (i ∉ sysa))) := by
  constructor
  · exact ptrDotIndsAux_congr sysa _ (List.range ndim) ndim (fun i hi => by
      have := List.mem_range.mp hi
      simp [List.mem_filter, this])
  · exact ptrPptIndsAux_congr sysa sysb _ _ (List.range ndim) ndim
      (fun i hi => by
        have := List.mem_range.mp hi
        constructor
        · simp [List.mem_filter, this]
        · simp only [List.mem_filter, decide_eq_true_eq]
          constructor
          · rintro ⟨h1, h2⟩
            exact ⟨by simp [this, h1], ⟨⟨h2, by simpa using this⟩, h1⟩⟩
          · rintro ⟨h1, ⟨⟨h2, _⟩, h3⟩⟩
            exact ⟨h3, h2⟩)

/-! ## `MPOSpinHam.add_term` -/

/-- C10: `add_term` with three or more operators raises
`NotImplementedError` with the builder state unchanged (no term list is
touched); with exactly one or two operators the `(factor, operators)` term
is appended to `one_site_terms` or `two_site_terms` respectively and no
error is raised. -/
theorem C10_add_term {F Op : Type} :
    (∀ (h : MPOSpinHam F Op) (factor : F) (ops : List Op), 3 ≤ ops.length →
      h.add_term factor ops = .error .notImplemented)
    ∧ (∀ (h : MPOSpinHam F Op) (factor : F) (o : Op),
      h.add_term factor [o] =
        .ok { h with one_site_terms := h.one_site_terms ++ [(factor, o)] })
    ∧ (∀ (h : MPOSpinHam F Op) (factor : F) (o1 o2 : Op),
      h.add_term factor [o1, o2] =
        .ok { h with two_site_terms := h.two_site_terms ++ [(factor, o1, o2)] }) := by
  refine ⟨fun h factor ops hlen => ?_, fun h factor o => rfl,
    fun h factor o1 o2 => rfl⟩
  match ops with
  | [] => simp at hlen
  | [o] => simp at hlen
  | [o1, o2] => simp at hlen
  | o1 :: o2 :: o3 :: rest => rfl

/-- Witness for C10 on a concrete integer builder. -/
theorem C10_add_term_witness :
    ((⟨0, [], []⟩ : MPOSpinHam ℤ ℤ).add_term 1 [7, 8, 9] =
      .error .notImplemented)
    ∧ ((⟨0, [], []⟩ : MPOSpinHam ℤ ℤ).add_term 1 [7] =
        .ok ⟨0, [] ++ [(1, 7)], []⟩)
    ∧ ((⟨0, [], []⟩ : MPOSpinHam ℤ ℤ).add_term 1 [7, 8] =
        .ok ⟨0, [], [] ++ [(1, 7, 8)]⟩) :=
  ⟨C10_add_term.1 ⟨0, [], []⟩ 1 [7, 8, 9] (by decide),
   C10_add_term.2.1 ⟨0, [], []⟩ 1 7,
   C10_add_term.2.2 ⟨0, [], []⟩ 1 7 8⟩

/-! ## Characterisation of the trace+transpose+dot index plan -/

theorem pptKet_eq (sysa sysb : List ℕ) :
    ∀ (is : List ℕ) (u : ℕ), (ptrPptIndsAux sysa sysb is u).2.2.1 = is
  | [], _ => rfl
  | i :: is, u => by
      by_cases hia : i ∈ sysa
      · simp [ptrPptIndsAux, hia, pptKet_eq sysa sysb is]
      · by_cases hib : i ∈ sysb <;>
          simp [ptrPptIndsAux, hia, hib, pptKet_eq sysa sysb is]

theorem pptFreshA_bound (sysa sysb : List ℕ) :
    ∀ (is : List ℕ) (u : ℕ), ∀ l ∈ pptFreshA sysa sysb is u,
      u ≤ l ∧ l < u + (is.filter (memB (sysa ++ sysb))).length
  | [], u, l, hl => by simp [pptFreshA] at hl
  | i :: is, u, l, hl => by
      have hkeep : ∀ h : i ∈ sysa ∨ i ∈ sysb,
          (List.filter (memB (sysa ++ sysb)) (i :: is)).length =
            (List.filter (memB (sysa ++ sysb)) is).length + 1 := by
        intro h
        rw [List.filter_cons_of_pos (by simpa [memB] using h)]
        rfl
      by_cases hia : i ∈ sysa
      · rw [pptFreshA, if_pos hia] at hl
        rw [hkeep (Or.inl hia)]
        rcases List.mem_cons.mp hl with rfl | hl2
        · omega
        · have := pptFreshA_bound sysa sysb is (u + 1) l hl2
          omega
      · by_cases hib : i ∈ sysb
        · rw [pptFreshA, if_neg hia, if_pos hib] at hl
          rw [hkeep (Or.inr hib)]
          have := pptFreshA_bound sysa sysb is (u + 1) l hl
          omega
        · rw [pptFreshA, if_neg hia, if_neg hib] at hl
          rw [List.filter_cons_of_neg (by simp [memB, hia, hib])]
          exact pptFreshA_bound sysa sysb is u l hl

theorem pptFreshB_bound (sysa sysb : List ℕ) :
    ∀ (is : List ℕ) (u : ℕ), ∀ l ∈ pptFreshB sysa sysb is u,
      u ≤ l ∧ l < u + (is.filter (memB (sysa ++ sysb))).length
  | [], u, l, hl => by simp [pptFreshB] at hl
  | i :: is, u, l, hl => by
      have hkeep : ∀ h : i ∈ sysa ∨ i ∈ sysb,
          (List.filter (memB (sysa ++ sysb)) (i :: is)).length =
            (List.filter (memB (sysa ++ sysb)) is).length + 1 := by
        intro h
        rw [List.filter_cons_of_pos (by simpa [memB] using h)]
        rfl
      by_cases hia : i ∈ sysa
      · rw [pptFreshB, if_pos hia] at hl
        rw [hkeep (Or.inl hia)]
        have := pptFreshB_bound sysa sysb is (u + 1) l hl
        omega
      · by_cases hib : i ∈ sysb
        · rw [pptFreshB, if_neg hia, if_pos hib] at hl
          rw [hkeep (Or.inr hib)]
          rcases List.mem_cons.mp hl with rfl | hl2
          · omega
          · have := pptFreshB_bound sysa sysb is (u + 1) l hl2
            omega
        · rw [pptFreshB, if_neg hia, if_neg hib] at hl
          rw [List.filter_cons_of_neg (by simp [memB, hia, hib])]
          exact pptFreshB_bound sysa sysb is u l hl

theorem pptFresh_disjoint (sysa sysb : List ℕ) :
    ∀ (is : List ℕ) (u : ℕ), ∀ l ∈ pptFreshA sysa sysb is u,
      l ∉ pptFreshB sysa sysb is u
  | [], u, l, hl => by simp [pptFreshA] at hl
  | i :: is, u, l, hl => by
      by_cases hia : i ∈ sysa
      · rw [pptFreshA, if_pos hia] at hl
        rw [pptFreshB, if_pos hia]
        rcases List.mem_cons.mp hl with hx | hl2
        · intro hmem
          have hb := (pptFreshB_bound sysa sysb is (u + 1) l hmem).1
          omega
        · exact pptFresh_disjoint sysa sysb is (u + 1) l hl2
      · by_cases hib : i ∈ sysb
        · rw [pptFreshA, if_neg hia, if_pos hib] at hl
          rw [pptFreshB, if_neg hia, if_pos hib]
          intro hmem
          rcases List.mem_cons.mp hmem with hx | hmem2
          · have hb := (pptFreshA_bound sysa sysb is (u + 1) l hl).1
            omega
          · exact pptFresh_disjoint sysa sysb is (u + 1) l hl hmem2
        · rw [pptFreshA, if_neg hia, if_neg hib] at hl
          rw [pptFreshB, if_neg hia, if_neg hib]
          exact pptFresh_disjoint sysa sysb is u l hl

theorem pptFreshA_nodup (sysa sysb : List ℕ) :
    ∀ (is : List ℕ) (u : ℕ), (pptFreshA sysa sysb is u).Nodup
  | [], _ => List.nodup_nil
  | i :: is, u => by
      by_cases hia : i ∈ sysa
      · rw [pptFreshA, if_pos hia, List.nodup_cons]
        exact ⟨fun hmem => absurd (pptFreshA_bound sysa sysb is (u + 1) u hmem).1
          (by omega), pptFreshA_nodup sysa sysb is (u + 1)⟩
      · by_cases hib : i ∈ sysb
        · rw [pptFreshA, if_neg hia, if_pos hib]
          exact pptFreshA_nodup sysa sysb is (u + 1)
        · rw [pptFreshA, if_neg hia, if_neg hib]
          exact pptFreshA_nodup sysa sysb is u

theorem pptFreshB_nodup (sysa sysb : List ℕ) :
    ∀ (is : List ℕ) (u : ℕ), (pptFreshB sysa sysb is u).Nodup
  | [], _ => List.nodup_nil
  | i :: is, u => by
      by_cases hia : i ∈ sysa
      · rw [pptFreshB, if_pos hia]
        exact pptFreshB_nodup sysa sysb is (u + 1)
      · by_cases hib : i ∈ sysb
        · rw [pptFreshB, if_neg hia, if_pos hib, List.nodup_cons]
          exact ⟨fun hmem => absurd (pptFreshB_bound sysa sysb is (u + 1) u hmem).1
            (by omega), pptFreshB_nodup sysa sysb is (u + 1)⟩
        · rw [pptFreshB, if_neg hia, if_neg hib]
          exact pptFreshB_nodup sysa sysb is u

theorem pptAbKet_mem (sysa sysb : List ℕ) :
    ∀ (is : List ℕ) (u : ℕ), (∀ i ∈ is, i < u) → ∀ l,
      (l ∈ (ptrPptIndsAux sysa sysb is u).1 ↔
        (l ∈ is ∧ l ∈ sysa) ∨ l ∈ pptFreshB sysa sysb is u)
  | [], u, _, l => by simp [ptrPptIndsAux, pptFreshB]
  | i :: is, u, hu, l => by
      have hiu : i < u := hu i (List.mem_cons_self _ _)
      have hutl : ∀ x ∈ is, x < u := fun x hx => hu x (List.mem_cons_of_mem _ hx)
      have hutl2 : ∀ x ∈ is, x < u + 1 := fun x hx => (hutl x hx).trans (by omega)
      by_cases hia : i ∈ sysa
      · rw [ptrPptIndsAux]
        simp only [if_pos hia]
        rw [pptFreshB, if_pos hia]
        simp only [List.mem_cons,
          pptAbKet_mem sysa sysb is (u + 1) hutl2 l]
        constructor
        · rintro (rfl | ⟨h1, h2⟩ | h3)
          · exact Or.inl ⟨Or.inl rfl, hia⟩
          · exact Or.inl ⟨Or.inr h1, h2⟩
          · exact Or.inr h3
        · rintro (⟨rfl | h1, h2⟩ | h3)
          · exact Or.inl rfl
          · exact Or.inr (Or.inl ⟨h1, h2⟩)
          · exact Or.inr (Or.inr h3)
      · by_cases hib : i ∈ sysb
        · rw [ptrPptIndsAux]
          simp only [if_neg hia, if_pos hib]
          rw [pptFreshB, if_neg hia, if_pos hib]
          simp only [List.mem_cons,
            pptAbKet_mem sysa sysb is (u + 1) hutl2 l]
          constructor
          · rintro (rfl | ⟨h1, h2⟩ | h3)
            · exact Or.inr (Or.inl rfl)
            · exact Or.inl ⟨Or.inr h1, h2⟩
            · exact Or.inr (Or.inr h3)
          · rintro (⟨rfl | h1, h2⟩ | rfl | h3)
            · exact absurd h2 hia
            · exact Or.inr (Or.inl ⟨h1, h2⟩)
            · exact Or.inl rfl
            · exact Or.inr (Or.inr h3)
        · rw [ptrPptIndsAux]
          simp only [if_neg hia, if_neg hib]
          rw [pptFreshB, if_neg hia, if_neg hib]
          simp only [List.mem_cons,
            pptAbKet_mem sysa sysb is u hutl l]
          constructor
          · rintro (⟨h1, h2⟩ | h3)
            · exact Or.inl ⟨Or.inr h1, h2⟩
            · exact Or.inr h3
          · rintro (⟨rfl | h1, h2⟩ | h3)
            · exact absurd h2 hia
            · exact Or.inl ⟨h1, h2⟩
            · exact Or.inr h3

theorem pptBra_mem (sysa sysb : List ℕ) :
    ∀ (is : List ℕ) (u : ℕ), (∀ i ∈ is, i < u) → ∀ l,
      (l ∈ (ptrPptIndsAux sysa sysb is u).2.1 ↔
        (l ∈ is ∧ l ∉ sysa ∧ l ∉ sysb) ∨
          l ∈ pptFreshA sysa sysb is u ∨ l ∈ pptFreshB sysa sysb is u)
  | [], u, _, l => by simp [ptrPptIndsAux, pptFreshA, pptFreshB]
  | i :: is, u, hu, l => by
      have hiu : i < u := hu i (List.mem_cons_self _ _)
      have hutl : ∀ x ∈ is, x < u := fun x hx => hu x (List.mem_cons_of_mem _ hx)
      have hutl2 : ∀ x ∈ is, x < u + 1 := fun x hx => (hutl x hx).trans (by omega)
      by_cases hia : i ∈ sysa
      · rw [ptrPptIndsAux]
        simp only [if_pos hia]
        rw [pptFreshA, if_pos hia, pptFreshB, if_pos hia]
        simp only [List.mem_cons,
          pptBra_mem sysa sysb is (u + 1) hutl2 l]
        constructor
        · rintro (rfl | ⟨h1, h2⟩ | h3 | h4)
          · exact Or.inr (Or.inl (Or.inl rfl))
          · exact Or.inl ⟨Or.inr h1, h2⟩
          · exact Or.inr (Or.inl (Or.inr h3))
          · exact Or.inr (Or.inr h4)
        · rintro (⟨rfl | h1, h2⟩ | (rfl | h3) | h4)
          · exact absurd hia h2.1
          · exact Or.inr (Or.inl ⟨h1, h2⟩)
          · exact Or.inl rfl
          · exact Or.inr (Or.inr (Or.inl h3))
          · exact Or.inr (Or.inr (Or.inr h4))
      · by_cases hib : i ∈ sysb
        · rw [ptrPptIndsAux]
          simp only [if_neg hia, if_pos hib]
          rw [pptFreshA, if_neg hia, if_pos hib, pptFreshB, if_neg hia,
            if_pos hib]
          simp only [List.mem_cons,
            pptBra_mem sysa sysb is (u + 1) hutl2 l]
          constructor
          · rintro (rfl | ⟨h1, h2⟩ | h3 | h4)
            · exact Or.inr (Or.inr (Or.inl rfl))
            · exact Or.inl ⟨Or.inr h1, h2⟩
            · exact Or.inr (Or.inl h3)
            · exact Or.inr (Or.inr (Or.inr h4))
          · rintro (⟨rfl | h1, h2⟩ | h3 | rfl | h4)
            · exact absurd hib h2.2
            · exact Or.inr (Or.inl ⟨h1, h2⟩)
            · exact Or.inr (Or.inr (Or.inl h3))
            · exact Or.inl rfl
            · exact Or.inr (Or.inr (Or.inr h4))
        · rw [ptrPptIndsAux]
          simp only [if_neg hia, if_neg hib]
          rw [pptFreshA, if_neg hia, if_neg hib, pptFreshB, if_neg hia,
            if_neg hib]
          simp only [List.mem_cons,
            pptBra_mem sysa sysb is u hutl l]
          constructor
          · rintro (rfl | ⟨h1, h2⟩ | h34)
            · exact Or.inl ⟨Or.inl rfl, hia, hib⟩
            · exact Or.inl ⟨Or.inr h1, h2⟩
            · exact Or.inr h34
          · rintro (⟨rfl | h1, h2⟩ | h34)
            · exact Or.inl rfl
            · exact Or.inr (Or.inl ⟨h1, h2⟩)
            · exact Or.inr (Or.inr h34)

theorem pptOut_mem (sysa sysb : List ℕ) :
    ∀ (is : List ℕ) (u : ℕ), (∀ i ∈ is, i < u) → ∀ l,
      (l ∈ (ptrPptIndsAux sysa sysb is u).2.2.2 ↔
        l ∈ pptFreshA sysa sysb is u ∨ (l ∈ is ∧ l ∉ sysa ∧ l ∈ sysb))
  | [], u, _, l => by simp [ptrPptIndsAux, pptFreshA]
  | i :: is, u, hu, l => by
      have hiu : i < u := hu i (List.mem_cons_self _ _)
      have hutl : ∀ x ∈ is, x < u := fun x hx => hu x (List.mem_cons_of_mem _ hx)
      have hutl2 : ∀ x ∈ is, x < u + 1 := fun x hx => (hutl x hx).trans (by omega)
      by_cases hia : i ∈ sysa
      · rw [ptrPptIndsAux]
        simp only [if_pos hia]
        rw [pptFreshA, if_pos hia]
        simp only [List.mem_cons,
          pptOut_mem sysa sysb is (u + 1) hutl2 l]
        constructor
        · rintro (rfl | h1 | ⟨h2, h3⟩)
          · exact Or.inl (Or.inl rfl)
          · exact Or.inl (Or.inr h1)
          · exact Or.inr ⟨Or.inr h2, h3⟩
        · rintro ((rfl | h1) | ⟨rfl | h2, h3⟩)
          · exact Or.inl rfl
          · exact Or.inr (Or.inl h1)
          · exact absurd hia h3.1
          · exact Or.inr (Or.inr ⟨h2, h3⟩)
      · by_cases hib : i ∈ sysb
        · rw [ptrPptIndsAux]
          simp only [if_neg hia, if_pos hib]
          rw [pptFreshA, if_neg hia, if_pos hib]
          simp only [List.mem_cons,
            pptOut_mem sysa sysb is (u + 1) hutl2 l]
          constructor
          · rintro (rfl | h1 | ⟨h2, h3⟩)
            · exact Or.inr ⟨Or.inl rfl, hia, hib⟩
            · exact Or.inl h1
            · exact Or.inr ⟨Or.inr h2, h3⟩
          · rintro (h1 | ⟨rfl | h2, h3⟩)
            · exact Or.inr (Or.inl h1)
            · exact Or.inl rfl
            · exact Or.inr (Or.inr ⟨h2, h3⟩)
        · rw [ptrPptIndsAux]
          simp only [if_neg hia, if_neg hib]
          rw [pptFreshA, if_neg hia, if_neg hib]
          simp only [List.mem_cons,
            pptOut_mem sysa sysb is u hutl l]
          constructor
          · rintro (h1 | ⟨h2, h3⟩)
            · exact Or.inl h1
            · exact Or.inr ⟨Or.inr h2, h3⟩
          · rintro (h1 | ⟨rfl | h2, h3⟩)
            · exact Or.inl h1
            · exact absurd h3.2 hib
            · exact Or.inr ⟨h2, h3⟩

theorem pptSumKeys_mem (sysa sysb : List ℕ) :
    ∀ (is : List ℕ) (u : ℕ), (∀ i ∈ is, i < u) → ∀ l,
      (l ∈ pptSumKeys sysa sysb is u ↔
        (l ∈ is ∧ ¬(l ∉ sysa ∧ l ∈ sysb)) ∨ l ∈ pptFreshB sysa sysb is u)
  | [], u, _, l => by simp [pptSumKeys, pptFreshB]
  | i :: is, u, hu, l => by
      have hiu : i < u := hu i (List.mem_cons_self _ _)
      have hutl : ∀ x ∈ is, x < u := fun x hx => hu x (List.mem_cons_of_mem _ hx)
      have hutl2 : ∀ x ∈ is, x < u + 1 := fun x hx => (hutl x hx).trans (by omega)
      by_cases hia : i ∈ sysa
      · rw [pptSumKeys, if_pos hia, pptFreshB, if_pos hia]
        simp only [List.mem_cons,
          pptSumKeys_mem sysa sysb is (u + 1) hutl2 l]
        constructor
        · rintro (rfl | ⟨h1, h2⟩ | h3)
          · exact Or.inl ⟨Or.inl rfl, fun h => h.1 hia⟩
          · exact Or.inl ⟨Or.inr h1, h2⟩
          · exact Or.inr h3
        · rintro (⟨rfl | h1, h2⟩ | h3)
          · exact Or.inl rfl
          · exact Or.inr (Or.inl ⟨h1, h2⟩)
          · exact Or.inr (Or.inr h3)
      · by_cases hib : i ∈ sysb
        · rw [pptSumKeys, if_neg hia, if_pos hib, pptFreshB, if_neg hia,
            if_pos hib]
          simp only [List.mem_cons,
            pptSumKeys_mem sysa sysb is (u + 1) hutl2 l]
          constructor
          · rintro (rfl | ⟨h1, h2⟩ | h3)
            · exact Or.inr (Or.inl rfl)
            · exact Or.inl ⟨Or.inr h1, h2⟩
            · exact Or.inr (Or.inr h3)
          · rintro (⟨rfl | h1, h2⟩ | rfl | h3)
            · exact absurd ⟨hia, hib⟩ h2
            · exact Or.inr (Or.inl ⟨h1, h2⟩)
            · exact Or.inl rfl
            · exact Or.inr (Or.inr h3)
        · rw [pptSumKeys, if_neg hia, if_neg hib, pptFreshB, if_neg hia,
            if_neg hib]
          simp only [List.mem_cons,
            pptSumKeys_mem sysa sysb is u hutl l]
          constructor
          · rintro (rfl | ⟨h1, h2⟩ | h3)
            · exact Or.inl ⟨Or.inl rfl, fun h => hib h.2⟩
            · exact Or.inl ⟨Or.inr h1, h2⟩
            · exact Or.inr h3
          · rintro (⟨rfl | h1, h2⟩ | h3)
            · exact Or.inl rfl
            · exact Or.inr (Or.inl ⟨h1, h2⟩)
            · exact Or.inr (Or.inr h3)

theorem pptSumKeys_nodup (sysa sysb : List ℕ) :
    ∀ (is : List ℕ) (u : ℕ), is.Nodup → (∀ i ∈ is, i < u) →
      (pptSumKeys sysa sysb is u).Nodup
  | [], _, _, _ => List.nodup_nil
  | i :: is, u, hnd, hu => by
      rw [List.nodup_cons] at hnd
      have hiu : i < u := hu i (List.mem_cons_self _ _)
      have hutl : ∀ x ∈ is, x < u := fun x hx => hu x (List.mem_cons_of_mem _ hx)
      have hutl2 : ∀ x ∈ is, x < u + 1 := fun x hx => (hutl x hx).trans (by omega)
      by_cases hia : i ∈ sysa
      · rw [pptSumKeys, if_pos hia, List.nodup_cons]
        refine ⟨fun hmem => ?_, pptSumKeys_nodup sysa sysb is (u + 1) hnd.2 hutl2⟩
        rcases (pptSumKeys_mem sysa sysb is (u + 1) hutl2 i).mp hmem with
          ⟨h1, _⟩ | h2
        · exact hnd.1 h1
        · exact absurd (pptFreshB_bound sysa sysb is (u + 1) i h2).1 (by omega)
      · by_cases hib : i ∈ sysb
        · rw [pptSumKeys, if_neg hia, if_pos hib, List.nodup_cons]
          refine ⟨fun hmem => ?_,
            pptSumKeys_nodup sysa sysb is (u + 1) hnd.2 hutl2⟩
          rcases (pptSumKeys_mem sysa sysb is (u + 1) hutl2 u).mp hmem with
            ⟨h1, _⟩ | h2
          · exact absurd (hutl u h1) (by omega)
          · exact absurd (pptFreshB_bound sysa sysb is (u + 1) u h2).1 (by omega)
        · rw [pptSumKeys, if_neg hia, if_neg hib, List.nodup_cons]
          refine ⟨fun hmem => ?_,
            pptSumKeys_nodup sysa sysb is u hnd.2 hutl⟩
          rcases (pptSumKeys_mem sysa sysb is u hutl i).mp hmem with
            ⟨h1, _⟩ | h2
          · exact hnd.1 h1
          · exact absurd (pptFreshB_bound sysa sysb is u i h2).1 (by omega)

theorem lookup_skip_head {β : Type} (l k : ℕ) (v : β) (ps : List (ℕ × β))
    (h : l ≠ k) : List.lookup l ((k, v) :: ps) = List.lookup l ps := by
  rw [List.lookup_cons]
  have : (l == k) = false := by simpa using h
  simp [this]

theorem lookup_append3_skip {β : Type} (l ka kb kc : ℕ) (va vb vc : β)
    (s1 s2 s3 : List (ℕ × β)) (ha : l ≠ ka) (hb : l ≠ kb) (hc : l ≠ kc) :
    List.lookup l (((ka, va) :: s1) ++ (((kb, vb) :: s2) ++ ((kc, vc) :: s3))) =
      List.lookup l (s1 ++ (s2 ++ s3)) := by
  rw [List.cons_append, lookup_skip_head l ka va _ ha]
  cases h1 : List.lookup l s1 with
  | some v => rw [lookup_append_some _ h1, lookup_append_some _ h1]
  | none =>
      rw [lookup_append_none _ h1, lookup_append_none _ h1,
        List.cons_append, lookup_skip_head l kb vb _ hb]
      cases h2 : List.lookup l s2 with
      | some v => rw [lookup_append_some _ h2, lookup_append_some _ h2]
      | none =>
          rw [lookup_append_none _ h2, lookup_append_none _ h2,
            lookup_skip_head l kc vc _ hc]

theorem lookup_append2_skip {β : Type} (l kb kc : ℕ) (vb vc : β)
    (s1 s2 s3 : List (ℕ × β)) (hb : l ≠ kb) (hc : l ≠ kc) :
    List.lookup l (s1 ++ (((kb, vb) :: s2) ++ ((kc, vc) :: s3))) =
      List.lookup l (s1 ++ (s2 ++ s3)) := by
  cases h1 : List.lookup l s1 with
  | some v => rw [lookup_append_some _ h1, lookup_append_some _ h1]
  | none =>
      rw [lookup_append_none _ h1, lookup_append_none _ h1,
        List.cons_append, lookup_skip_head l kb vb _ hb]
      cases h2 : List.lookup l s2 with
      | some v => rw [lookup_append_some _ h2, lookup_append_some _ h2]
      | none =>
          rw [lookup_append_none _ h2, lookup_append_none _ h2,
            lookup_skip_head l kc vc _ hc]

theorem pptAbKet_mem_bound (sysa sysb : List ℕ) (is : List ℕ) (u : ℕ)
    (hu : ∀ i ∈ is, i < u) :
    ∀ l ∈ (ptrPptIndsAux sysa sysb is u).1, l ∈ is ∨ u ≤ l := by
  intro l hl
  rcases (pptAbKet_mem sysa sysb is u hu l).mp hl with ⟨h1, _⟩ | h2
  · exact Or.inl h1
  · exact Or.inr (pptFreshB_bound sysa sysb is u l h2).1

theorem pptBra_mem_bound (sysa sysb : List ℕ) (is : List ℕ) (u : ℕ)
    (hu : ∀ i ∈ is, i < u) :
    ∀ l ∈ (ptrPptIndsAux sysa sysb is u).2.1, l ∈ is ∨ u ≤ l := by
  intro l hl
  rcases (pptBra_mem sysa sysb is u hu l).mp hl with ⟨h1, _⟩ | h2 | h3
  · exact Or.inl h1
  · exact Or.inr (pptFreshA_bound sysa sysb is u l h2).1
  · exact Or.inr (pptFreshB_bound sysa sysb is u l h3).1

theorem pptOut_mem_bound (sysa sysb : List ℕ) (is : List ℕ) (u : ℕ)
    (hu : ∀ i ∈ is, i < u) :
    ∀ l ∈ (ptrPptIndsAux sysa sysb is u).2.2.2, l ∈ is ∨ u ≤ l := by
  intro l hl
  rcases (pptOut_mem sysa sysb is u hu l).mp hl with h1 | ⟨h2, _⟩
  · exact Or.inr (pptFreshA_bound sysa sysb is u l h1).1
  · exact Or.inl h2

theorem pptSumKeys_mem_bound (sysa sysb : List ℕ) (is : List ℕ) (u : ℕ)
    (hu : ∀ i ∈ is, i < u) :
    ∀ l ∈ pptSumKeys sysa sysb is u, l ∈ is ∨ u ≤ l := by
  intro l hl
  rcases (pptSumKeys_mem sysa sysb is u hu l).mp hl with ⟨h1, _⟩ | h2
  · exact Or.inl h1
  · exact Or.inr (pptFreshB_bound sysa sysb is u l h2).1

/-- Step equations for the trace+transpose+dot plan walk. -/
theorem ptrPptIndsAux_cons_a (sysa sysb : List ℕ) {i : ℕ} (is : List ℕ)
    (u : ℕ) (hia : i ∈ sysa) :
    ptrPptIndsAux sysa sysb (i :: is) u =
      (i :: (ptrPptIndsAux sysa sysb is (u + 1)).1,
       u :: (ptrPptIndsAux sysa sysb is (u + 1)).2.1,
       i :: (ptrPptIndsAux sysa sysb is (u + 1)).2.2.1,
       u :: (ptrPptIndsAux sysa sysb is (u + 1)).2.2.2) := by
  simp [ptrPptIndsAux, hia]

theorem ptrPptIndsAux_cons_b (sysa sysb : List ℕ) {i : ℕ} (is : List ℕ)
    (u : ℕ) (hia : i ∉ sysa) (hib : i ∈ sysb) :
    ptrPptIndsAux sysa sysb (i :: is) u =
      (u :: (ptrPptIndsAux sysa sysb is (u + 1)).1,
       u :: (ptrPptIndsAux sysa sysb is (u + 1)).2.1,
       i :: (ptrPptIndsAux sysa sysb is (u + 1)).2.2.1,
       i :: (ptrPptIndsAux sysa sysb is (u + 1)).2.2.2) := by
  simp [ptrPptIndsAux, hia, hib]

theorem ptrPptIndsAux_cons_c (sysa sysb : List ℕ) {i : ℕ} (is : List ℕ)
    (u : ℕ) (hia : i ∉ sysa) (hib : i ∉ sysb) :
    ptrPptIndsAux sysa sysb (i :: is) u =
      ((ptrPptIndsAux sysa sysb is u).1,
       i :: (ptrPptIndsAux sysa sysb is u).2.1,
       i :: (ptrPptIndsAux sysa sysb is u).2.2.1,
       (ptrPptIndsAux sysa sysb is u).2.2.2) := by
  simp [ptrPptIndsAux, hia, hib]

theorem pptSumKeys_cons_a (sysa sysb : List ℕ) {i : ℕ} (is : List ℕ) (u : ℕ)
    (hia : i ∈ sysa) :
    pptSumKeys sysa sysb (i :: is) u = i :: pptSumKeys sysa sysb is (u + 1) := by
  rw [pptSumKeys, if_pos hia]

theorem pptSumKeys_cons_b (sysa sysb : List ℕ) {i : ℕ} (is : List ℕ) (u : ℕ)
    (hia : i ∉ sysa) (hib : i ∈ sysb) :
    pptSumKeys sysa sysb (i :: is) u = u :: pptSumKeys sysa sysb is (u + 1) := by
  rw [pptSumKeys, if_neg hia, if_pos hib]

theorem pptSumKeys_cons_c (sysa sysb : List ℕ) {i : ℕ} (is : List ℕ) (u : ℕ)
    (hia : i ∉ sysa) (hib : i ∉ sysb) :
    pptSumKeys sysa sysb (i :: is) u = i :: pptSumKeys sysa sysb is u := by
  rw [pptSumKeys, if_neg hia, if_neg hib]

/-- The output dimensions of the trace+transpose+dot contraction are the
kept sub-dimensions, and each summed label is looked up to its position's
dimension. -/
theorem ppt_dimOf (sysa sysb : List ℕ) :
    ∀ (is ds : List ℕ) (u : ℕ), is.Nodup → (∀ i ∈ is, i < u) →
      is.length = ds.length →
      ((ptrPptIndsAux sysa sysb is u).2.2.2.map (fun l =>
          (List.lookup l
            ((ptrPptIndsAux sysa sysb is u).1.zip
                (keptB (is.map (memB (sysa ++ sysb))) ds) ++
              ((ptrPptIndsAux sysa sysb is u).2.1.zip ds ++ is.zip ds))).getD 0)
        = keptB (is.map (memB (sysa ++ sysb))) ds)
      ∧ (∀ p ∈ (pptSumKeys sysa sysb is u).zip ds,
          (List.lookup p.1
            ((ptrPptIndsAux sysa sysb is u).1.zip
                (keptB (is.map (memB (sysa ++ sysb))) ds) ++
              ((ptrPptIndsAux sysa sysb is u).2.1.zip ds ++ is.zip ds))).getD 0
            = p.2)
  | [], ds, u, _, _, hlen => by
      simp [ptrPptIndsAux, pptSumKeys, keptB]
  | i :: is, ds, u, hnd, hu, hlen => by
      match ds, hlen with
      | d :: ds, hlen =>
      rw [List.nodup_cons] at hnd
      have hiu : i < u := hu i (List.mem_cons_self _ _)
      have hutl : ∀ x ∈ is, x < u := fun x hx => hu x (List.mem_cons_of_mem _ hx)
      have hutl2 : ∀ x ∈ is, x < u + 1 := fun x hx => (hutl x hx).trans (by omega)
      have hlen2 : is.length = ds.length := by simpa using hlen
      by_cases hia : i ∈ sysa
      · -- sysa position
        have hkpi : memB (sysa ++ sysb) i = true := by
          simp [memB, hia]
        obtain ⟨ih1, ih2⟩ := ppt_dimOf sysa sysb is ds (u + 1) hnd.2 hutl2 hlen2
        rw [ptrPptIndsAux_cons_a sysa sysb is u hia,
          pptSumKeys_cons_a sysa sysb is u hia]
        simp only [List.map_cons, hkpi, keptB, List.zip_cons_cons]
        have hZ1none : ∀ l, l ∉ is → ¬ u + 1 ≤ l →
            List.lookup l ((ptrPptIndsAux sysa sysb is (u + 1)).1.zip
              (keptB (is.map (memB (sysa ++ sysb))) ds)) = none := by
          intro l hl1 hl2
          refine lookup_eq_none_of_not_mem _ _ (fun hm => ?_)
          rcases List.mem_map.mp hm with ⟨⟨a, b⟩, hab, rfl⟩
          rcases pptAbKet_mem_bound sysa sysb is (u + 1) hutl2 a
            (List.of_mem_zip hab).1 with h | h
          · exact hl1 h
          · exact hl2 h
        have hskip : ∀ l, l ∈ is ∨ u + 1 ≤ l →
            List.lookup l (((i, d) :: (ptrPptIndsAux sysa sysb is (u + 1)).1.zip
                (keptB (is.map (memB (sysa ++ sysb))) ds)) ++
              (((u, d) :: (ptrPptIndsAux sysa sysb is (u + 1)).2.1.zip ds) ++
                ((i, d) :: is.zip ds))) =
            List.lookup l ((ptrPptIndsAux sysa sysb is (u + 1)).1.zip
                (keptB (is.map (memB (sysa ++ sysb))) ds) ++
              ((ptrPptIndsAux sysa sysb is (u + 1)).2.1.zip ds ++ is.zip ds)) := by
          intro l hl
          have hne1 : l ≠ i := by
            rcases hl with h | h
            · exact fun heq => hnd.1 (heq ▸ h)
            · omega
          have hne2 : l ≠ u := by
            rcases hl with h | h
            · have := hutl l h
              omega
            · omega
          exact lookup_append3_skip l i u i d d d _ _ _ hne1 hne2 hne1
        constructor
        · have hheadu : (List.lookup u (((i, d) ::
              (ptrPptIndsAux sysa sysb is (u + 1)).1.zip
                (keptB (is.map (memB (sysa ++ sysb))) ds)) ++
              (((u, d) :: (ptrPptIndsAux sysa sysb is (u + 1)).2.1.zip ds) ++
                ((i, d) :: is.zip ds)))).getD 0 = d := by
            rw [List.cons_append, lookup_skip_head u i d _ (by omega),
              lookup_append_none _ (hZ1none u (fun h => absurd (hutl u h)
                (by omega)) (by omega))]
            rw [List.cons_append, List.lookup_cons]
            simp
          rw [hheadu]
          refine congrArg (d :: ·) ?_
          rw [List.map_congr_left (fun l hl => by
            rw [hskip l (pptOut_mem_bound sysa sysb is (u + 1) hutl2 l hl)])]
          exact ih1
        · rintro ⟨l, v⟩ hp
          rcases List.mem_cons.mp hp with heq | hp2
          · cases heq
            rw [List.cons_append, List.lookup_cons]
            simp
          · have hl := (List.of_mem_zip hp2).1
            rw [hskip l (pptSumKeys_mem_bound sysa sysb is (u + 1) hutl2 l hl)]
            exact ih2 (l, v) hp2
      · by_cases hib : i ∈ sysb
        · -- sysb position
          have hkpi : memB (sysa ++ sysb) i = true := by
            simp [memB, hib]
          obtain ⟨ih1, ih2⟩ := ppt_dimOf sysa sysb is ds (u + 1) hnd.2 hutl2 hlen2
          rw [ptrPptIndsAux_cons_b sysa sysb is u hia hib,
            pptSumKeys_cons_b sysa sysb is u hia hib]
          simp only [List.map_cons, hkpi, keptB, List.zip_cons_cons]
          have hZ1none : ∀ l, l ∉ is → ¬ u + 1 ≤ l →
              List.lookup l ((ptrPptIndsAux sysa sysb is (u + 1)).1.zip
                (keptB (is.map (memB (sysa ++ sysb))) ds)) = none := by
            intro l hl1 hl2
            refine lookup_eq_none_of_not_mem _ _ (fun hm => ?_)
            rcases List.mem_map.mp hm with ⟨⟨a, b⟩, hab, rfl⟩
            rcases pptAbKet_mem_bound sysa sysb is (u + 1) hutl2 a
              (List.of_mem_zip hab).1 with h | h
            · exact hl1 h
            · exact hl2 h
          have hZ2none : ∀ l, l ∉ is → ¬ u + 1 ≤ l →
              List.lookup l ((ptrPptIndsAux sysa sysb is (u + 1)).2.1.zip ds) =
                none := by
            intro l hl1 hl2
            refine lookup_eq_none_of_not_mem _ _ (fun hm => ?_)
            rcases List.mem_map.mp hm with ⟨⟨a, b⟩, hab, rfl⟩
            rcases pptBra_mem_bound sysa sysb is (u + 1) hutl2 a
              (List.of_mem_zip hab).1 with h | h
            · exact hl1 h
            · exact hl2 h
          have hskip : ∀ l, l ∈ is ∨ u + 1 ≤ l →
              List.lookup l (((u, d) :: (ptrPptIndsAux sysa sysb is (u + 1)).1.zip
                  (keptB (is.map (memB (sysa ++ sysb))) ds)) ++
                (((u, d) :: (ptrPptIndsAux sysa sysb is (u + 1)).2.1.zip ds) ++
                  ((i, d) :: is.zip ds))) =
              List.lookup l ((ptrPptIndsAux sysa sysb is (u + 1)).1.zip
                  (keptB (is.map (memB (sysa ++ sysb))) ds) ++
                ((ptrPptIndsAux sysa sysb is (u + 1)).2.1.zip ds ++ is.zip ds)) := by
            intro l hl
            have hne1 : l ≠ i := by
              rcases hl with h | h
              · exact fun heq => hnd.1 (heq ▸ h)
              · omega
            have hne2 : l ≠ u := by
              rcases hl with h | h
              · have := hutl l h
                omega
              · omega
            exact lookup_append3_skip l u u i d d d _ _ _ hne2 hne2 hne1
          constructor
          · have hheadi : (List.lookup i (((u, d) ::
                (ptrPptIndsAux sysa sysb is (u + 1)).1.zip
                  (keptB (is.map (memB (sysa ++ sysb))) ds)) ++
                (((u, d) :: (ptrPptIndsAux sysa sysb is (u + 1)).2.1.zip ds) ++
                  ((i, d) :: is.zip ds)))).getD 0 = d := by
              rw [List.cons_append, lookup_skip_head i u d _ (by omega),
                lookup_append_none _ (hZ1none i hnd.1 (by omega)),
                List.cons_append, lookup_skip_head i u d _ (by omega),
                lookup_append_none _ (hZ2none i hnd.1 (by omega)),
                List.lookup_cons]
              simp
            rw [hheadi]
            refine congrArg (d :: ·) ?_
            rw [List.map_congr_left (fun l hl => by
              rw [hskip l (pptOut_mem_bound sysa sysb is (u + 1) hutl2 l hl)])]
            exact ih1
          · rintro ⟨l, v⟩ hp
            rcases List.mem_cons.mp hp with heq | hp2
            · cases heq
              rw [List.cons_append, List.lookup_cons]
              simp
            · have hl := (List.of_mem_zip hp2).1
              rw [hskip l (pptSumKeys_mem_bound sysa sysb is (u + 1) hutl2 l hl)]
              exact ih2 (l, v) hp2
        · -- traced position
          have hkpi : memB (sysa ++ sysb) i = false := by
            simp [memB, hia, hib]
          obtain ⟨ih1, ih2⟩ := ppt_dimOf sysa sysb is ds u hnd.2 hutl hlen2
          rw [ptrPptIndsAux_cons_c sysa sysb is u hia hib,
            pptSumKeys_cons_c sysa sysb is u hia hib]
          simp only [List.map_cons, hkpi, keptB, List.zip_cons_cons]
          have hZ1none : ∀ l, l ∉ is → ¬ u ≤ l →
              List.lookup l ((ptrPptIndsAux sysa sysb is u).1.zip
                (keptB (is.map (memB (sysa ++ sysb))) ds)) = none := by
            intro l hl1 hl2
            refine lookup_eq_none_of_not_mem _ _ (fun hm => ?_)
            rcases List.mem_map.mp hm with ⟨⟨a, b⟩, hab, rfl⟩
            rcases pptAbKet_mem_bound sysa sysb is u hutl a
              (List.of_mem_zip hab).1 with h | h
            · exact hl1 h
            · exact hl2 h
          have hskip : ∀ l, l ∈ is ∨ u ≤ l →
              List.lookup l ((ptrPptIndsAux sysa sysb is u).1.zip
                  (keptB (is.map (memB (sysa ++ sysb))) ds) ++
                (((i, d) :: (ptrPptIndsAux sysa sysb is u).2.1.zip ds) ++
                  ((i, d) :: is.zip ds))) =
              List.lookup l ((ptrPptIndsAux sysa sysb is u).1.zip
                  (keptB (is.map (memB (sysa ++ sysb))) ds) ++
                ((ptrPptIndsAux sysa sysb is u).2.1.zip ds ++ is.zip ds)) := by
            intro l hl
            have hne1 : l ≠ i := by
              rcases hl with h | h
              · exact fun heq => hnd.1 (heq ▸ h)
              · omega
            exact lookup_append2_skip l i i d d _ _ _ hne1 hne1
          constructor
          · rw [List.map_congr_left (fun l hl => by
              rw [hskip l (pptOut_mem_bound sysa sysb is u hutl l hl)])]
            exact ih1
          · rintro ⟨l, v⟩ hp
            rcases List.mem_cons.mp hp with heq | hp2
            · cases heq
              rw [lookup_append_none _ (hZ1none i hnd.1 (by omega)),
                List.cons_append, List.lookup_cons]
              simp
            · have hl := (List.of_mem_zip hp2).1
              rw [hskip l (pptSumKeys_mem_bound sysa sysb is u hutl l hl)]
              exact ih2 (l, v) hp2

/-- Evaluating the trace+transpose+dot label lists under the contraction
assignment: the `ab`-ket labels read the kept part of the summation tuple;
the `abc`-bra labels interleave the output tuple (at `sysa` positions) with
the summation tuple elsewhere; the `abc`-ket labels interleave the output
tuple (at `sysb` positions) with the summation tuple elsewhere. -/
theorem ppt_maps (sysa sysb : List ℕ) :
    ∀ (is six oix : List ℕ) (u : ℕ) (ν₀ : ℕ → ℕ),
      is.Nodup → (∀ i ∈ is, i < u) → six.length = is.length →
      oix.length = (ptrPptIndsAux sysa sysb is u).2.2.2.length →
      (∀ l ∈ (ptrPptIndsAux sysa sysb is u).2.2.2,
        ν₀ l = asgnF ((ptrPptIndsAux sysa sysb is u).2.2.2.zip oix) l) →
      ((ptrPptIndsAux sysa sysb is u).1.map
          (ovl ν₀ ((pptSumKeys sysa sysb is u).zip six)) =
        keptB (is.map (memB (sysa ++ sysb))) six)
      ∧ ((ptrPptIndsAux sysa sysb is u).2.1.map
          (ovl ν₀ ((pptSumKeys sysa sysb is u).zip six)) =
        mergeB (is.map (memB sysa))
          (keptB ((is.filter (memB (sysa ++ sysb))).map (memB sysa)) oix)
          (keptB ((is.map (memB sysa)).map not) six))
      ∧ (is.map (ovl ν₀ ((pptSumKeys sysa sysb is u).zip six)) =
        mergeB (is.map (fun i => !memB sysa i && memB (sysa ++ sysb) i))
          (keptB (((is.filter (memB (sysa ++ sysb))).map (memB sysa)).map not)
            oix)
          (keptB ((is.map
            (fun i => !memB sysa i && memB (sysa ++ sysb) i)).map not) six))
  | [], six, oix, u, ν₀, _, _, hlen, _, _ => by
      have : six = [] := List.length_eq_zero.mp (by simpa using hlen)
      subst this
      simp [ptrPptIndsAux, pptSumKeys, keptB, mergeB]
  | i :: is, six, oix, u, ν₀, hnd, hu, hlen, holen, hν => by
      match six, hlen with
      | s :: six₂, hlen =>
      rw [List.nodup_cons] at hnd
      have hiu : i < u := hu i (List.mem_cons_self _ _)
      have hutl : ∀ x ∈ is, x < u := fun x hx => hu x (List.mem_cons_of_mem _ hx)
      have hutl2 : ∀ x ∈ is, x < u + 1 := fun x hx => (hutl x hx).trans (by omega)
      have hlen2 : six₂.length = is.length := by simpa using hlen
      by_cases hia : i ∈ sysa
      · -- sysa position: summed key i, fresh output label u
        have hma : memB sysa i = true := by simp [memB, hia]
        have hmk : memB (sysa ++ sysb) i = true := by simp [memB, hia]
        have hmb : (!memB sysa i && memB (sysa ++ sysb) i) = false := by
          simp [memB, hia]
        rw [ptrPptIndsAux_cons_a sysa sysb is u hia] at holen hν ⊢
        match oix, holen with
        | o :: oix₂, holen =>
        have holen2 : oix₂.length =
            (ptrPptIndsAux sysa sysb is (u + 1)).2.2.2.length := by
          simpa using holen
        have hν0u : ν₀ u = o := by
          have := hν u (List.mem_cons_self _ _)
          rw [List.zip_cons_cons] at this
          rw [this, asgnF, List.lookup_cons]
          simp
        have hνtl : ∀ l ∈ (ptrPptIndsAux sysa sysb is (u + 1)).2.2.2,
            ν₀ l = asgnF
              ((ptrPptIndsAux sysa sysb is (u + 1)).2.2.2.zip oix₂) l := by
          intro l hl
          have hb := pptOut_mem_bound sysa sysb is (u + 1) hutl2 l hl
          have hne : l ≠ u := by
            rcases hb with h | h
            · have := hutl l h
              omega
            · omega
          have := hν l (List.mem_cons_of_mem _ hl)
          rw [List.zip_cons_cons] at this
          rw [this, asgnF, asgnF, lookup_skip_head l u o _ hne]
        obtain ⟨ih1, ih2, ih3⟩ := ppt_maps sysa sysb is six₂ oix₂ (u + 1) ν₀
          hnd.2 hutl2 hlen2 holen2 hνtl
        rw [pptSumKeys_cons_a sysa sysb is u hia, List.zip_cons_cons]
        have hself : ovl ν₀ ((i, s) ::
            (pptSumKeys sysa sysb is (u + 1)).zip six₂) i = s :=
          ovl_cons_self _ _ _ _
        have hskip : ∀ l, l ≠ i →
            ovl ν₀ ((i, s) :: (pptSumKeys sysa sysb is (u + 1)).zip six₂) l =
              ovl ν₀ ((pptSumKeys sysa sysb is (u + 1)).zip six₂) l :=
          fun l hl => ovl_cons_ne _ _ _ hl
        have hufall : ovl ν₀ ((i, s) ::
            (pptSumKeys sysa sysb is (u + 1)).zip six₂) u = o := by
          rw [ovl_fallback ν₀ (by
            simp only [List.map_cons, List.mem_cons, not_or]
            refine ⟨by omega, fun hm => ?_⟩
            rcases List.mem_map.mp hm with ⟨⟨a, b⟩, hab, heq⟩
            have ha : a = u := heq
            rcases pptSumKeys_mem_bound sysa sysb is (u + 1) hutl2 a
              (List.of_mem_zip hab).1 with h | h
            · have := hutl a h
              omega
            · omega)]
          exact hν0u
        have hcongr : ∀ (L : List ℕ), (∀ l ∈ L, l ∈ is ∨ u + 1 ≤ l) →
            L.map (ovl ν₀ ((i, s) ::
              (pptSumKeys sysa sysb is (u + 1)).zip six₂)) =
            L.map (ovl ν₀ ((pptSumKeys sysa sysb is (u + 1)).zip six₂)) := by
          intro L hL
          refine List.map_congr_left (fun l hl => hskip l ?_)
          rcases hL l hl with h | h
          · exact fun heq => hnd.1 (heq ▸ h)
          · omega
        refine ⟨?_, ?_, ?_⟩
        · rw [List.map_cons, hself,
            hcongr _ (pptAbKet_mem_bound sysa sysb is (u + 1) hutl2), ih1,
            List.map_cons, hmk]
          rfl
        · rw [List.map_cons, hufall,
            hcongr _ (pptBra_mem_bound sysa sysb is (u + 1) hutl2), ih2,
            List.map_cons, hma]
          show _ :: _ = mergeB (true :: _) (keptB (List.map (memB sysa)
            (List.filter (memB (sysa ++ sysb)) (i :: is))) (o :: oix₂)) _
          rw [List.filter_cons_of_pos hmk, List.map_cons, hma]
          show _ :: _ = mergeB (true :: _) (o :: _) _
          simp only [mergeB, keptB, List.map_cons, Bool.not_true,
            List.headD_cons, List.tail_cons]
        · rw [List.map_cons, hself,
            hcongr _ (fun l hl => Or.inl hl), ih3, List.map_cons, hmb]
          show _ :: _ = mergeB (false :: _) (keptB ((List.map (memB sysa)
            (List.filter (memB (sysa ++ sysb)) (i :: is))).map not)
            (o :: oix₂)) _
          rw [List.filter_cons_of_pos hmk, List.map_cons, hma]
          show _ :: _ = mergeB (false :: _)
            (keptB (false :: _) (o :: oix₂)) _
          simp only [mergeB, keptB, List.map_cons, Bool.not_false,
            List.headD_cons, List.tail_cons]
      · by_cases hib : i ∈ sysb
        · -- sysb position: summed key u, base output label i
          have hma : memB sysa i = false := by simp [memB, hia]
          have hmk : memB (sysa ++ sysb) i = true := by simp [memB, hib]
          have hmb : (!memB sysa i && memB (sysa ++ sysb) i) = true := by
            simp [memB, hia, hib]
          rw [ptrPptIndsAux_cons_b sysa sysb is u hia hib] at holen hν ⊢
          match oix, holen with
          | o :: oix₂, holen =>
          have holen2 : oix₂.length =
              (ptrPptIndsAux sysa sysb is (u + 1)).2.2.2.length := by
            simpa using holen
          have hν0i : ν₀ i = o := by
            have := hν i (List.mem_cons_self _ _)
            rw [List.zip_cons_cons] at this
            rw [this, asgnF, List.lookup_cons]
            simp
          have hνtl : ∀ l ∈ (ptrPptIndsAux sysa sysb is (u + 1)).2.2.2,
              ν₀ l = asgnF
                ((ptrPptIndsAux sysa sysb is (u + 1)).2.2.2.zip oix₂) l := by
            intro l hl
            have hb := pptOut_mem_bound sysa sysb is (u + 1) hutl2 l hl
            have hne : l ≠ i := by
              rcases hb with h | h
              · exact fun heq => hnd.1 (heq ▸ h)
              · omega
            have := hν l (List.mem_cons_of_mem _ hl)
            rw [List.zip_cons_cons] at this
            rw [this, asgnF, asgnF, lookup_skip_head l i o _ hne]
          obtain ⟨ih1, ih2, ih3⟩ := ppt_maps sysa sysb is six₂ oix₂ (u + 1) ν₀
            hnd.2 hutl2 hlen2 holen2 hνtl
          rw [pptSumKeys_cons_b sysa sysb is u hia hib, List.zip_cons_cons]
          have hself : ovl ν₀ ((u, s) ::
              (pptSumKeys sysa sysb is (u + 1)).zip six₂) u = s :=
            ovl_cons_self _ _ _ _
          have hskip : ∀ l, l ≠ u →
              ovl ν₀ ((u, s) :: (pptSumKeys sysa sysb is (u + 1)).zip six₂) l =
                ovl ν₀ ((pptSumKeys sysa sysb is (u + 1)).zip six₂) l :=
            fun l hl => ovl_cons_ne _ _ _ hl
          have hifall : ovl ν₀ ((u, s) ::
              (pptSumKeys sysa sysb is (u + 1)).zip six₂) i = o := by
            rw [ovl_fallback ν₀ (by
              simp only [List.map_cons, List.mem_cons, not_or]
              refine ⟨by omega, fun hm => ?_⟩
              rcases List.mem_map.mp hm with ⟨⟨a, b⟩, hab, heq⟩
              have ha : a = i := heq
              rcases pptSumKeys_mem_bound sysa sysb is (u + 1) hutl2 a
                (List.of_mem_zip hab).1 with h | h
              · exact hnd.1 (ha ▸ h)
              · have := hiu
                omega)]
            exact hν0i
          have hcongr : ∀ (L : List ℕ), (∀ l ∈ L, l ∈ is ∨ u + 1 ≤ l) →
              L.map (ovl ν₀ ((u, s) ::
                (pptSumKeys sysa sysb is (u + 1)).zip six₂)) =
              L.map (ovl ν₀ ((pptSumKeys sysa sysb is (u + 1)).zip six₂)) := by
            intro L hL
            refine List.map_congr_left (fun l hl => hskip l ?_)
            rcases hL l hl with h | h
            · have := hutl l h
              omega
            · omega
          refine ⟨?_, ?_, ?_⟩
          · rw [List.map_cons, hself,
              hcongr _ (pptAbKet_mem_bound sysa sysb is (u + 1) hutl2), ih1,
              List.map_cons, hmk]
            rfl
          · rw [List.map_cons, hself,
              hcongr _ (pptBra_mem_bound sysa sysb is (u + 1) hutl2), ih2,
              List.map_cons, hma]
            show _ :: _ = mergeB (false :: _) (keptB (List.map (memB sysa)
              (List.filter (memB (sysa ++ sysb)) (i :: is))) (o :: oix₂)) _
            rw [List.filter_cons_of_pos hmk, List.map_cons, hma]
            show _ :: _ = mergeB (false :: _)
              (keptB (false :: _) (o :: oix₂)) _
            simp only [mergeB, keptB, List.map_cons, Bool.not_false,
              List.headD_cons, List.tail_cons]
          · rw [List.map_cons, hifall,
              hcongr _ (fun l hl => Or.inl hl), ih3, List.map_cons, hmb]
            show _ :: _ = mergeB (true :: _) (keptB ((List.map (memB sysa)
              (List.filter (memB (sysa ++ sysb)) (i :: is))).map not)
              (o :: oix₂)) _
            rw [List.filter_cons_of_pos hmk, List.map_cons, hma]
            show _ :: _ = mergeB (true :: _)
              (keptB (true :: _) (o :: oix₂)) _
            simp only [mergeB, keptB, List.map_cons, Bool.not_true,
              List.headD_cons, List.tail_cons]
        · -- traced position: summed key i, no output label
          have hma : memB sysa i = false := by simp [memB, hia]
          have hmk : memB (sysa ++ sysb) i = false := by simp [memB, hia, hib]
          have hmb : (!memB sysa i && memB (sysa ++ sysb) i) = false := by
            simp [memB, hia, hib]
          rw [ptrPptIndsAux_cons_c sysa sysb is u hia hib] at holen hν ⊢
          obtain ⟨ih1, ih2, ih3⟩ := ppt_maps sysa sysb is six₂ oix u ν₀
            hnd.2 hutl hlen2 holen hν
          rw [pptSumKeys_cons_c sysa sysb is u hia hib, List.zip_cons_cons]
          have hself : ovl ν₀ ((i, s) ::
              (pptSumKeys sysa sysb is u).zip six₂) i = s :=
            ovl_cons_self _ _ _ _
          have hskip : ∀ l, l ≠ i →
              ovl ν₀ ((i, s) :: (pptSumKeys sysa sysb is u).zip six₂) l =
                ovl ν₀ ((pptSumKeys sysa sysb is u).zip six₂) l :=
            fun l hl => ovl_cons_ne _ _ _ hl
          have hcongr : ∀ (L : List ℕ), (∀ l ∈ L, l ∈ is ∨ u ≤ l) →
              L.map (ovl ν₀ ((i, s) ::
                (pptSumKeys sysa sysb is u).zip six₂)) =
              L.map (ovl ν₀ ((pptSumKeys sysa sysb is u).zip six₂)) := by
            intro L hL
            refine List.map_congr_left (fun l hl => hskip l ?_)
            rcases hL l hl with h | h
            · exact fun heq => hnd.1 (heq ▸ h)
            · omega
          refine ⟨?_, ?_, ?_⟩
          · rw [hcongr _ (pptAbKet_mem_bound sysa sysb is u hutl), ih1,
              List.map_cons, hmk]
            rfl
          · rw [List.map_cons, hself,
              hcongr _ (pptBra_mem_bound sysa sysb is u hutl), ih2,
              List.map_cons, hma]
            show _ :: _ = mergeB (false :: _) (keptB (List.map (memB sysa)
              (List.filter (memB (sysa ++ sysb)) (i :: is))) oix) _
            rw [List.filter_cons_of_neg (by simp [hmk])]
            simp only [mergeB, keptB, List.map_cons, Bool.not_false,
              List.headD_cons, List.tail_cons]
          · rw [List.map_cons, hself,
              hcongr _ (fun l hl => Or.inl hl), ih3, List.map_cons, hmb]
            show _ :: _ = mergeB (false :: _) (keptB ((List.map (memB sysa)
              (List.filter (memB (sysa ++ sysb)) (i :: is))).map not) oix) _
            rw [List.filter_cons_of_neg (by simp [hmk])]
            simp only [mergeB, keptB, List.map_cons, Bool.not_false,
              List.headD_cons, List.tail_cons]

theorem keptB_nil_right : ∀ bs : List Bool, keptB bs [] = []
  | [] => rfl
  | b :: bs => by cases b <;> rfl

theorem keptB_true_headD (bs : List Bool) (w : List ℕ) :
    (keptB (true :: bs) w).headD 0 = w.headD 0 := by
  cases w <;> rfl

theorem keptB_true_tail (bs : List Bool) (w : List ℕ) :
    (keptB (true :: bs) w).tail = keptB bs w.tail := by
  cases w with
  | nil => exact (keptB_nil_right bs).symm
  | cons w0 w' => rfl

theorem keptB_false_eq (bs : List Bool) (w : List ℕ) :
    keptB (false :: bs) w = keptB bs w.tail := by
  cases w with
  | nil => exact (keptB_nil_right bs).symm
  | cons w0 w' => rfl

theorem pickB_map_not : ∀ (bs : List Bool) (us vs : List ℕ),
    pickB (bs.map not) us vs = pickB bs vs us
  | [], _, _ => rfl
  | b :: bs, us, vs => by
      cases b <;> simp [pickB, pickB_map_not bs]

theorem pickB_true_cons (bs : List Bool) (us vs : List ℕ) :
    pickB (true :: bs) us vs = us.headD 0 :: pickB bs us.tail vs.tail := by
  simp [pickB]

theorem pickB_false_cons (bs : List Bool) (us vs : List ℕ) :
    pickB (false :: bs) us vs = vs.headD 0 :: pickB bs us.tail vs.tail := by
  simp [pickB]

theorem pptSumKeys_length (sysa sysb : List ℕ) :
    ∀ (is : List ℕ) (u : ℕ), (pptSumKeys sysa sysb is u).length = is.length
  | [], _ => rfl
  | i :: is, u => by
      by_cases hia : i ∈ sysa
      · rw [pptSumKeys_cons_a sysa sysb is u hia, List.length_cons,
          pptSumKeys_length sysa sysb is (u + 1), List.length_cons]
      · by_cases hib : i ∈ sysb
        · rw [pptSumKeys_cons_b sysa sysb is u hia hib, List.length_cons,
            pptSumKeys_length sysa sysb is (u + 1), List.length_cons]
        · rw [pptSumKeys_cons_c sysa sysb is u hia hib, List.length_cons,
            pptSumKeys_length sysa sysb is u, List.length_cons]

/-- Composing the per-class interleavings: reading a pattern built from the
output tuple at `pA`-positions and the full summation tuple elsewhere is the
same as interleaving a pointwise selection over the kept slots with the
traced slots. -/
theorem mergeB_comp (pA pK : ℕ → Bool) (himp : ∀ i, pA i = true → pK i = true) :
    ∀ (is w y c : List ℕ),
      y.length = (is.map pK).count true →
      mergeB (is.map pA) (keptB ((is.filter pK).map pA) w)
        (keptB ((is.map pA).map not) (mergeB (is.map pK) y c)) =
      mergeB (is.map pK) (pickB ((is.filter pK).map pA) w y) c
  | [], _, _, _, _ => rfl
  | i :: is, w, y, c, hy => by
      cases hK : pK i with
      | false =>
          have hA : pA i = false := by
            cases h : pA i
            · rfl
            · rw [himp i h] at hK
              cases hK
          rw [List.filter_cons_of_neg (by simp [hK])]
          simp only [List.map_cons, hA, hK, Bool.not_false]
          simp only [mergeB, keptB, List.headD_cons, List.tail_cons]
          rw [mergeB_comp pA pK himp is w y c.tail (by
            simpa [hK, List.count_cons] using hy)]
      | true =>
          have hy1 : y.length = (is.map pK).count true + 1 := by
            simpa [hK, List.count_cons] using hy
          match y, hy1 with
          | y0 :: y', hy1 =>
          have hy2 : y'.length = (is.map pK).count true := by simpa using hy1
          rw [List.filter_cons_of_pos (by simp [hK])]
          cases hA : pA i with
          | true =>
              simp only [List.map_cons, hA, hK, Bool.not_true]
              simp only [mergeB, keptB, pickB_true_cons, List.headD_cons,
                List.tail_cons, keptB_true_headD, keptB_true_tail]
              rw [mergeB_comp pA pK himp is w.tail y' c hy2]
          | false =>
              simp only [List.map_cons, hA, hK, Bool.not_false]
              simp only [mergeB, keptB, pickB_false_cons, List.headD_cons,
                List.tail_cons, keptB_false_eq]
              rw [mergeB_comp pA pK himp is w.tail y' c hy2]

/-- The a/b-bipartition mask over the kept slots, in planner terms. -/
theorem maskAmongKept_eq (n : ℕ) (sysa sysb : List ℕ) :
    maskAmongKept n sysa sysb =
      ((List.range n).filter (memB (sysa ++ sysb))).map (memB sysa) := by
  rw [maskAmongKept]
  have hfe : (List.range n).filter (fun i => decide (i ∈ sysa ∨ i ∈ sysb)) =
      (List.range n).filter (memB (sysa ++ sysb)) :=
    List.filter_congr (fun i _ => by simp [memB])
  rw [hfe]
  rfl

theorem filter_map_pB (sysa sysb : List ℕ) (is : List ℕ) :
    (is.filter (memB (sysa ++ sysb))).map
        (fun i => !memB sysa i && memB (sysa ++ sysb) i) =
      ((is.filter (memB (sysa ++ sysb))).map (memB sysa)).map not := by
  rw [List.map_map]
  refine List.map_congr_left (fun i hi => ?_)
  have hk : memB (sysa ++ sysb) i = true := (List.mem_filter.mp hi).2
  simp [Function.comp, hk]

/-- The summed labels of the trace+transpose+dot einsum (labels of the
inputs that are not output labels, first-occurrence order deduplicated) are
a permutation of the per-position summed keys. -/
theorem ppt_slb_perm (sysa sysb : List ℕ) (is : List ℕ) (u : ℕ)
    (hnd : is.Nodup) (hu : ∀ i ∈ is, i < u) :
    List.Perm
      (((ptrPptIndsAux sysa sysb is u).1 ++
          ((ptrPptIndsAux sysa sysb is u).2.1 ++ is)).dedup.filter
        (fun l => decide (l ∉ (ptrPptIndsAux sysa sysb is u).2.2.2)))
      (pptSumKeys sysa sysb is u) := by
  refine (List.perm_ext_iff_of_nodup ((List.nodup_dedup _).filter _)
    (pptSumKeys_nodup sysa sysb is u hnd hu)).mpr (fun l => ?_)
  rw [List.mem_filter, List.mem_dedup, List.mem_append, List.mem_append,
    pptSumKeys_mem sysa sysb is u hu l, pptAbKet_mem sysa sysb is u hu l,
    pptBra_mem sysa sysb is u hu l, decide_eq_true_eq,
    pptOut_mem sysa sysb is u hu l]
  constructor
  · rintro ⟨hin, hout⟩
    rw [not_or] at hout
    by_cases hFB : l ∈ pptFreshB sysa sysb is u
    · exact Or.inr hFB
    · have hlis : l ∈ is := by
        rcases hin with (⟨h1, _⟩ | h2) | (⟨h1, _, _⟩ | h2 | h3) | h1
        · exact h1
        · exact absurd h2 hFB
        · exact h1
        · exact absurd h2 hout.1
        · exact absurd h3 hFB
        · exact h1
      exact Or.inl ⟨hlis, fun h => hout.2 ⟨hlis, h.1, h.2⟩⟩
  · rintro (⟨hlis, hnab⟩ | hFB)
    · refine ⟨Or.inr (Or.inr hlis), ?_⟩
      rw [not_or]
      refine ⟨fun h => ?_, fun h => hnab ⟨h.2.1, h.2.2⟩⟩
      have := (pptFreshA_bound sysa sysb is u l h).1
      have := hu l hlis
      omega
    · refine ⟨Or.inl (Or.inr hFB), ?_⟩
      rw [not_or]
      have hbd := (pptFreshB_bound sysa sysb is u l hFB).1
      refine ⟨fun h => pptFresh_disjoint sysa sysb is u l h hFB,
        fun h => ?_⟩
      have := hu l h.1
      omega

/-- Core correctness of the lazy trace+transpose+dot contraction: the
einsum over the planner's labels, with the planner's explicit output label
order, equals explicitly forming the partially transposed reduced density
matrix and applying it. -/
theorem einsum_ptrPpt_data {R : Type} [CommRing R] [StarRing R]
    (psi_abc psi_ab : List R) (dims sysa sysb : List ℕ) :
    (einsum [⟨(get_cntrct_inds_ptr_ppt_dot dims.length sysa sysb).1,
          kept dims (sysa ++ sysb), psi_ab⟩,
        ⟨(get_cntrct_inds_ptr_ppt_dot dims.length sysa sysb).2.1, dims,
          conjL psi_abc⟩,
        ⟨(get_cntrct_inds_ptr_ppt_dot dims.length sysa sysb).2.2.1, dims,
          psi_abc⟩]
      (some (get_cntrct_inds_ptr_ppt_dot dims.length sysa sysb).2.2.2)).data =
      pptMatVec psi_abc psi_ab dims sysa sysb := by
  have hnodup : (List.range dims.length).Nodup := List.nodup_range _
  have hbound : ∀ i ∈ List.range dims.length, i < dims.length := by simp
  have hlen : (List.range dims.length).length = dims.length := by simp
  simp only [einsum, get_cntrct_inds_ptr_ppt_dot, List.flatMap_cons,
    List.flatMap_nil, List.append_nil, Option.getD_some]
  rw [pptKet_eq sysa sysb (List.range dims.length) dims.length]
  rw [← keptB_range_memB dims (sysa ++ sysb)]
  obtain ⟨hod, hdim⟩ := ppt_dimOf sysa sysb (List.range dims.length) dims
    dims.length hnodup hbound hlen
  rw [hod]
  simp only [pptMatVec, ptrRho, maskOf_eq, maskAmongKept_eq]
  refine List.map_congr_left (fun oix hoix => ?_)
  have hoixlen : oix.length =
      (keptB ((List.range dims.length).map (memB (sysa ++ sysb))) dims).length := by
    rw [length_of_mem_allTuples hoix]
  have houtlen : (ptrPptIndsAux sysa sysb (List.range dims.length)
      dims.length).2.2.2.length =
      (keptB ((List.range dims.length).map (memB (sysa ++ sysb))) dims).length := by
    have := congrArg List.length hod
    simpa using this
  have hslb_nodup : (((ptrPptIndsAux sysa sysb (List.range dims.length)
      dims.length).1 ++
        ((ptrPptIndsAux sysa sysb (List.range dims.length) dims.length).2.1 ++
          List.range dims.length)).dedup.filter
      (fun l => decide (l ∉ (ptrPptIndsAux sysa sysb (List.range dims.length)
        dims.length).2.2.2))).Nodup :=
    (List.nodup_dedup _).filter _
  have hperm := ppt_slb_perm sysa sysb (List.range dims.length) dims.length
    hnodup hbound
  have hkeyslen : (pptSumKeys sysa sysb (List.range dims.length)
      dims.length).length = dims.length := by
    rw [pptSumKeys_length, hlen]
  have hpairs := hperm.map (fun l => (l,
    (List.lookup l
      ((ptrPptIndsAux sysa sysb (List.range dims.length) dims.length).1.zip
          (keptB ((List.range dims.length).map (memB (sysa ++ sysb))) dims) ++
        ((ptrPptIndsAux sysa sysb (List.range dims.length)
            dims.length).2.1.zip dims ++
          (List.range dims.length).zip dims))).getD 0))
  rw [map_pair_eq_zip _ _ _ hkeyslen hdim] at hpairs
  rw [sumAssign_perm hpairs (by
    simpa [List.map_map, Function.comp_def] using hslb_nodup) _ _]
  rw [sumAssign_eq_lsum _ _ _ (by
    rw [List.map_fst_zip _ _ (le_of_eq hkeyslen)]
    exact pptSumKeys_nodup sysa sysb _ _ hnodup hbound)]
  rw [List.map_fst_zip _ _ (le_of_eq hkeyslen),
    List.map_snd_zip _ _ (le_of_eq hkeyslen.symm)]
  -- evaluate the integrand on each summation tuple
  have hstep : ∀ t ∈ allTuples dims,
      (List.map (fun (op : Operand R) => tget op.data op.dims (op.labels.map
        (ovl (asgnF ((ptrPptIndsAux sysa sysb (List.range dims.length)
            dims.length).2.2.2.zip oix))
          ((pptSumKeys sysa sysb (List.range dims.length) dims.length).zip t))))
        [⟨(ptrPptIndsAux sysa sysb (List.range dims.length) dims.length).1,
            keptB ((List.range dims.length).map (memB (sysa ++ sysb))) dims,
            psi_ab⟩,
         ⟨(ptrPptIndsAux sysa sysb (List.range dims.length) dims.length).2.1,
            dims, conjL psi_abc⟩,
         ⟨List.range dims.length, dims, psi_abc⟩]).prod =
      tget psi_ab
          (keptB ((List.range dims.length).map (memB (sysa ++ sysb))) dims)
          (keptB ((List.range dims.length).map (memB (sysa ++ sysb))) t) *
        (star (tget psi_abc dims
            (mergeB ((List.range dims.length).map (memB sysa))
              (keptB (((List.range dims.length).filter
                  (memB (sysa ++ sysb))).map (memB sysa)) oix)
              (keptB (((List.range dims.length).map (memB sysa)).map not) t))) *
          tget psi_abc dims
            (mergeB ((List.range dims.length).map
                (fun i => !memB sysa i && memB (sysa ++ sysb) i))
              (keptB ((((List.range dims.length).filter
                  (memB (sysa ++ sysb))).map (memB sysa)).map not) oix)
              (keptB (((List.range dims.length).map
                (fun i => !memB sysa i && memB (sysa ++ sysb) i)).map not)
                t))) := by
    intro t ht
    have htlen : t.length = (List.range dims.length).length := by
      rw [length_of_mem_allTuples ht, hlen]
    have hoixlen2 : oix.length =
        (ptrPptIndsAux sysa sysb (List.range dims.length)
          dims.length).2.2.2.length :=
      hoixlen.trans houtlen.symm
    obtain ⟨m1, m2, m3⟩ := ppt_maps sysa sysb (List.range dims.length) t oix
      dims.length
      (asgnF ((ptrPptIndsAux sysa sysb (List.range dims.length)
        dims.length).2.2.2.zip oix))
      hnodup hbound htlen hoixlen2 (fun l _ => rfl)
    simp only [List.map_cons, List.map_nil, List.prod_cons, List.prod_nil,
      mul_one, m1, m2, m3, tget_conjL]
  rw [lsum_congr hstep]
  -- split the summation tuple into kept and traced parts
  rw [lsum_allTuples_split
    ((List.range dims.length).map (memB (sysa ++ sysb))) dims _ (by simp)]
  refine lsum_congr (fun y hy => ?_)
  have hylen : y.length =
      ((List.range dims.length).map (memB (sysa ++ sysb))).count true := by
    rw [length_of_mem_allTuples hy, keptB_length _ _ (by simp)]
  rw [lsum_mul_right]
  refine lsum_congr (fun c hc => ?_)
  rw [keptB_mergeB_true _ _ _ hylen,
    mergeB_comp (memB sysa) (memB (sysa ++ sysb))
      (fun i h => by
        simp only [memB, decide_eq_true_eq] at h ⊢
        exact List.mem_append.mpr (Or.inl h))
      (List.range dims.length) oix y c hylen,
    ← filter_map_pB sysa sysb (List.range dims.length),
    mergeB_comp (fun i => !memB sysa i && memB (sysa ++ sysb) i)
      (memB (sysa ++ sysb))
      (fun i h => by rw [Bool.and_eq_true] at h; exact h.2)
      (List.range dims.length) oix y c hylen,
    filter_map_pB sysa sysb (List.range dims.length), pickB_map_not]
  ring

/-- Guarded form: valid shapes make `lazy_ptr_ppt_dot` return the explicit
partially-transposed reduced-density-matrix product. -/
theorem lazy_ptr_ppt_dot_ok {R : Type} [CommRing R] [StarRing R]
    (psi_abc psi_ab : List R) (dims sysa sysb : List ℕ)
    (habc : psi_abc.length = dims.prod)
    (hab : psi_ab.length = (kept dims (sysa ++ sysb)).prod) :
    lazy_ptr_ppt_dot psi_abc psi_ab dims sysa sysb =
      .ok (pptMatVec psi_abc psi_ab dims sysa sysb) := by
  simp only [lazy_ptr_ppt_dot]
  rw [if_pos habc, if_pos hab, einsum_ptrPpt_data]

/-- C2: for every dimension vector of positive entries, disjoint in-range
subsets `sysa` and `sysb`, and size-compatible complex vectors,
`lazy_ptr_ppt_dot(psi_abc, psi_ab, dims, sysa, sysb)` equals explicitly
partial-tracing the outer product of `psi_abc` with its conjugate over the
complement of `sysa ∪ sysb`, partially transposing the resulting operator
on the a/b bipartition, and multiplying it by `psi_ab`, with output axes in
the ascending physical order of the kept subsystems. -/
theorem C2_lazy_ptr_ppt_dot {R : Type} [CommRing R] [StarRing R]
    (psi_abc psi_ab : List R) (dims sysa sysb : List ℕ)
    (hpos : ∀ d ∈ dims, 0 < d)
    (hsub : ∀ i ∈ sysa ++ sysb, i < dims.length)
    (hdisj : ∀ i ∈ sysa, i ∉ sysb)
    (habc : psi_abc.length = dims.prod)
    (hab : psi_ab.length = (kept dims (sysa ++ sysb)).prod) :
    lazy_ptr_ppt_dot psi_abc psi_ab dims sysa sysb =
      .ok (pptMatVec psi_abc psi_ab dims sysa sysb) :=
  lazy_ptr_ppt_dot_ok psi_abc psi_ab dims sysa sysb habc hab

/-- Witness for C2 at `dims = (2, 2, 2)`, `sysa = {0}`, `sysb = {1}`,
concrete integer vectors. -/
theorem C2_lazy_ptr_ppt_dot_witness :
    lazy_ptr_ppt_dot (R := ℤ) [1, 2, 3, 4, 5, 6, 7, 8] [1, 2, 3, 4]
      [2, 2, 2] [0] [1] =
      .ok (pptMatVec (R := ℤ) [1, 2, 3, 4, 5, 6, 7, 8] [1, 2, 3, 4]
        [2, 2, 2] [0] [1]) :=
  C2_lazy_ptr_ppt_dot [1, 2, 3, 4, 5, 6, 7, 8] [1, 2, 3, 4] [2, 2, 2] [0] [1]
    (by decide) (by decide) (by decide) (by decide) (by decide)

/-- C3: `adjoint` does return a new handle of the same class wrapping the
complex conjugate of the stored base ket with dims and subset(s) unchanged
(both kinds); but the claimed adjoint identity
`⟨u, Op.apply(v)⟩ = ⟨Op.adjoint().apply(u), v⟩` is refuted by a concrete
Gaussian-integer (complex) counterexample on both kinds: conjugating the
base ket produces the transpose (entrywise conjugate) of the Hermitian
operator, not its adjoint, so the two inner products differ (`-i` vs `i`). -/
theorem C3_adjoint :
    (∀ (R : Type) (_ : CommRing R) (_ : StarRing R) (op : LazyPtrOperatr R),
      op.adjoint = ⟨conjL op.psi_ab, op.dims, op.sysa⟩)
    ∧ (∀ (R : Type) (_ : CommRing R) (_ : StarRing R)
        (op : LazyPtrPptOperator R),
      op.adjoint = ⟨conjL op.psi_abc, op.dims, op.sysa, op.sysb⟩)
    ∧ (LazyPtrOperatr.matvec (R := GaussianInt) ⟨[⟨1, 0⟩, ⟨0, 1⟩], [2], [0]⟩
        [⟨0, 0⟩, ⟨1, 0⟩] = .ok [⟨0, -1⟩, ⟨1, 0⟩]
      ∧ (LazyPtrOperatr.adjoint (R := GaussianInt)
          ⟨[⟨1, 0⟩, ⟨0, 1⟩], [2], [0]⟩).matvec
        [⟨1, 0⟩, ⟨0, 0⟩] = .ok [⟨1, 0⟩, ⟨0, -1⟩]
      ∧ vdot (R := GaussianInt) [⟨1, 0⟩, ⟨0, 0⟩] [⟨0, -1⟩, ⟨1, 0⟩] ≠
          vdot (R := GaussianInt) [⟨1, 0⟩, ⟨0, -1⟩] [⟨0, 0⟩, ⟨1, 0⟩])
    ∧ (LazyPtrPptOperator.matvec (R := GaussianInt)
        ⟨[⟨1, 0⟩, ⟨0, 1⟩, ⟨0, 0⟩, ⟨1, 0⟩], [2, 2], [0], [1]⟩
        [⟨0, 0⟩, ⟨1, 0⟩, ⟨0, 0⟩, ⟨0, 0⟩] =
          .ok [⟨0, -1⟩, ⟨1, 0⟩, ⟨1, 0⟩, ⟨0, 1⟩]
      ∧ (LazyPtrPptOperator.adjoint (R := GaussianInt)
          ⟨[⟨1, 0⟩, ⟨0, 1⟩, ⟨0, 0⟩, ⟨1, 0⟩], [2, 2], [0], [1]⟩).matvec
        [⟨1, 0⟩, ⟨0, 0⟩, ⟨0, 0⟩, ⟨0, 0⟩] =
          .ok [⟨1, 0⟩, ⟨0, -1⟩, ⟨0, 0⟩, ⟨0, 0⟩]
      ∧ vdot (R := GaussianInt) [⟨1, 0⟩, ⟨0, 0⟩, ⟨0, 0⟩, ⟨0, 0⟩]
          [⟨0, -1⟩, ⟨1, 0⟩, ⟨1, 0⟩, ⟨0, 1⟩] ≠
        vdot (R := GaussianInt) [⟨1, 0⟩, ⟨0, -1⟩, ⟨0, 0⟩, ⟨0, 0⟩]
          [⟨0, 0⟩, ⟨1, 0⟩, ⟨0, 0⟩, ⟨0, 0⟩]) :=
  ⟨fun _ _ _ _ => rfl, fun _ _ _ _ => rfl,
   ⟨by rfl, by rfl, by decide⟩, ⟨by rfl, by rfl, by decide⟩⟩

theorem pptAbKet_nodup (sysa sysb : List ℕ) :
    ∀ (is : List ℕ) (u : ℕ), is.Nodup → (∀ i ∈ is, i < u) →
      (ptrPptIndsAux sysa sysb is u).1.Nodup
  | [], _, _, _ => List.nodup_nil
  | i :: is, u, hnd, hu => by
      rw [List.nodup_cons] at hnd
      have hiu : i < u := hu i (List.mem_cons_self _ _)
      have hutl : ∀ x ∈ is, x < u := fun x hx => hu x (List.mem_cons_of_mem _ hx)
      have hutl2 : ∀ x ∈ is, x < u + 1 := fun x hx => (hutl x hx).trans (by omega)
      by_cases hia : i ∈ sysa
      · rw [ptrPptIndsAux_cons_a sysa sysb is u hia, List.nodup_cons]
        refine ⟨fun hmem => ?_, pptAbKet_nodup sysa sysb is (u + 1) hnd.2 hutl2⟩
        rcases (pptAbKet_mem sysa sysb is (u + 1) hutl2 i).mp hmem with
          ⟨h1, _⟩ | h2
        · exact hnd.1 h1
        · exact absurd (pptFreshB_bound sysa sysb is (u + 1) i h2).1 (by omega)
      · by_cases hib : i ∈ sysb
        · rw [ptrPptIndsAux_cons_b sysa sysb is u hia hib, List.nodup_cons]
          refine ⟨fun hmem => ?_,
            pptAbKet_nodup sysa sysb is (u + 1) hnd.2 hutl2⟩
          rcases (pptAbKet_mem sysa sysb is (u + 1) hutl2 u).mp hmem with
            ⟨h1, _⟩ | h2
          · exact absurd (hutl u h1) (by omega)
          · exact absurd (pptFreshB_bound sysa sysb is (u + 1) u h2).1 (by omega)
        · rw [ptrPptIndsAux_cons_c sysa sysb is u hia hib]
          exact pptAbKet_nodup sysa sysb is u hnd.2 hutl

theorem pptBra_nodup (sysa sysb : List ℕ) :
    ∀ (is : List ℕ) (u : ℕ), is.Nodup → (∀ i ∈ is, i < u) →
      (ptrPptIndsAux sysa sysb is u).2.1.Nodup
  | [], _, _, _ => List.nodup_nil
  | i :: is, u, hnd, hu => by
      rw [List.nodup_cons] at hnd
      have hiu : i < u := hu i (List.mem_cons_self _ _)
      have hutl : ∀ x ∈ is, x < u := fun x hx => hu x (List.mem_cons_of_mem _ hx)
      have hutl2 : ∀ x ∈ is, x < u + 1 := fun x hx => (hutl x hx).trans (by omega)
      by_cases hia : i ∈ sysa
      · rw [ptrPptIndsAux_cons_a sysa sysb is u hia, List.nodup_cons]
        refine ⟨fun hmem => ?_, pptBra_nodup sysa sysb is (u + 1) hnd.2 hutl2⟩
        rcases (pptBra_mem sysa sysb is (u + 1) hutl2 u).mp hmem with
          ⟨h1, _⟩ | h2 | h3
        · exact absurd (hutl u h1) (by omega)
        · exact absurd (pptFreshA_bound sysa sysb is (u + 1) u h2).1 (by omega)
        · exact absurd (pptFreshB_bound sysa sysb is (u + 1) u h3).1 (by omega)
      · by_cases hib : i ∈ sysb
        · rw [ptrPptIndsAux_cons_b sysa sysb is u hia hib, List.nodup_cons]
          refine ⟨fun hmem => ?_,
            pptBra_nodup sysa sysb is (u + 1) hnd.2 hutl2⟩
          rcases (pptBra_mem sysa sysb is (u + 1) hutl2 u).mp hmem with
            ⟨h1, _⟩ | h2 | h3
          · exact absurd (hutl u h1) (by omega)
          · exact absurd (pptFreshA_bound sysa sysb is (u + 1) u h2).1 (by omega)
          · exact absurd (pptFreshB_bound sysa sysb is (u + 1) u h3).1 (by omega)
        · rw [ptrPptIndsAux_cons_c sysa sysb is u hia hib, List.nodup_cons]
          refine ⟨fun hmem => ?_, pptBra_nodup sysa sysb is u hnd.2 hutl⟩
          rcases (pptBra_mem sysa sysb is u hutl i).mp hmem with
            ⟨h1, _⟩ | h2 | h3
          · exact hnd.1 h1
          · exact absurd (pptFreshA_bound sysa sysb is u i h2).1 (by omega)
          · exact absurd (pptFreshB_bound sysa sysb is u i h3).1 (by omega)

theorem pptOut_nodup (sysa sysb : List ℕ) :
    ∀ (is : List ℕ) (u : ℕ), is.Nodup → (∀ i ∈ is, i < u) →
      (ptrPptIndsAux sysa sysb is u).2.2.2.Nodup
  | [], _, _, _ => List.nodup_nil
  | i :: is, u, hnd, hu => by
      rw [List.nodup_cons] at hnd
      have hiu : i < u := hu i (List.mem_cons_self _ _)
      have hutl : ∀ x ∈ is, x < u := fun x hx => hu x (List.mem_cons_of_mem _ hx)
      have hutl2 : ∀ x ∈ is, x < u + 1 := fun x hx => (hutl x hx).trans (by omega)
      by_cases hia : i ∈ sysa
      · rw [ptrPptIndsAux_cons_a sysa sysb is u hia, List.nodup_cons]
        refine ⟨fun hmem => ?_, pptOut_nodup sysa sysb is (u + 1) hnd.2 hutl2⟩
        rcases (pptOut_mem sysa sysb is (u + 1) hutl2 u).mp hmem with
          h1 | ⟨h2, _⟩
        · exact absurd (pptFreshA_bound sysa sysb is (u + 1) u h1).1 (by omega)
        · exact absurd (hutl u h2) (by omega)
      · by_cases hib : i ∈ sysb
        · rw [ptrPptIndsAux_cons_b sysa sysb is u hia hib, List.nodup_cons]
          refine ⟨fun hmem => ?_,
            pptOut_nodup sysa sysb is (u + 1) hnd.2 hutl2⟩
          rcases (pptOut_mem sysa sysb is (u + 1) hutl2 i).mp hmem with
            h1 | ⟨h2, _⟩
          · exact absurd (pptFreshA_bound sysa sysb is (u + 1) i h1).1 (by omega)
          · exact hnd.1 h2
        · rw [ptrPptIndsAux_cons_c sysa sysb is u hia hib]
          exact pptOut_nodup sysa sysb is u hnd.2 hutl

theorem pptOut_length (sysa sysb : List ℕ) :
    ∀ (is : List ℕ) (u : ℕ), (ptrPptIndsAux sysa sysb is u).2.2.2.length =
      (is.filter (memB (sysa ++ sysb))).length
  | [], _ => rfl
  | i :: is, u => by
      by_cases hia : i ∈ sysa
      · have hk : memB (sysa ++ sysb) i = true := by simp [memB, hia]
        rw [ptrPptIndsAux_cons_a sysa sysb is u hia, List.length_cons,
          pptOut_length sysa sysb is (u + 1), List.filter_cons_of_pos hk,
          List.length_cons]
      · by_cases hib : i ∈ sysb
        · have hk : memB (sysa ++ sysb) i = true := by simp [memB, hib]
          rw [ptrPptIndsAux_cons_b sysa sysb is u hia hib, List.length_cons,
            pptOut_length sysa sysb is (u + 1), List.filter_cons_of_pos hk,
            List.length_cons]
        · have hk : memB (sysa ++ sysb) i = false := by simp [memB, hia, hib]
          rw [ptrPptIndsAux_cons_c sysa sysb is u hia hib,
            pptOut_length sysa sysb is u,
            List.filter_cons_of_neg (by simp [hk])]

/-- Closed form of the trace+transpose+dot output labels: the `k`-th output
entry corresponds to the `k`-th kept position; it is the fresh label `u + k`
when that position lies in `sysa`, and the position's own index when it lies
in `sysb`. -/
theorem pptOut_closed (sysa sysb : List ℕ) :
    ∀ (is : List ℕ) (u : ℕ),
      (ptrPptIndsAux sysa sysb is u).2.2.2 =
        (List.range (is.filter (memB (sysa ++ sysb))).length).map (fun k =>
          if memB sysa ((is.filter (memB (sysa ++ sysb))).getD k 0) then u + k
          else (is.filter (memB (sysa ++ sysb))).getD k 0)
  | [], _ => rfl
  | i :: is, u => by
      by_cases hia : i ∈ sysa
      · have hk : memB (sysa ++ sysb) i = true := by simp [memB, hia]
        have hma : memB sysa i = true := by simp [memB, hia]
        rw [ptrPptIndsAux_cons_a sysa sysb is u hia, List.filter_cons_of_pos hk,
          List.length_cons, List.range_succ_eq_map, List.map_cons,
          List.map_map]
        refine congrArg₂ List.cons (by simp [hma]) ?_
        rw [pptOut_closed sysa sysb is (u + 1)]
        refine List.map_congr_left (fun k _ => ?_)
        simp only [Function.comp_def, List.getD_cons_succ]
        split
        · omega
        · rfl
      · by_cases hib : i ∈ sysb
        · have hk : memB (sysa ++ sysb) i = true := by simp [memB, hib]
          have hma : memB sysa i = false := by simp [memB, hia]
          rw [ptrPptIndsAux_cons_b sysa sysb is u hia hib,
            List.filter_cons_of_pos hk, List.length_cons,
            List.range_succ_eq_map, List.map_cons, List.map_map]
          refine congrArg₂ List.cons (by simp [hma]) ?_
          rw [pptOut_closed sysa sysb is (u + 1)]
          refine List.map_congr_left (fun k _ => ?_)
          simp only [Function.comp_def, List.getD_cons_succ]
          split
          · omega
          · rfl
        · have hk : memB (sysa ++ sysb) i = false := by simp [memB, hia, hib]
          rw [ptrPptIndsAux_cons_c sysa sysb is u hia hib,
            List.filter_cons_of_neg (by simp [hk])]
          exact pptOut_closed sysa sysb is u

/-- C7: planner label invariants.  In the trace+dot plan every label occurs
exactly twice across the three input label sequences (a summed index, a base
index below `ndim`) or exactly once (a free fresh index in
`[ndim, 2*ndim)` forming the output).  In the trace+transpose+dot plan every
label occurs exactly twice across the inputs and not in `inds_out`, or once
in an input and once in `inds_out`; `inds_out` has exactly
`|sysa| + |sysb|` entries and records, at each kept position, the fresh
label when the position is in `sysa` and the original index when it is in
`sysb`; and all labels are below `2*ndim`, so fresh labels never collide
with the base indices `0..ndim-1`. -/
theorem C7_planner_invariants (ndim : ℕ) (sysa sysb : List ℕ)
    (hna : sysa.Nodup) (hnb : sysb.Nodup)
    (hsa : ∀ i ∈ sysa, i < ndim) (hsb : ∀ i ∈ sysb, i < ndim)
    (hdisj : ∀ i ∈ sysa, i ∉ sysb) :
    (∀ l ∈ (get_cntrct_inds_ptr_dot ndim sysa).1 ++
        ((get_cntrct_inds_ptr_dot ndim sysa).2.1 ++
          (get_cntrct_inds_ptr_dot ndim sysa).2.2),
      (((get_cntrct_inds_ptr_dot ndim sysa).1 ++
          ((get_cntrct_inds_ptr_dot ndim sysa).2.1 ++
            (get_cntrct_inds_ptr_dot ndim sysa).2.2)).count l = 2 ∧ l < ndim)
      ∨ (((get_cntrct_inds_ptr_dot ndim sysa).1 ++
          ((get_cntrct_inds_ptr_dot ndim sysa).2.1 ++
            (get_cntrct_inds_ptr_dot ndim sysa).2.2)).count l = 1 ∧
          ndim ≤ l ∧ l < 2 * ndim))
    ∧ (∀ l ∈ (get_cntrct_inds_ptr_ppt_dot ndim sysa sysb).1 ++
        ((get_cntrct_inds_ptr_ppt_dot ndim sysa sysb).2.1 ++
          (get_cntrct_inds_ptr_ppt_dot ndim sysa sysb).2.2.1),
      (((get_cntrct_inds_ptr_ppt_dot ndim sysa sysb).1 ++
          ((get_cntrct_inds_ptr_ppt_dot ndim sysa sysb).2.1 ++
            (get_cntrct_inds_ptr_ppt_dot ndim sysa sysb).2.2.1)).count l = 2 ∧
          l ∉ (get_cntrct_inds_ptr_ppt_dot ndim sysa sysb).2.2.2)
      ∨ (((get_cntrct_inds_ptr_ppt_dot ndim sysa sysb).1 ++
          ((get_cntrct_inds_ptr_ppt_dot ndim sysa sysb).2.1 ++
            (get_cntrct_inds_ptr_ppt_dot ndim sysa sysb).2.2.1)).count l = 1 ∧
          (get_cntrct_inds_ptr_ppt_dot ndim sysa sysb).2.2.2.count l = 1))
    ∧ (get_cntrct_inds_ptr_ppt_dot ndim sysa sysb).2.2.2.length =
        sysa.length + sysb.length
    ∧ (get_cntrct_inds_ptr_ppt_dot ndim sysa sysb).2.2.2 =
        (List.range ((List.range ndim).filter
            (memB (sysa ++ sysb))).length).map (fun k =>
          if memB sysa (((List.range ndim).filter
              (memB (sysa ++ sysb))).getD k 0) then ndim + k
          else ((List.range ndim).filter (memB (sysa ++ sysb))).getD k 0)
    ∧ (∀ l ∈ (get_cntrct_inds_ptr_ppt_dot ndim sysa sysb).1 ++
        ((get_cntrct_inds_ptr_ppt_dot ndim sysa sysb).2.1 ++
          (get_cntrct_inds_ptr_ppt_dot ndim sysa sysb).2.2.1), l < 2 * ndim)
    ∧ (∀ l ∈ (get_cntrct_inds_ptr_ppt_dot ndim sysa sysb).2.2.2,
        l < 2 * ndim) := by
  have hnodupR : (List.range ndim).Nodup := List.nodup_range _
  have hbound : ∀ i ∈ List.range ndim, i < ndim := by simp
  have hkle : ((List.range ndim).filter (memB sysa)).length ≤ ndim := by
    calc ((List.range ndim).filter (memB sysa)).length
        ≤ (List.range ndim).length := List.length_filter_le _ _
      _ = ndim := by simp
  have hkleK : ((List.range ndim).filter (memB (sysa ++ sysb))).length ≤
      ndim := by
    calc ((List.range ndim).filter (memB (sysa ++ sysb))).length
        ≤ (List.range ndim).length := List.length_filter_le _ _
      _ = ndim := by simp
  simp only [get_cntrct_inds_ptr_dot, get_cntrct_inds_ptr_ppt_dot]
  refine ⟨?_, ?_, ?_, ?_, ?_, ?_⟩
  · -- trace+dot counts
    intro l hl
    rw [ptrDot_fst, ptrDot_bra] at hl ⊢
    by_cases hln : l < ndim
    · have hcb : (List.range ndim).count l = 1 :=
        List.count_eq_one_of_mem hnodupR (List.mem_range.mpr hln)
      by_cases hls : l ∈ sysa
      · have hca : ((List.range ndim).filter (memB sysa)).count l = 1 :=
          List.count_eq_one_of_mem (hnodupR.filter _)
            (List.mem_filter.mpr ⟨List.mem_range.mpr hln, by simp [memB, hls]⟩)
        have hck : (ptrDotIndsAux sysa (List.range ndim) ndim).2.2.count l =
            0 := by
          refine List.count_eq_zero.mpr (fun h => ?_)
          rcases (ptrDot_ket_mem sysa _ _ hbound l).mp h with
            ⟨_, hna2⟩ | ⟨hge, _⟩
          · exact hna2 hls
          · omega
        exact Or.inl ⟨by
          rw [List.count_append, List.count_append, hca, hcb, hck], hln⟩
      · have hca : ((List.range ndim).filter (memB sysa)).count l = 0 := by
          refine List.count_eq_zero.mpr (fun h => ?_)
          have := (List.mem_filter.mp h).2
          simp only [memB, decide_eq_true_eq] at this
          exact hls this
        have hck : (ptrDotIndsAux sysa (List.range ndim) ndim).2.2.count l =
            1 :=
          List.count_eq_one_of_mem (ptrDot_ket_nodup sysa _ _ hnodupR hbound)
            ((ptrDot_ket_mem sysa _ _ hbound l).mpr
              (Or.inl ⟨List.mem_range.mpr hln, hls⟩))
        exact Or.inl ⟨by
          rw [List.count_append, List.count_append, hca, hcb, hck], hln⟩
    · have hca : ((List.range ndim).filter (memB sysa)).count l = 0 := by
        refine List.count_eq_zero.mpr (fun h => ?_)
        have := List.mem_range.mp (List.mem_filter.mp h).1
        omega
      have hcb : (List.range ndim).count l = 0 :=
        List.count_eq_zero.mpr (fun h => hln (List.mem_range.mp h))
      have hlket : l ∈ (ptrDotIndsAux sysa (List.range ndim) ndim).2.2 := by
        rcases List.mem_append.mp hl with h1 | h2
        · exact absurd (List.mem_range.mp (List.mem_filter.mp h1).1) hln
        · rcases List.mem_append.mp h2 with h3 | h4
          · exact absurd (List.mem_range.mp h3) hln
          · exact h4
      have hck : (ptrDotIndsAux sysa (List.range ndim) ndim).2.2.count l = 1 :=
        List.count_eq_one_of_mem (ptrDot_ket_nodup sysa _ _ hnodupR hbound)
          hlket
      have hbd : ndim ≤ l ∧ l < ndim +
          ((List.range ndim).filter (memB sysa)).length := by
        rcases (ptrDot_ket_mem sysa _ _ hbound l).mp hlket with
          ⟨h1, _⟩ | ⟨h1, h2⟩
        · exact absurd (List.mem_range.mp h1) hln
        · exact ⟨h1, h2⟩
      refine Or.inr ⟨by
        rw [List.count_append, List.count_append, hca, hcb, hck], hbd.1, ?_⟩
      omega
  · -- trace+transpose+dot counts
    intro l hl
    have hketP := pptKet_eq sysa sysb (List.range ndim) ndim
    rw [hketP] at hl ⊢
    have hOm := pptOut_mem sysa sysb (List.range ndim) ndim hbound l
    have hAm := pptAbKet_mem sysa sysb (List.range ndim) ndim hbound l
    have hBm := pptBra_mem sysa sysb (List.range ndim) ndim hbound l
    have hAnd := pptAbKet_nodup sysa sysb (List.range ndim) ndim hnodupR hbound
    have hBnd := pptBra_nodup sysa sysb (List.range ndim) ndim hnodupR hbound
    have hOnd := pptOut_nodup sysa sysb (List.range ndim) ndim hnodupR hbound
    by_cases hln : l < ndim
    · have hcket : (List.range ndim).count l = 1 :=
        List.count_eq_one_of_mem hnodupR (List.mem_range.mpr hln)
      by_cases hlsa : l ∈ sysa
      · have hc1 : (ptrPptIndsAux sysa sysb (List.range ndim) ndim).1.count l =
            1 :=
          List.count_eq_one_of_mem hAnd
            (hAm.mpr (Or.inl ⟨List.mem_range.mpr hln, hlsa⟩))
        have hc2 : (ptrPptIndsAux sysa sysb
            (List.range ndim) ndim).2.1.count l = 0 := by
          refine List.count_eq_zero.mpr (fun h => ?_)
          rcases hBm.mp h with ⟨_, hq, _⟩ | h2 | h3
          · exact hq hlsa
          · exact absurd (pptFreshA_bound sysa sysb _ _ l h2).1 (by omega)
          · exact absurd (pptFreshB_bound sysa sysb _ _ l h3).1 (by omega)
        refine Or.inl ⟨by
          rw [List.count_append, List.count_append, hc1, hc2, hcket],
          fun h => ?_⟩
        rcases hOm.mp h with h1 | ⟨_, hq, _⟩
        · exact absurd (pptFreshA_bound sysa sysb _ _ l h1).1 (by omega)
        · exact hq hlsa
      · by_cases hlsb : l ∈ sysb
        · have hc1 : (ptrPptIndsAux sysa sysb
              (List.range ndim) ndim).1.count l = 0 := by
            refine List.count_eq_zero.mpr (fun h => ?_)
            rcases hAm.mp h with ⟨_, hq⟩ | h2
            · exact hlsa hq
            · exact absurd (pptFreshB_bound sysa sysb _ _ l h2).1 (by omega)
          have hc2 : (ptrPptIndsAux sysa sysb
              (List.range ndim) ndim).2.1.count l = 0 := by
            refine List.count_eq_zero.mpr (fun h => ?_)
            rcases hBm.mp h with ⟨_, _, hq⟩ | h2 | h3
            · exact hq hlsb
            · exact absurd (pptFreshA_bound sysa sysb _ _ l h2).1 (by omega)
            · exact absurd (pptFreshB_bound sysa sysb _ _ l h3).1 (by omega)
          have hcout : (ptrPptIndsAux sysa sysb
              (List.range ndim) ndim).2.2.2.count l = 1 :=
            List.count_eq_one_of_mem hOnd
              (hOm.mpr (Or.inr ⟨List.mem_range.mpr hln, hlsa, hlsb⟩))
          exact Or.inr ⟨by
            rw [List.count_append, List.count_append, hc1, hc2, hcket], hcout⟩
        · have hc1 : (ptrPptIndsAux sysa sysb
              (List.range ndim) ndim).1.count l = 0 := by
            refine List.count_eq_zero.mpr (fun h => ?_)
            rcases hAm.mp h with ⟨_, hq⟩ | h2
            · exact hlsa hq
            · exact absurd (pptFreshB_bound sysa sysb _ _ l h2).1 (by omega)
          have hc2 : (ptrPptIndsAux sysa sysb
              (List.range ndim) ndim).2.1.count l = 1 :=
            List.count_eq_one_of_mem hBnd
              (hBm.mpr (Or.inl ⟨List.mem_range.mpr hln, hlsa, hlsb⟩))
          refine Or.inl ⟨by
            rw [List.count_append, List.count_append, hc1, hc2, hcket],
            fun h => ?_⟩
          rcases hOm.mp h with h1 | ⟨_, _, hq⟩
          · exact absurd (pptFreshA_bound sysa sysb _ _ l h1).1 (by omega)
          · exact hlsb hq
    · have hcket : (List.range ndim).count l = 0 :=
        List.count_eq_zero.mpr (fun h => hln (List.mem_range.mp h))
      have hlAB : l ∈ pptFreshA sysa sysb (List.range ndim) ndim ∨
          l ∈ pptFreshB sysa sysb (List.range ndim) ndim := by
        rcases List.mem_append.mp hl with h1 | h2
        · rcases hAm.mp h1 with ⟨h3, _⟩ | h4
          · exact absurd (List.mem_range.mp h3) hln
          · exact Or.inr h4
        · rcases List.mem_append.mp h2 with h3 | h4
          · rcases hBm.mp h3 with ⟨h5, _⟩ | h5 | h5
            · exact absurd (List.mem_range.mp h5) hln
            · exact Or.inl h5
            · exact Or.inr h5
          · exact absurd (List.mem_range.mp h4) hln
      by_cases hlFB : l ∈ pptFreshB sysa sysb (List.range ndim) ndim
      · have hc1 : (ptrPptIndsAux sysa sysb
            (List.range ndim) ndim).1.count l = 1 :=
          List.count_eq_one_of_mem hAnd (hAm.mpr (Or.inr hlFB))
        have hc2 : (ptrPptIndsAux sysa sysb
            (List.range ndim) ndim).2.1.count l = 1 :=
          List.count_eq_one_of_mem hBnd (hBm.mpr (Or.inr (Or.inr hlFB)))
        refine Or.inl ⟨by
          rw [List.count_append, List.count_append, hc1, hc2, hcket],
          fun h => ?_⟩
        rcases hOm.mp h with h1 | ⟨h2, _⟩
        · exact pptFresh_disjoint sysa sysb _ _ l h1 hlFB
        · exact absurd (List.mem_range.mp h2) hln
      · have hlFA : l ∈ pptFreshA sysa sysb (List.range ndim) ndim := by
          rcases hlAB with h | h
          · exact h
          · exact absurd h hlFB
        have hc1 : (ptrPptIndsAux sysa sysb
            (List.range ndim) ndim).1.count l = 0 := by
          refine List.count_eq_zero.mpr (fun h => ?_)
          rcases hAm.mp h with ⟨h3, _⟩ | h4
          · exact absurd (List.mem_range.mp h3) hln
          · exact hlFB h4
        have hc2 : (ptrPptIndsAux sysa sysb
            (List.range ndim) ndim).2.1.count l = 1 :=
          List.count_eq_one_of_mem hBnd (hBm.mpr (Or.inr (Or.inl hlFA)))
        have hcout : (ptrPptIndsAux sysa sysb
            (List.range ndim) ndim).2.2.2.count l = 1 :=
          List.count_eq_one_of_mem hOnd (hOm.mpr (Or.inl hlFA))
        exact Or.inr ⟨by
          rw [List.count_append, List.count_append, hc1, hc2, hcket], hcout⟩
  · -- output length
    rw [pptOut_length]
    have hndAB : (sysa ++ sysb).Nodup := by
      rw [List.nodup_append]
      exact ⟨hna, hnb, fun a ha => hdisj a ha⟩
    have hperm : ((List.range ndim).filter (memB (sysa ++ sysb))).Perm
        (sysa ++ sysb) := by
      refine (List.perm_ext_iff_of_nodup (hnodupR.filter _) hndAB).mpr
        (fun l => ?_)
      rw [List.mem_filter]
      constructor
      · rintro ⟨_, h2⟩
        simpa [memB] using h2
      · intro h
        have hlt : l < ndim := by
          rcases List.mem_append.mp h with h1 | h2
          · exact hsa l h1
          · exact hsb l h2
        exact ⟨List.mem_range.mpr hlt, by simpa [memB] using h⟩
    rw [hperm.length_eq, List.length_append]
  · -- output closed form
    exact pptOut_closed sysa sysb (List.range ndim) ndim
  · -- input label bound
    intro l hl
    rw [pptKet_eq sysa sysb (List.range ndim) ndim] at hl
    have hAm := pptAbKet_mem sysa sysb (List.range ndim) ndim hbound l
    have hBm := pptBra_mem sysa sysb (List.range ndim) ndim hbound l
    rcases List.mem_append.mp hl with h1 | h2
    · rcases hAm.mp h1 with ⟨h3, _⟩ | h4
      · have := List.mem_range.mp h3
        omega
      · have := (pptFreshB_bound sysa sysb _ _ l h4).2
        omega
    · rcases List.mem_append.mp h2 with h3 | h4
      · rcases hBm.mp h3 with ⟨h5, _⟩ | h5 | h5
        · have := List.mem_range.mp h5
          omega
        · have := (pptFreshA_bound sysa sysb _ _ l h5).2
          omega
        · have := (pptFreshB_bound sysa sysb _ _ l h5).2
          omega
      · have := List.mem_range.mp h4
        omega
  · -- output label bound
    intro l hl
    rcases (pptOut_mem sysa sysb (List.range ndim) ndim hbound l).mp hl with
      h1 | ⟨h2, _⟩
    · have := (pptFreshA_bound sysa sysb _ _ l h1).2
      omega
    · have := List.mem_range.mp h2
      omega

/-- Witness for C7 at `ndim = 3`, `sysa = {0}`, `sysb = {2}`. -/
theorem C7_planner_invariants_witness :
    (∀ l ∈ (get_cntrct_inds_ptr_dot 3 [0]).1 ++
        ((get_cntrct_inds_ptr_dot 3 [0]).2.1 ++
          (get_cntrct_inds_ptr_dot 3 [0]).2.2),
      (((get_cntrct_inds_ptr_dot 3 [0]).1 ++
          ((get_cntrct_inds_ptr_dot 3 [0]).2.1 ++
            (get_cntrct_inds_ptr_dot 3 [0]).2.2)).count l = 2 ∧ l < 3)
      ∨ (((get_cntrct_inds_ptr_dot 3 [0]).1 ++
          ((get_cntrct_inds_ptr_dot 3 [0]).2.1 ++
            (get_cntrct_inds_ptr_dot 3 [0]).2.2)).count l = 1 ∧
          3 ≤ l ∧ l < 2 * 3))
    ∧ (∀ l ∈ (get_cntrct_inds_ptr_ppt_dot 3 [0] [2]).1 ++
        ((get_cntrct_inds_ptr_ppt_dot 3 [0] [2]).2.1 ++
          (get_cntrct_inds_ptr_ppt_dot 3 [0] [2]).2.2.1),
      (((get_cntrct_inds_ptr_ppt_dot 3 [0] [2]).1 ++
          ((get_cntrct_inds_ptr_ppt_dot 3 [0] [2]).2.1 ++
            (get_cntrct_inds_ptr_ppt_dot 3 [0] [2]).2.2.1)).count l = 2 ∧
          l ∉ (get_cntrct_inds_ptr_ppt_dot 3 [0] [2]).2.2.2)
      ∨ (((get_cntrct_inds_ptr_ppt_dot 3 [0] [2]).1 ++
          ((get_cntrct_inds_ptr_ppt_dot 3 [0] [2]).2.1 ++
            (get_cntrct_inds_ptr_ppt_dot 3 [0] [2]).2.2.1)).count l = 1 ∧
          (get_cntrct_inds_ptr_ppt_dot 3 [0] [2]).2.2.2.count l = 1))
    ∧ (get_cntrct_inds_ptr_ppt_dot 3 [0] [2]).2.2.2.length =
        ([0] : List ℕ).length + ([2] : List ℕ).length
    ∧ (get_cntrct_inds_ptr_ppt_dot 3 [0] [2]).2.2.2 =
        (List.range ((List.range 3).filter
            (memB ([0] ++ [2]))).length).map (fun k =>
          if memB [0] (((List.range 3).filter
              (memB ([0] ++ [2]))).getD k 0) then 3 + k
          else ((List.range 3).filter (memB ([0] ++ [2]))).getD k 0)
    ∧ (∀ l ∈ (get_cntrct_inds_ptr_ppt_dot 3 [0] [2]).1 ++
        ((get_cntrct_inds_ptr_ppt_dot 3 [0] [2]).2.1 ++
          (get_cntrct_inds_ptr_ppt_dot 3 [0] [2]).2.2.1), l < 2 * 3)
    ∧ (∀ l ∈ (get_cntrct_inds_ptr_ppt_dot 3 [0] [2]).2.2.2, l < 2 * 3) :=
  C7_planner_invariants 3 [0] [2] (by decide) (by decide) (by decide)
    (by decide) (by decide)

/-! ## Lanczos engine: loop refinement, breakdown behaviour, spectral sum -/

theorem getD_map_range {α : Type} (n j : ℕ) (f : ℕ → α) (dflt : α)
    (h : j < n) : ((List.range n).map f).getD j dflt = f j := by
  rw [List.getD_eq_getElem?_getD, List.getElem?_map, List.getElem?_range h]
  rfl

theorem sum_flatMap {α R : Type} [AddCommMonoid R] (l : List α)
    (g : α → List R) : (l.flatMap g).sum = (l.map (fun a => (g a).sum)).sum := by
  induction l with
  | nil => rfl
  | cons a t ih => simp [List.flatMap_cons, ih]

theorem length_flatMap {α β : Type} (l : List α) (g : α → List β) :
    (l.flatMap g).length = (l.map (fun a => (g a).length)).sum := by
  induction l with
  | nil => rfl
  | cons a t ih => simp [List.flatMap_cons, ih]

theorem range'_one_concat : ∀ (s M : ℕ),
    List.range' s (M + 1) = List.range' s M ++ [s + M]
  | s, 0 => by simp [List.range']
  | s, M + 1 => by
      have h1 : List.range' s (M + 1 + 1) = s :: List.range' (s + 1) (M + 1) :=
        rfl
      have h2 : List.range' s (M + 1) = s :: List.range' (s + 1) M := rfl
      rw [h1, range'_one_concat (s + 1) M, h2,
        show s + 1 + M = s + (M + 1) from by omega, List.cons_append]

theorem lanczosLoop_succ {K : Type} [Field K] (conjK reK sqrtK : K → K)
    (IK : K) (Adot : List K → List K) (d : ℕ) (v0 : Option (List K))
    (rndRe rndIm : List K) (M : ℕ) :
    lanczosLoop conjK reK sqrtK IK Adot d (M + 1) v0 rndRe rndIm =
      lanczosStep conjK reK sqrtK Adot
        (lanczosLoop conjK reK sqrtK IK Adot d M v0 rndRe rndIm) (M + 1) := by
  rw [lanczosLoop, lanczosLoop, range'_one_concat 1 M,
    List.foldl_append, List.foldl_cons, List.foldl_nil, Nat.add_comm 1 M]

/-- Refinement of the Krylov loop by the specification recurrence: after `M`
iterations the last two Krylov columns and trailing `beta` agree with the
specification state, and every recorded `alpha_j` (`1 ≤ j ≤ M`) and `beta_j`
(`2 ≤ j ≤ M+1`) equals its specification value. -/
theorem lanczosLoop_spec {K : Type} [Field K] (conjK reK sqrtK : K → K)
    (IK : K) (Adot : List K → List K) (d : ℕ) (v0 : Option (List K))
    (rndRe rndIm : List K) :
    ∀ M : ℕ,
      (lanczosLoop conjK reK sqrtK IK Adot d M v0 rndRe rndIm).vk M =
        (lanczosSpecIter conjK reK sqrtK Adot d
          (lanczosSpecStart conjK reK sqrtK IK v0 rndRe rndIm) M).1
      ∧ (lanczosLoop conjK reK sqrtK IK Adot d M v0 rndRe rndIm).vk (M + 1) =
        (lanczosSpecIter conjK reK sqrtK Adot d
          (lanczosSpecStart conjK reK sqrtK IK v0 rndRe rndIm) M).2.1
      ∧ (lanczosLoop conjK reK sqrtK IK Adot d M v0 rndRe rndIm).beta (M + 1) =
        (lanczosSpecIter conjK reK sqrtK Adot d
          (lanczosSpecStart conjK reK sqrtK IK v0 rndRe rndIm) M).2.2
      ∧ (∀ j, 1 ≤ j → j ≤ M →
          (lanczosLoop conjK reK sqrtK IK Adot d M v0 rndRe rndIm).alpha j =
            lanczosSpecAlpha conjK reK sqrtK Adot d
              (lanczosSpecStart conjK reK sqrtK IK v0 rndRe rndIm) j)
      ∧ (∀ j, 2 ≤ j → j ≤ M + 1 →
          (lanczosLoop conjK reK sqrtK IK Adot d M v0 rndRe rndIm).beta j =
            lanczosSpecBeta conjK reK sqrtK Adot d
              (lanczosSpecStart conjK reK sqrtK IK v0 rndRe rndIm) j) := by
  intro M
  induction M with
  | zero =>
      refine ⟨?_, ?_, ?_, ?_, ?_⟩
      · simp [lanczosLoop, List.range', lanczosInitState, lanczosSpecIter]
      · simp [lanczosLoop, List.range', lanczosInitState, lanczosSpecIter,
          lanczosSpecStart]
      · simp [lanczosLoop, List.range', lanczosInitState, lanczosSpecIter]
      · intro j h1 h2
        omega
      · intro j h1 h2
        omega
  | succ M ih =>
      obtain ⟨ih1, ih2, ih3, ih4, ih5⟩ := ih
      rw [lanczosLoop_succ conjK reK sqrtK IK Adot d v0 rndRe rndIm M]
      refine ⟨?_, ?_, ?_, ?_, ?_⟩
      · simp only [lanczosStep]
        rw [Function.update_noteq (by omega)]
        rw [ih2]
        simp [lanczosSpecIter, lanczosSpecStep]
      · simp only [lanczosStep, Function.update_same, Nat.add_sub_cancel]
        rw [ih1, ih2, ih3]
        simp [lanczosSpecIter, lanczosSpecStep]
      · simp only [lanczosStep, Function.update_same, Nat.add_sub_cancel]
        rw [ih1, ih2, ih3]
        simp [lanczosSpecIter, lanczosSpecStep]
      · intro j h1 h2
        by_cases hj : j = M + 1
        · subst hj
          simp only [lanczosStep, Function.update_same, Nat.add_sub_cancel]
          rw [ih1, ih2, ih3]
          simp [lanczosSpecAlpha, Nat.add_sub_cancel]
        · simp only [lanczosStep]
          rw [Function.update_noteq hj]
          exact ih4 j h1 (by omega)
      · intro j h1 h2
        by_cases hj : j = M + 2
        · subst hj
          simp only [lanczosStep, Nat.add_sub_cancel]
          rw [show M + 2 = M + 1 + 1 from rfl, Function.update_same]
          rw [ih1, ih2, ih3]
          simp [lanczosSpecBeta, lanczosSpecIter, lanczosSpecStep,
            Nat.add_sub_cancel]
        · simp only [lanczosStep]
          rw [Function.update_noteq (by omega)]
          exact ih5 j h1 (by omega)

theorem lanczosLoop_log_length {K : Type} [Field K] (conjK reK sqrtK : K → K)
    (IK : K) (Adot : List K → List K) (d : ℕ) (v0 : Option (List K))
    (rndRe rndIm : List K) :
    ∀ M : ℕ,
      (lanczosLoop conjK reK sqrtK IK Adot d M v0 rndRe rndIm).log.length =
        M := by
  intro M
  induction M with
  | zero => rfl
  | succ M ih =>
      rw [lanczosLoop_succ conjK reK sqrtK IK Adot d v0 rndRe rndIm M]
      simp [lanczosStep, ih]

/-- C5: for `M ≥ 1` (and no breakdown assumption needed for the recurrence
itself), `construct_lanczos_tridiag` returns `alpha` of length `M` and
`beta` of length `M−1`, whose entries are exactly the values of the
specification recurrence (`v_0 = 0`, `beta_1 = 0`, `v_1` the normalised
start vector — the random complex vector built from the two independent
normal draws when `v0` is not supplied — and for `k = 1..M`:
`w = A v_k − beta_k v_{k−1}`, `alpha_k = Re⟨w, v_k⟩`, `w -= alpha_k v_k`,
`beta_{k+1} = sqrt(Re⟨w, w⟩)`, `v_{k+1} = w / beta_{k+1}`). -/
theorem C5_construct_lanczos_tridiag {K : Type} [Field K]
    (conjK reK sqrtK : K → K) (IK : K) (Adot : List K → List K)
    (d M : ℕ) (v0 : Option (List K)) (rndRe rndIm : List K) (hM : 1 ≤ M) :
    (construct_lanczos_tridiag conjK reK sqrtK IK Adot d M v0 rndRe
        rndIm).1.length = M
    ∧ (construct_lanczos_tridiag conjK reK sqrtK IK Adot d M v0 rndRe
        rndIm).2.length = M - 1
    ∧ (∀ k, 1 ≤ k → k ≤ M →
        (construct_lanczos_tridiag conjK reK sqrtK IK Adot d M v0 rndRe
            rndIm).1.getD (k - 1) 0 =
          lanczosSpecAlpha conjK reK sqrtK Adot d
            (lanczosSpecStart conjK reK sqrtK IK v0 rndRe rndIm) k)
    ∧ (∀ k, 2 ≤ k → k ≤ M →
        (construct_lanczos_tridiag conjK reK sqrtK IK Adot d M v0 rndRe
            rndIm).2.getD (k - 2) 0 =
          lanczosSpecBeta conjK reK sqrtK Adot d
            (lanczosSpecStart conjK reK sqrtK IK v0 rndRe rndIm) k) := by
  obtain ⟨_, _, _, h4, h5⟩ :=
    lanczosLoop_spec conjK reK sqrtK IK Adot d v0 rndRe rndIm M
  refine ⟨by simp [construct_lanczos_tridiag],
    by simp [construct_lanczos_tridiag], ?_, ?_⟩
  · intro k h1 h2
    simp only [construct_lanczos_tridiag]
    rw [getD_map_range _ _ _ _ (by omega), show k - 1 + 1 = k from by omega]
    exact h4 k h1 h2
  · intro k h1 h2
    simp only [construct_lanczos_tridiag]
    rw [getD_map_range _ _ _ _ (by omega), show k - 2 + 2 = k from by omega]
    exact h5 k h1 (by omega)

/-- Witness for C5 over `ℚ` with identity primitives, `A = id`, `d = 1`,
`M = 2`, `v0 = (1)`. -/
theorem C5_construct_lanczos_tridiag_witness :
    (construct_lanczos_tridiag (K := ℚ) id id id 0 id 1 2 (some [1]) []
        []).1.length = 2
    ∧ (construct_lanczos_tridiag (K := ℚ) id id id 0 id 1 2 (some [1]) []
        []).2.length = 2 - 1
    ∧ (construct_lanczos_tridiag (K := ℚ) id id id 0 id 1 2 (some [1]) []
        []).1.getD 0 0 =
      lanczosSpecAlpha (K := ℚ) id id id id 1
        (lanczosSpecStart (K := ℚ) id id id 0 (some [1]) [] []) 1
    ∧ (construct_lanczos_tridiag (K := ℚ) id id id 0 id 1 2 (some [1]) []
        []).2.getD 0 0 =
      lanczosSpecBeta (K := ℚ) id id id id 1
        (lanczosSpecStart (K := ℚ) id id id 0 (some [1]) [] []) 2 :=
  ⟨(C5_construct_lanczos_tridiag (K := ℚ) id id id 0 id 1 2 (some [1]) [] []
      (by decide)).1,
   (C5_construct_lanczos_tridiag (K := ℚ) id id id 0 id 1 2 (some [1]) [] []
      (by decide)).2.1,
   (C5_construct_lanczos_tridiag (K := ℚ) id id id 0 id 1 2 (some [1]) [] []
      (by decide)).2.2.1 1 (by decide) (by decide),
   (C5_construct_lanczos_tridiag (K := ℚ) id id id 0 id 1 2 (some [1]) [] []
      (by decide)).2.2.2 2 (by decide) (by decide)⟩

/-- C6: at `M = 2` with the one-dimensional operator `A = id` and start
vector `(1)`, the first Krylov step already produces a zero norm
(`beta_2 = 0`: breakdown at `k = 1 < M`), yet `construct_lanczos_tridiag`
signals nothing — it divides the next Krylov vector by the zero norm (the
quotient is the zero vector in this exact model, `NaN`s in floating point)
and returns full-length `alpha = (1, 0)`, `beta = (0)` as a plain pair:
there is no raised error or flagged return distinguishing the breakdown. -/
theorem C6_breakdown_unsignalled :
    (lanczosLoop (K := ℚ) id id id 0 id 1 2 (some [1]) [] []).beta 2 = 0
    ∧ (lanczosLoop (K := ℚ) id id id 0 id 1 2 (some [1]) [] []).vk 2 = [0]
    ∧ construct_lanczos_tridiag (K := ℚ) id id id 0 id 1 2 (some [1]) [] [] =
        ([1, 0], [0]) :=
  ⟨by
    norm_num [lanczosLoop, List.range', lanczosStep, lanczosInitState, vdotC,
      vsub, vsmul, vdiv, Function.update_apply],
   by
    norm_num [lanczosLoop, List.range', lanczosStep, lanczosInitState, vdotC,
      vsub, vsmul, vdiv, Function.update_apply],
   by
    norm_num [construct_lanczos_tridiag, lanczosLoop, List.range',
      List.range_succ, lanczosStep, lanczosInitState, vdotC, vsub, vsmul,
      vdiv, Function.update_apply]⟩

/-- C4: `approx_spectral_function(A, fn, M, R, v0)` returns exactly
`(d / R)` times the sum, over the `R` restarts and the `M` eigenpairs of
each restart's tridiagonal matrix, of `fn(eigenvalue_i)` times the square
of the first component of `eigenvector_i`; and it applies the operator
exactly `M * R` times — the count is the same for every operator and every
random stream, so no convergence check shortens or extends the run. -/
theorem C4_approx_spectral_function {K : Type} [Field K]
    (conjK reK sqrtK : K → K) (IK : K)
    (eigBanded : List K → List K → (ℕ → K) × (ℕ → ℕ → K))
    (Adot : List K → List K) (fn : K → K) (d M nR : ℕ)
    (v0 : Option (List K)) (rnds : ℕ → List K × List K) :
    approx_spectral_function conjK reK sqrtK IK eigBanded Adot fn d M nR v0
        rnds =
      ((d : K) / (nR : K)) *
        lsum (List.range nR) (fun r =>
          lsum (List.range M) (fun i =>
            fn ((lanczos_tridiag_eig eigBanded
                (construct_lanczos_tridiag conjK reK sqrtK IK Adot d M v0
                  (rnds r).1 (rnds r).2).1
                (construct_lanczos_tridiag conjK reK sqrtK IK Adot d M v0
                  (rnds r).1 (rnds r).2).2).1 i) *
              ((lanczos_tridiag_eig eigBanded
                (construct_lanczos_tridiag conjK reK sqrtK IK Adot d M v0
                  (rnds r).1 (rnds r).2).1
                (construct_lanczos_tridiag conjK reK sqrtK IK Adot d M v0
                  (rnds r).1 (rnds r).2).2).2 0 i) ^ 2))
    ∧ (approxSpectralMatvecLog conjK reK sqrtK IK Adot d M nR v0
        rnds).length = M * nR := by
  constructor
  · simp only [approx_spectral_function]
    rw [mul_comm, sum_flatMap]
    rfl
  · simp only [approxSpectralMatvecLog]
    rw [length_flatMap]
    have heach : ∀ r : ℕ, (lanczosMatvecLog conjK reK sqrtK IK Adot d M v0
        (rnds r).1 (rnds r).2).length = M := fun r =>
      lanczosLoop_log_length conjK reK sqrtK IK Adot d v0
        (rnds r).1 (rnds r).2 M
    rw [show (fun r : ℕ => (lanczosMatvecLog conjK reK sqrtK IK Adot d M v0
        (rnds r).1 (rnds r).2).length) = (fun _ : ℕ => M) from funext heach]
    simp [List.sum_replicate, Nat.mul_comm]

end Quimb
